import Mathlib

/-!
# Incremental hash table (`src/hashtable.cpp`): embedding and verification

The intrusive chained hash map of the repository is embedded as pure state-passing
functions.

* A node pointer is modelled by the value `HNode` (identity of the containing record
  plus the stored hash code); the `next` link of a node is implicit in the position
  of the node inside the `List` that models its bucket chain.  This is faithful as
  long as a node is linked into the map at most once at a time, which is the calling
  convention of an intrusive container (`Reach` below records it as the freshness
  premise of the insert step).
* `size_t` and `uint64_t` values are natural numbers.  Counts never wrap: a table
  holds distinct live records, and a bucket array that `calloc` returned has fewer
  than `2^61` slots; `calloc` is assumed to succeed.
* Undefined behaviour of the C code (reading outside a bucket array, dereferencing a
  null table, a failing `assert`) is the result `none`.
-/

namespace HashTable

/-- Modelled from the spec: `struct HNode` is declared in `hashtable.h`, which is not
part of the sources.  A hash node carries a precomputed hash code; `id` stands for the
address of the node, that is for the caller's record that embeds it.  The `next`
link is the tail of the chain the node is stored in. -/
structure HNode where
  id : Nat
  hcode : Nat
deriving DecidableEq

/-- A bucket chain: the nodes reached from a bucket head through `next`. -/
abbrev Chain := List HNode

/-- Modelled from the spec: `struct HTab` is declared in `hashtable.h`, which is not
part of the sources.  A bucket table is an array of bucket heads (`none` is the null
pointer), a bit mask and a live-entry count. -/
structure HTab where
  tab : Option (List Chain)
  mask : Nat
  size : Nat
deriving DecidableEq

/-- Modelled from the spec: `struct HMap` is declared in `hashtable.h`, which is not
part of the sources.  Two bucket tables and the migration cursor. -/
structure HMap where
  newer : HTab
  older : HTab
  migrate_pos : Nat
deriving DecidableEq

/-- The all-zero table `(HTab){0}`. -/
def HTab.zero : HTab := ⟨none, 0, 0⟩

/-- The zero-initialised map `(HMap){0}`. -/
def HMap.zero : HMap := ⟨HTab.zero, HTab.zero, 0⟩

/-- An address of a link: slot `(pos, k)` is the bucket head `tab[pos]` when `k = 0`
and the `next` field of the `k`-th node of that chain otherwise (`HNode **`). -/
abbrev Slot := Nat × Nat

/-- `h_init`: the assertion, then a zeroed array of `n` bucket heads. -/
def h_init (n : Nat) : Option HTab :=
  if n > 0 ∧ (n - 1) &&& n = 0 then
    some { tab := some (List.replicate n []), mask := n - 1, size := 0 }
  else none

/-- `h_insert`: link the node in front of the chain of bucket `hcode & mask`. -/
def h_insert (htab : HTab) (node : HNode) : Option HTab :=
  match htab.tab with
  | none => none
  | some bs =>
    let pos := node.hcode &&& htab.mask
    match bs[pos]? with
    | none => none
    | some chain =>
      some { tab := some (bs.set pos (node :: chain)), mask := htab.mask,
             size := htab.size + 1 }

/-- The `for` loop of `h_lookup`: index of the first node of the chain, counted from
position `k`, whose hash code equals the key's and for which `eq` holds. -/
def chain_lookup (key : HNode) (eq : HNode → HNode → Bool) :
    Chain → Nat → Option Nat
  | [], _ => none
  | cur :: rest, k =>
    if cur.hcode = key.hcode ∧ eq cur key = true then some k
    else chain_lookup key eq rest (k + 1)

/-- `h_lookup`: outer `none` is undefined behaviour, inner `none` is `NULL`. -/
def h_lookup (htab : HTab) (key : HNode) (eq : HNode → HNode → Bool) :
    Option (Option Slot) :=
  match htab.tab with
  | none => some none
  | some bs =>
    let pos := key.hcode &&& htab.mask
    match bs[pos]? with
    | none => none
    | some chain => some ((chain_lookup key eq chain 0).map (fun k => (pos, k)))

/-- Reading `*from`: the node a slot points to. -/
def h_deref (htab : HTab) (slot : Slot) : Option HNode :=
  match htab.tab with
  | none => none
  | some bs =>
    match bs[slot.1]? with
    | none => none
    | some chain => chain[slot.2]?

/-- `h_detach`: unlink the node the slot points to and decrement the count. -/
def h_detach (htab : HTab) (slot : Slot) : Option (HTab × HNode) :=
  match htab.tab with
  | none => none
  | some bs =>
    match bs[slot.1]? with
    | none => none
    | some chain =>
      match chain[slot.2]? with
      | none => none
      | some node =>
        some ({ tab := some (bs.set slot.1 (chain.eraseIdx slot.2)), mask := htab.mask,
                size := htab.size - 1 }, node)

/-- The budget of one migration slice. -/
def k_rehashing_work : Nat := 128

/-- The `while` loop of `hm_help_rehashing`.  `work` is the counter of the source,
`iters` counts the executions of the loop body (instrumentation).  The first argument
bounds the number of iterations still allowed. -/
def rehash_loop : Nat → HMap → Nat → Nat → Option (HMap × Nat × Nat)
  | 0, _, _, _ => none
  | fuel + 1, hmap, work, iters =>
    if work < k_rehashing_work ∧ hmap.older.size > 0 then
      match hmap.older.tab with
      | none => none
      | some bs =>
        match bs[hmap.migrate_pos]? with
        | none => none
        | some [] =>
          rehash_loop fuel { hmap with migrate_pos := hmap.migrate_pos + 1 } work (iters + 1)
        | some (_ :: _) =>
          match h_detach hmap.older (hmap.migrate_pos, 0) with
          | none => none
          | some (older1, moved) =>
            match h_insert hmap.newer moved with
            | none => none
            | some newer1 =>
              rehash_loop fuel { hmap with newer := newer1, older := older1 }
                (work + 1) (iters + 1)
    else some (hmap, work, iters)

/-- Number of bucket heads of a table (0 for a null array). -/
def HTab.nbuckets (t : HTab) : Nat :=
  match t.tab with
  | none => 0
  | some bs => bs.length

/-- `hm_help_rehashing`: one migration slice, then the release of a drained older
table.  Returns the map, the final value of `work` and the number of loop
iterations.  Every iteration either raises `work` (at most `k_rehashing_work` times)
or advances the cursor (at most once per bucket before the read leaves the array), so
the iteration allowance given to the loop is never used up. -/
def hm_help_rehashing (hmap : HMap) : Option (HMap × Nat × Nat) :=
  match rehash_loop (k_rehashing_work + hmap.older.nbuckets + 1) hmap 0 0 with
  | none => none
  | some (m1, work, iters) =>
    if m1.older.size = 0 ∧ m1.older.tab.isSome then
      some ({ m1 with older := HTab.zero }, work, iters)
    else some (m1, work, iters)

/-- `hm_trigger_rehashing`: the assertion, then newer becomes older and a table of
twice the bucket count becomes newer. -/
def hm_trigger_rehashing (hmap : HMap) : Option HMap :=
  if hmap.older.tab.isSome then none
  else
    match h_init ((hmap.newer.mask + 1) * 2) with
    | none => none
    | some newer1 => some { newer := newer1, older := hmap.newer, migrate_pos := 0 }

/-- The load factor that starts a migration. -/
def k_max_load_factor : Nat := 8

/-- What a public operation returns: the map after the call, the returned node
(`none` is `NULL`, also for `hm_insert`, which returns nothing), and the two counters
of the migration slice the call ran. -/
structure Ret where
  map : HMap
  node : Option HNode
  work : Nat
  iters : Nat
deriving DecidableEq

/-- `hm_lookup`. -/
def hm_lookup (hmap : HMap) (key : HNode) (eq : HNode → HNode → Bool) : Option Ret :=
  match hm_help_rehashing hmap with
  | none => none
  | some (m1, w, i) =>
    match h_lookup m1.newer key eq with
    | none => none
    | some (some slot) =>
      (h_deref m1.newer slot).map (fun n => ⟨m1, some n, w, i⟩)
    | some none =>
      match h_lookup m1.older key eq with
      | none => none
      | some (some slot) =>
        (h_deref m1.older slot).map (fun n => ⟨m1, some n, w, i⟩)
      | some none => some ⟨m1, none, w, i⟩

/-- `hm_insert`. -/
def hm_insert (hmap : HMap) (node : HNode) : Option Ret :=
  match (if hmap.newer.tab.isNone then h_init 4 else some hmap.newer) with
  | none => none
  | some newer0 =>
    match h_insert newer0 node with
    | none => none
    | some newer1 =>
      let m1 : HMap := { hmap with newer := newer1 }
      match (if m1.older.tab.isNone then
               (if m1.newer.size ≥ (m1.newer.mask + 1) * k_max_load_factor then
                  hm_trigger_rehashing m1
                else some m1)
             else some m1) with
      | none => none
      | some m2 =>
        match hm_help_rehashing m2 with
        | none => none
        | some (m3, w, i) => some ⟨m3, none, w, i⟩

/-- The statements of `hm_insert` that precede its migration slice: first-use
initialisation, linking the node into newer, and the load-factor check. -/
def insert_link (hmap : HMap) (node : HNode) : Option HMap :=
  match (if hmap.newer.tab.isNone then h_init 4 else some hmap.newer) with
  | none => none
  | some newer0 =>
    match h_insert newer0 node with
    | none => none
    | some newer1 =>
      let m1 : HMap := { hmap with newer := newer1 }
      if m1.older.tab.isNone then
        (if m1.newer.size ≥ (m1.newer.mask + 1) * k_max_load_factor then
           hm_trigger_rehashing m1
         else some m1)
      else some m1

/-- `hm_delete`. -/
def hm_delete (hmap : HMap) (key : HNode) (eq : HNode → HNode → Bool) : Option Ret :=
  match hm_help_rehashing hmap with
  | none => none
  | some (m1, w, i) =>
    match h_lookup m1.newer key eq with
    | none => none
    | some (some slot) =>
      (h_detach m1.newer slot).map (fun r => ⟨{ m1 with newer := r.1 }, some r.2, w, i⟩)
    | some none =>
      match h_lookup m1.older key eq with
      | none => none
      | some (some slot) =>
        (h_detach m1.older slot).map (fun r => ⟨{ m1 with older := r.1 }, some r.2, w, i⟩)
      | some none => some ⟨m1, none, w, i⟩

/-- `hm_clear`. -/
def hm_clear (_hmap : HMap) : HMap := HMap.zero

/-- `hm_size`. -/
def hm_size (hmap : HMap) : Nat := hmap.newer.size + hmap.older.size

/-- The inner loop of `h_foreach`: walk one chain; `false` when the visitor stopped. -/
def chain_foreach {σ : Type} (f : HNode → σ → Bool × σ) : Chain → σ → Bool × σ
  | [], s => (true, s)
  | node :: rest, s =>
    match f node s with
    | (true, s1) => chain_foreach f rest s1
    | (false, s1) => (false, s1)

/-- The outer loop of `h_foreach`, `for (i = ...; i <= mask; i++)`, with `n` buckets
still to visit starting at index `i`. -/
def buckets_foreach {σ : Type} (f : HNode → σ → Bool × σ) (bs : List Chain) :
    Nat → Nat → σ → Option (Bool × σ)
  | 0, _, s => some (true, s)
  | n + 1, i, s =>
    match bs[i]? with
    | none => none
    | some chain =>
      match chain_foreach f chain s with
      | (true, s1) => buckets_foreach f bs n (i + 1) s1
      | (false, s1) => some (false, s1)

/-- `h_foreach`: the visitor `f(node, arg)` is a function of the node and of the
state behind `arg`, returning whether to go on and the new state. -/
def h_foreach {σ : Type} (htab : HTab) (f : HNode → σ → Bool × σ) (s : σ) :
    Option (Bool × σ) :=
  match htab.tab with
  | none => some (true, s)
  | some bs => buckets_foreach f bs (htab.mask + 1) 0 s

/-- `hm_foreach`: both calls of `h_foreach` are made, the results are dropped. -/
def hm_foreach {σ : Type} (hmap : HMap) (f : HNode → σ → Bool × σ) (s : σ) : Option σ :=
  match h_foreach hmap.newer f s with
  | none => none
  | some (_, s1) =>
    match h_foreach hmap.older f s1 with
    | none => none
    | some (_, s2) => some s2

/-- A visitor instrumented with the log of the nodes it has been called on. -/
def logged {σ : Type} (f : HNode → σ → Bool × σ) :
    HNode → List HNode × σ → Bool × (List HNode × σ) :=
  fun node s => ((f node s.2).1, (s.1 ++ [node], (f node s.2).2))

/-- The chains of a table, bucket by bucket (nothing for a null array). -/
def HTab.buckets (t : HTab) : List Chain := t.tab.getD []

/-- The nodes stored in a table, in bucket order and chain order. -/
def HTab.nodes (t : HTab) : List HNode := t.buckets.flatten

/-- The nodes stored in the map: those of newer, then those of older. -/
def HMap.nodes (m : HMap) : List HNode := m.newer.nodes ++ m.older.nodes

/-- Consistency of one bucket table. -/
structure TabOK (t : HTab) : Prop where
  null : t.tab = none → t.mask = 0
  len : ∀ bs, t.tab = some bs → bs.length = t.mask + 1
  pow2 : ∀ bs, t.tab = some bs → ∃ k, 2 ≤ k ∧ t.mask + 1 = 2 ^ k
  count : t.size = t.nodes.length
  place : ∀ bs, t.tab = some bs → ∀ i c, bs[i]? = some c → ∀ n ∈ c, n.hcode &&& t.mask = i

/-- Consistency of the map: both tables are consistent, older exists only beside
newer, the buckets of older below the cursor are empty, and no record is linked
twice. -/
structure Inv (m : HMap) : Prop where
  newer : TabOK m.newer
  older : TabOK m.older
  both : m.older.tab ≠ none → m.newer.tab ≠ none
  cursor : ∀ bs, m.older.tab = some bs → ∀ i, i < m.migrate_pos → ∀ c, bs[i]? = some c → c = []
  nodup : (m.nodes.map HNode.id).Nodup

/-- How the map after some steps of migration relates to the map before them: it is
still consistent, stores the same nodes, and only the cursor and the distribution of
the nodes over the two tables have changed. -/
structure SliceRel (m m' : HMap) : Prop where
  inv : Inv m'
  perm : List.Perm m'.nodes m.nodes
  size : hm_size m' = hm_size m
  newer_mask : m'.newer.mask = m.newer.mask
  older_mask : m'.older.mask = m.older.mask
  newer_tab : m'.newer.tab = none ↔ m.newer.tab = none
  older_tab : m'.older.tab = none ↔ m.older.tab = none
  older_nb : m'.older.nbuckets = m.older.nbuckets
  pos_le : m.migrate_pos ≤ m'.migrate_pos

/-- What the migration loop, started on map `m` with counters `w` and `i`, has done
when it stops with map `m'` and counters `w'` and `i'`. -/
structure LoopPost (m : HMap) (w i : Nat) (m' : HMap) (w' i' : Nat) : Prop where
  rel : SliceRel m m'
  work_ge : w ≤ w'
  work_le : w ≤ k_rehashing_work → w' ≤ k_rehashing_work
  moved : w' + m'.older.size = w + m.older.size
  done : ¬ (w' < k_rehashing_work ∧ m'.older.size > 0)
  iters : i' + w + m.migrate_pos = i + w' + m'.migrate_pos
  pos : m'.migrate_pos = m.migrate_pos ∨ m'.migrate_pos ≤ m.older.nbuckets

/-- What one call of `hm_help_rehashing` on map `m` has done when it returns map `m'`
with work counter `w` after `i` loop iterations. -/
structure HelpPost (m m' : HMap) (w i : Nat) : Prop where
  inv : Inv m'
  perm : List.Perm m'.nodes m.nodes
  size : hm_size m' = hm_size m
  newer_mask : m'.newer.mask = m.newer.mask
  newer_tab : m'.newer.tab = none ↔ m.newer.tab = none
  work_le : w ≤ k_rehashing_work
  work_eq : w = min k_rehashing_work m.older.size
  moved : w + m'.older.size = m.older.size
  released : m'.older.size = 0 → m'.older = HTab.zero
  kept : m'.older.size > 0 →
    m'.older.mask = m.older.mask ∧ m'.older.nbuckets = m.older.nbuckets ∧ m'.older.tab ≠ none
  iters_eq : i + m.migrate_pos = w + m'.migrate_pos
  iters_le : i ≤ w + (m.older.nbuckets - m.migrate_pos)

/-- Map `m'` is map `m` with the stored node `x` unlinked. -/
structure DetachRel (m m' : HMap) (x : HNode) : Prop where
  inv : Inv m'
  perm : List.Perm (x :: m'.nodes) m.nodes
  size : hm_size m' + 1 = hm_size m
  newer_mask : m'.newer.mask = m.newer.mask
  older_mask : m'.older.mask = m.older.mask
  newer_tab : m'.newer.tab = none ↔ m.newer.tab = none
  older_tab : m'.older.tab = none ↔ m.older.tab = none
  pos : m'.migrate_pos = m.migrate_pos

/-- Node `x` matches the key: equal hash code and `eq` true. -/
def Matches (eq : HNode → HNode → Bool) (key x : HNode) : Prop :=
  x.hcode = key.hcode ∧ eq x key = true

/-- The node is not linked into the map yet (no stored node is the same record). -/
def Fresh (m : HMap) (n : HNode) : Prop := ∀ x ∈ m.nodes, x.id ≠ n.id

/-- What the first part of `hm_insert` (everything before its migration slice) has
done when it turns map `m` into map `m2` while linking node `n`: either no migration
was started, or the load factor was reached with no migration in progress and one
was started. -/
structure LinkPost (m : HMap) (n : HNode) (m2 : HMap) : Prop where
  inv : Inv m2
  perm : List.Perm m2.nodes (n :: m.nodes)
  size : hm_size m2 = hm_size m + 1
  cases :
    (m2.older = m.older ∧ m2.migrate_pos = m.migrate_pos ∧ m2.newer.tab ≠ none ∧
      m2.newer.size = m.newer.size + 1 ∧
      (m.newer.tab ≠ none → m2.newer.mask = m.newer.mask) ∧
      (m.newer.tab = none → m2.newer.mask = 3) ∧
      (m.older.tab = none → m2.newer.size < (m2.newer.mask + 1) * k_max_load_factor)) ∨
    (m.older.tab = none ∧ m.newer.tab ≠ none ∧ m2.migrate_pos = 0 ∧
      m2.older.tab ≠ none ∧ m2.older.mask = m.newer.mask ∧
      m2.older.nbuckets = m.newer.mask + 1 ∧ m2.older.size = m.newer.size + 1 ∧
      (m.newer.mask + 1) * k_max_load_factor ≤ m2.older.size ∧
      m2.newer = ⟨some (List.replicate ((m.newer.mask + 1) * 2) []),
        (m.newer.mask + 1) * 2 - 1, 0⟩)

/-- The map states the public operations can produce from the zero-initialised map.
A node passed to `hm_insert` is not linked into the map at that moment. -/
inductive Reach : HMap → Prop
  | zero : Reach HMap.zero
  | insert {m : HMap} {n : HNode} {r : Ret} :
      Reach m → Fresh m n → hm_insert m n = some r → Reach r.map
  | lookup {m : HMap} {key : HNode} {eq : HNode → HNode → Bool} {r : Ret} :
      Reach m → hm_lookup m key eq = some r → Reach r.map
  | delete {m : HMap} {key : HNode} {eq : HNode → HNode → Bool} {r : Ret} :
      Reach m → hm_delete m key eq = some r → Reach r.map
  | clear {m : HMap} : Reach m → Reach (hm_clear m)

/-- The map states produced from the zero-initialised map by `hm_insert`, `hm_lookup`
and `hm_delete` alone, with the number of `hm_insert` calls made and the number of
`hm_delete` calls that returned a node. -/
inductive Trace : HMap → Nat → Nat → Prop
  | zero : Trace HMap.zero 0 0
  | insert {m : HMap} {a b : Nat} {n : HNode} {r : Ret} :
      Trace m a b → Fresh m n → hm_insert m n = some r → Trace r.map (a + 1) b
  | lookup {m : HMap} {a b : Nat} {key : HNode} {eq : HNode → HNode → Bool} {r : Ret} :
      Trace m a b → hm_lookup m key eq = some r → Trace r.map a b
  | delete_hit {m : HMap} {a b : Nat} {key : HNode} {eq : HNode → HNode → Bool} {r : Ret}
      {x : HNode} :
      Trace m a b → hm_delete m key eq = some r → r.node = some x → Trace r.map a (b + 1)
  | delete_miss {m : HMap} {a b : Nat} {key : HNode} {eq : HNode → HNode → Bool} {r : Ret} :
      Trace m a b → hm_delete m key eq = some r → r.node = none → Trace r.map a b

/-- Insert the nodes of a list one by one. -/
def hm_insert_all (m : HMap) : List HNode → Option HMap
  | [] => some m
  | n :: ns =>
    match hm_insert m n with
    | none => none
    | some r => hm_insert_all r.map ns

/-- Look up the keys of a list one after the other, dropping the results. -/
def hm_lookup_all (m : HMap) (eq : HNode → HNode → Bool) : List HNode → Option HMap
  | [] => some m
  | k :: ks =>
    match hm_lookup m k eq with
    | none => none
    | some r => hm_lookup_all r.map eq ks

/-- Delete the keys of a list one after the other, dropping the results. -/
def hm_delete_all (m : HMap) (eq : HNode → HNode → Bool) : List HNode → Option HMap
  | [] => some m
  | k :: ks =>
    match hm_delete m k eq with
    | none => none
    | some r => hm_delete_all r.map eq ks

/-- Sample records: `n` nodes, the `i`-th with address `i` and hash code `i`. -/
def sample_nodes (n : Nat) : List HNode := (List.range n).map (fun i => ⟨i, i⟩)

/-- Sample equality predicate: two nodes are equal when they are the same record. -/
def same_record (a b : HNode) : Bool := decide (a.id = b.id)

/-- Sample map: the zero-initialised map after `hm_insert` of the first `n` sample
records. -/
def sample_map (n : Nat) : HMap := (hm_insert_all HMap.zero (sample_nodes n)).getD HMap.zero

/-- A reachable map with no migration in progress whose newer table has `2 ^ j`
buckets and whose stored nodes all carry the hash code `2 ^ K - 1`. -/
structure AllOnes (K j : Nat) (m : HMap) : Prop where
  reach : Reach m
  older : m.older.tab = none
  newer : m.newer.tab ≠ none
  mask : m.newer.mask + 1 = 2 ^ j
  hcode : ∀ x ∈ m.nodes, x.hcode = 2 ^ K - 1

/-- Sample records that collide: `n` nodes, the `i`-th with address `i`, all with hash
code 15. -/
def colliding_nodes (n : Nat) : List HNode := (List.range n).map (fun i => ⟨i, 15⟩)

/-- Sample map: the zero-initialised map after `hm_insert` of the first `n` colliding
sample records. -/
def colliding_map (n : Nat) : HMap :=
  (hm_insert_all HMap.zero (colliding_nodes n)).getD HMap.zero

/-- The load of the map.  With no migration in progress newer is below the load factor;
during a migration the entries of both tables, those of older weighted a little
higher, fit four times the bucket count of newer (so that newer is still below the
load factor when the migration ends, whatever was inserted meanwhile). -/
structure Load (m : HMap) : Prop where
  steady : m.older.tab = none → m.newer.tab ≠ none →
    m.newer.size < k_max_load_factor * (m.newer.mask + 1)
  moving : m.older.tab ≠ none →
    128 * m.newer.size + 129 * m.older.size ≤ 516 * (m.newer.mask + 1)

/-- Where node `n` sits while a migration slice runs that started with the nodes
`old0` in older: if `n` is in older it is the head of its bucket chain; if it is in
newer, the nodes in front of it in its chain come from `old0`, and there are at most
as many of them as entries have left older. -/
structure Placed (old0 : List HNode) (n : HNode) (m : HMap) : Prop where
  in_older : n ∈ m.older.nodes →
    ∃ bs, ∃ rest : Chain, m.older.tab = some bs ∧
      bs[n.hcode &&& m.older.mask]? = some (n :: rest)
  in_newer : n ∈ m.newer.nodes →
    ∃ bs, ∃ pre rest : Chain, m.newer.tab = some bs ∧
      bs[n.hcode &&& m.newer.mask]? = some (pre ++ n :: rest) ∧
      (∀ x ∈ pre, x ∈ old0) ∧ pre.length + m.older.size ≤ old0.length
  older_sub : ∀ x ∈ m.older.nodes, x ∈ old0
  older_len : m.older.size ≤ old0.length

end HashTable

/-!
# Tree node base (`src/avl.h`)

The inline functions of `avl.h`.  A node pointer is `none` (`nullptr`) or `some a`,
the address `a` of a node in a heap that maps addresses to node contents; `uint32_t`
fields are natural numbers (the functions embedded here only copy them or store 1).
-/

namespace AVL

/-- A nullable pointer to a tree node. -/
abbrev Ptr := Option Nat

/-- `struct AVLNode`: the three links, the height and the size of the subtree. -/
structure AVLNode where
  parent : Ptr
  left : Ptr
  right : Ptr
  height : Nat
  count : Nat
deriving DecidableEq

/-- The node memory: what is stored at each address. -/
abbrev Heap := Nat → AVLNode

/-- `avl_init`: overwrite the five fields of the node at address `node`. -/
def avl_init (heap : Heap) (node : Nat) : Heap :=
  fun a => if a = node then ⟨none, none, none, 1, 1⟩ else heap a

/-- `avl_height`: `node ? node->height : 0`. -/
def avl_height (heap : Heap) (node : Ptr) : Nat :=
  match node with
  | none => 0
  | some a => (heap a).height

/-- `avl_count`: `node ? node->count : 0`. -/
def avl_count (heap : Heap) (node : Ptr) : Nat :=
  match node with
  | none => 0
  | some a => (heap a).count

end AVL

namespace HashTable

/-! ## Theorems -/

/-! ### Facts about lists of chains -/

section ListFacts

variable {α : Type}

theorem perm_flatten_set {bs : List (List α)} {i : Nat} {c : List α} (h : bs[i]? = some c)
    (c' : List α) : List.Perm ((bs.set i c').flatten ++ c) (bs.flatten ++ c') := by
  induction bs generalizing i with
  | nil => simp at h
  | cons b rest ih =>
    cases i with
    | zero =>
      simp at h
      subst h
      simp only [List.set_cons_zero, List.flatten_cons, List.append_assoc]
      rw [← List.append_assoc, ← List.append_assoc]
      exact List.perm_append_comm.trans (by rw [List.append_assoc]; exact List.Perm.append_left b List.perm_append_comm)
    | succ j =>
      simp at h
      simp only [List.set_cons_succ, List.flatten_cons, List.append_assoc]
      exact List.Perm.append_left b (ih h)

theorem perm_cons_eraseIdx {ch : List α} {k : Nat} {x : α} (h : ch[k]? = some x) :
    List.Perm ch (x :: ch.eraseIdx k) := by
  induction ch generalizing k with
  | nil => simp at h
  | cons a rest ih =>
    cases k with
    | zero =>
      simp at h
      subst h
      simp
    | succ j =>
      simp at h
      simp only [List.eraseIdx_cons_succ]
      exact (List.Perm.cons a (ih h)).trans (List.Perm.swap x a _)

theorem perm_flatten_set_cons {bs : List (List α)} {i : Nat} {c : List α} (h : bs[i]? = some c)
    (x : α) : List.Perm (bs.set i (x :: c)).flatten (x :: bs.flatten) := by
  have h1 := perm_flatten_set h (x :: c)
  have h2 : List.Perm (bs.flatten ++ x :: c) ((x :: bs.flatten) ++ c) := by
    simp
  exact (List.perm_append_right_iff c).1 (h1.trans h2)

theorem perm_flatten_set_eraseIdx {bs : List (List α)} {i k : Nat} {ch : List α} {x : α}
    (h : bs[i]? = some ch) (hk : ch[k]? = some x) :
    List.Perm (x :: (bs.set i (ch.eraseIdx k)).flatten) bs.flatten := by
  have h1 := perm_flatten_set h (ch.eraseIdx k)
  have h2 : List.Perm ((x :: (bs.set i (ch.eraseIdx k)).flatten) ++ ch.eraseIdx k)
      ((bs.set i (ch.eraseIdx k)).flatten ++ ch) := by
    refine List.Perm.trans ?_ (List.Perm.append_left _ (perm_cons_eraseIdx hk).symm)
    simpa using List.perm_middle.symm
  exact (List.perm_append_right_iff (ch.eraseIdx k)).1 (h2.trans h1)

theorem mem_flatten_of_bucket {bs : List (List α)} {i : Nat} {c : List α} {x : α}
    (h : bs[i]? = some c) (hx : x ∈ c) : x ∈ bs.flatten :=
  List.mem_flatten.2 ⟨c, List.mem_iff_getElem?.2 ⟨i, h⟩, hx⟩

theorem bucket_of_mem_flatten {bs : List (List α)} {x : α} (hx : x ∈ bs.flatten) :
    ∃ i : Nat, ∃ ch : List α, bs[i]? = some ch ∧ x ∈ ch := by
  obtain ⟨c, hc, hxc⟩ := List.mem_flatten.1 hx
  obtain ⟨i, hi⟩ := List.mem_iff_getElem?.1 hc
  exact ⟨i, c, hi, hxc⟩

end ListFacts

/-! ### One bucket table -/

section Tables

theorem TabOK_zero : TabOK HTab.zero where
  null := fun _ => rfl
  len := fun bs h => by simp [HTab.zero] at h
  pow2 := fun bs h => by simp [HTab.zero] at h
  count := rfl
  place := fun bs h => by simp [HTab.zero] at h

theorem nodes_of_tab_none {t : HTab} (h : t.tab = none) : t.nodes = [] := by
  simp [HTab.nodes, HTab.buckets, h]

theorem nodes_of_tab_some {t : HTab} {bs : List Chain} (h : t.tab = some bs) :
    t.nodes = bs.flatten := by
  simp [HTab.nodes, HTab.buckets, h]

theorem nbuckets_of_tab_some {t : HTab} {bs : List Chain} (h : t.tab = some bs) :
    t.nbuckets = bs.length := by
  simp [HTab.nbuckets, h]

theorem flatten_replicate_nil (n : Nat) : (List.replicate n ([] : Chain)).flatten = [] := by
  induction n with
  | zero => rfl
  | succ k ih => simp [List.replicate_succ, ih]

theorem pow2_assert (k : Nat) : 2 ^ k > 0 ∧ (2 ^ k - 1) &&& 2 ^ k = 0 := by
  refine ⟨Nat.two_pow_pos k, ?_⟩
  rw [Nat.and_comm, Nat.and_pow_two_sub_one_eq_mod, Nat.mod_self]

theorem h_init_pow2 (k : Nat) :
    h_init (2 ^ k) = some ⟨some (List.replicate (2 ^ k) []), 2 ^ k - 1, 0⟩ := by
  unfold h_init
  rw [if_pos (pow2_assert k)]

theorem TabOK_init (k : Nat) (hk : 2 ≤ k) :
    TabOK ⟨some (List.replicate (2 ^ k) []), 2 ^ k - 1, 0⟩ where
  null := fun h => by simp at h
  len := fun bs h => by
    simp at h
    subst h
    have := Nat.two_pow_pos k
    simp
    omega
  pow2 := fun bs h => ⟨k, hk, by
    have := Nat.two_pow_pos k
    simp
    omega⟩
  count := by simp [HTab.nodes, HTab.buckets, flatten_replicate_nil]
  place := fun bs h i ch hi n hn => by
    simp at h
    subst h
    rw [List.getElem?_replicate] at hi
    split at hi
    · simp at hi
      subst hi
      simp at hn
    · simp at hi

theorem h_insert_some {t : HTab} (ht : TabOK t) (h : t.tab ≠ none) (n : HNode) :
    ∃ t', h_insert t n = some t' := by
  cases hbs : t.tab with
  | none => exact absurd hbs h
  | some bs =>
    have hlen := ht.len bs hbs
    have hpos : n.hcode &&& t.mask < bs.length := by
      have := @Nat.and_le_right n.hcode t.mask
      omega
    simp [h_insert, hbs, List.getElem?_eq_getElem hpos]

/-- What `h_insert` does to a consistent table. -/
theorem h_insert_spec {t t' : HTab} {n : HNode} (ht : TabOK t) (h : h_insert t n = some t') :
    TabOK t' ∧ List.Perm t'.nodes (n :: t.nodes) ∧ t'.mask = t.mask ∧
      t'.size = t.size + 1 ∧ t'.tab ≠ none ∧ t'.nbuckets = t.nbuckets := by
  unfold h_insert at h
  cases hbs : t.tab with
  | none => simp [hbs] at h
  | some bs =>
    simp only [hbs] at h
    cases hch : bs[n.hcode &&& t.mask]? with
    | none => simp [hch] at h
    | some ch =>
      simp only [hch, Option.some.injEq] at h
      subst h
      have hperm := perm_flatten_set_cons hch n
      refine ⟨?_, ?_, rfl, rfl, by simp, ?_⟩
      · constructor
        · intro h0; simp at h0
        · intro bs' h'
          simp at h'
          subst h'
          simpa using ht.len bs hbs
        · intro bs' _
          exact ht.pow2 bs hbs
        · have := ht.count
          rw [nodes_of_tab_some hbs] at this
          simp [HTab.nodes, HTab.buckets, hperm.length_eq, this]
        · intro bs' h' i ch' hi x hx
          simp at h'
          subst h'
          rw [List.getElem?_set] at hi
          split at hi
          · rename_i heq
            split at hi
            · simp at hi
              subst hi
              rcases List.mem_cons.1 hx with hx | hx
              · subst hx; exact heq
              · rw [← heq]; exact ht.place bs hbs _ ch hch x hx
            · simp at hi
          · exact ht.place bs hbs i ch' hi x hx
      · simpa [HTab.nodes, HTab.buckets, hbs] using hperm
      · simp [HTab.nbuckets, hbs]

/-- What `h_detach` does to a consistent table. -/
theorem h_detach_spec {t t' : HTab} {s : Slot} {x : HNode} (ht : TabOK t)
    (h : h_detach t s = some (t', x)) :
    TabOK t' ∧ List.Perm (x :: t'.nodes) t.nodes ∧ t'.mask = t.mask ∧
      t'.size + 1 = t.size ∧ t'.tab ≠ none ∧ t'.nbuckets = t.nbuckets ∧
      h_deref t s = some x ∧
      (∀ bs, t.tab = some bs → ∀ bs', t'.tab = some bs' → ∀ (i : Nat) (ch' : Chain),
        bs'[i]? = some ch' → ∃ ch : Chain, bs[i]? = some ch ∧ ch'.length ≤ ch.length) := by
  unfold h_detach at h
  cases hbs : t.tab with
  | none => simp [hbs] at h
  | some bs =>
    simp only [hbs] at h
    cases hch : bs[s.1]? with
    | none => simp [hch] at h
    | some ch =>
      simp only [hch] at h
      cases hx : ch[s.2]? with
      | none => simp [hx] at h
      | some y =>
        simp only [hx, Option.some.injEq, Prod.mk.injEq] at h
        obtain ⟨h1, h2⟩ := h
        subst h1
        subst h2
        have hperm := perm_flatten_set_eraseIdx hch hx
        have hcount := ht.count
        rw [nodes_of_tab_some hbs] at hcount
        have hlen := hperm.length_eq
        simp only [List.length_cons] at hlen
        refine ⟨?_, ?_, rfl, ?_, by simp, ?_, ?_, ?_⟩
        · constructor
          · intro h0; simp at h0
          · intro bs' h'
            simp at h'
            subst h'
            simpa using ht.len bs hbs
          · intro bs' _
            exact ht.pow2 bs hbs
          · simp only [HTab.nodes, HTab.buckets, Option.getD_some]
            omega
          · intro bs' h' i ch' hi z hz
            simp at h'
            subst h'
            rw [List.getElem?_set] at hi
            split at hi
            · rename_i heq
              split at hi
              · simp at hi
                subst hi
                rw [← heq]
                exact ht.place bs hbs _ ch hch z (List.mem_of_mem_eraseIdx hz)
              · simp at hi
            · exact ht.place bs hbs i ch' hi z hz
        · simpa [HTab.nodes, HTab.buckets, hbs] using hperm
        · simp only
          omega
        · simp [HTab.nbuckets, hbs]
        · simp [h_deref, hbs, hch, hx]
        · intro bs0 h0 bs' h' i ch' hi
          simp at h0 h'
          subst h0
          subst h'
          rw [List.getElem?_set] at hi
          split at hi
          · rename_i heq
            split at hi
            · simp at hi
              subst hi
              refine ⟨ch, by rw [← heq]; exact hch, ?_⟩
              exact (List.eraseIdx_sublist ch s.2).length_le
            · simp at hi
          · exact ⟨ch', hi, le_refl _⟩

theorem chain_lookup_none {key : HNode} {eq : HNode → HNode → Bool} {ch : Chain} {k : Nat}
    (h : chain_lookup key eq ch k = none) :
    ∀ x ∈ ch, ¬ (x.hcode = key.hcode ∧ eq x key = true) := by
  induction ch generalizing k with
  | nil => simp
  | cons a rest ih =>
    unfold chain_lookup at h
    split at h
    · simp at h
    · rename_i hne
      intro x hx
      rcases List.mem_cons.1 hx with hx | hx
      · subst hx; exact hne
      · exact ih h x hx

theorem chain_lookup_some {key : HNode} {eq : HNode → HNode → Bool} {ch : Chain} {k0 k : Nat}
    (h : chain_lookup key eq ch k0 = some k) :
    k0 ≤ k ∧ ∃ x, ch[k - k0]? = some x ∧ x.hcode = key.hcode ∧ eq x key = true := by
  induction ch generalizing k0 with
  | nil => simp [chain_lookup] at h
  | cons a rest ih =>
    unfold chain_lookup at h
    split at h
    · rename_i hm
      simp at h
      subst h
      exact ⟨le_refl _, a, by simp, hm⟩
    · obtain ⟨hle, x, hx, hm⟩ := ih h
      refine ⟨by omega, x, ?_, hm⟩
      have : k - k0 = (k - (k0 + 1)) + 1 := by omega
      rw [this]
      simpa using hx

/-- What `h_lookup` returns on a consistent table: a slot holding a matching node, or
`NULL` when no node of the table matches. -/
theorem h_lookup_spec {t : HTab} (ht : TabOK t) (key : HNode) (eq : HNode → HNode → Bool) :
    (h_lookup t key eq = some none ∧
        ∀ x ∈ t.nodes, ¬ (x.hcode = key.hcode ∧ eq x key = true)) ∨
    (∃ s x, h_lookup t key eq = some (some s) ∧ h_deref t s = some x ∧ x ∈ t.nodes ∧
        x.hcode = key.hcode ∧ eq x key = true) := by
  cases hbs : t.tab with
  | none =>
    left
    refine ⟨by simp [h_lookup, hbs], ?_⟩
    rw [nodes_of_tab_none hbs]
    simp
  | some bs =>
    have hlen := ht.len bs hbs
    have hpos : key.hcode &&& t.mask < bs.length := by
      have := @Nat.and_le_right key.hcode t.mask
      omega
    have hch : bs[key.hcode &&& t.mask]? = some bs[key.hcode &&& t.mask] :=
      List.getElem?_eq_getElem hpos
    cases hl : chain_lookup key eq bs[key.hcode &&& t.mask] 0 with
    | none =>
      left
      refine ⟨by simp [h_lookup, hbs, hch, hl], ?_⟩
      intro x hx
      rw [nodes_of_tab_some hbs] at hx
      obtain ⟨i, ch, hi, hxc⟩ := bucket_of_mem_flatten hx
      intro hm
      have hplace := ht.place bs hbs i ch hi x hxc
      rw [hm.1] at hplace
      subst hplace
      rw [hch] at hi
      simp at hi
      subst hi
      exact chain_lookup_none hl x hxc hm
    | some k =>
      right
      obtain ⟨_, x, hx, hm⟩ := chain_lookup_some hl
      simp only [Nat.sub_zero] at hx
      refine ⟨(key.hcode &&& t.mask, k), x, by simp [h_lookup, hbs, hch, hl], ?_, ?_, hm⟩
      · simp [h_deref, hbs, hch, hx]
      · rw [nodes_of_tab_some hbs]
        exact mem_flatten_of_bucket hch (List.mem_iff_getElem?.2 ⟨k, hx⟩)

/-- A slot that can be read can be detached. -/
theorem h_detach_of_deref {t : HTab} {s : Slot} {x : HNode} (h : h_deref t s = some x) :
    ∃ t', h_detach t s = some (t', x) := by
  unfold h_deref at h
  unfold h_detach
  cases hbs : t.tab with
  | none => simp [hbs] at h
  | some bs =>
    simp only [hbs] at h ⊢
    cases hch : bs[s.1]? with
    | none => simp [hch] at h
    | some ch =>
      simp only [hch] at h ⊢
      simp [h]

end Tables

/-! ### The migration slice -/

section Migration

theorem SliceRel.refl {m : HMap} (h : Inv m) : SliceRel m m :=
  ⟨h, List.Perm.refl _, rfl, rfl, rfl, Iff.rfl, Iff.rfl, rfl, le_refl _⟩

theorem SliceRel.trans {a b d : HMap} (h1 : SliceRel a b) (h2 : SliceRel b d) : SliceRel a d :=
  ⟨h2.inv, h2.perm.trans h1.perm, h2.size.trans h1.size, h2.newer_mask.trans h1.newer_mask,
    h2.older_mask.trans h1.older_mask, h2.newer_tab.trans h1.newer_tab,
    h2.older_tab.trans h1.older_tab, h2.older_nb.trans h1.older_nb,
    le_trans h1.pos_le h2.pos_le⟩

/-- While older holds an entry, the cursor points inside its bucket array. -/
theorem cursor_in_bounds {m : HMap} (h : Inv m) (hs : m.older.size > 0) :
    ∃ bs, ∃ ch : Chain, m.older.tab = some bs ∧ bs[m.migrate_pos]? = some ch ∧
      m.migrate_pos < m.older.nbuckets := by
  have hc := h.older.count
  cases hbs : m.older.tab with
  | none =>
    rw [nodes_of_tab_none hbs] at hc
    simp at hc
    omega
  | some bs =>
    rw [nodes_of_tab_some hbs] at hc
    have hne : bs.flatten ≠ [] := by
      intro h0
      rw [h0] at hc
      simp at hc
      omega
    obtain ⟨x, hx⟩ := List.exists_mem_of_ne_nil _ hne
    obtain ⟨j, ch, hj, hxc⟩ := bucket_of_mem_flatten hx
    have hjlt : j < bs.length := by
      by_contra hge
      rw [List.getElem?_eq_none (by omega)] at hj
      simp at hj
    have hpos : m.migrate_pos ≤ j := by
      by_contra hlt
      have := h.cursor bs hbs j (by omega) ch hj
      subst this
      simp at hxc
    have hlt : m.migrate_pos < bs.length := by omega
    exact ⟨bs, bs[m.migrate_pos], rfl, List.getElem?_eq_getElem hlt, by
      rw [nbuckets_of_tab_some hbs]; exact hlt⟩

/-- Advancing the cursor over an empty bucket. -/
theorem advance_rel {m : HMap} (h : Inv m) {bs : List Chain} (hbs : m.older.tab = some bs)
    (he : bs[m.migrate_pos]? = some []) :
    SliceRel m { m with migrate_pos := m.migrate_pos + 1 } := by
  refine ⟨⟨h.newer, h.older, h.both, ?_, h.nodup⟩, List.Perm.refl _, rfl, rfl, rfl, Iff.rfl,
    Iff.rfl, rfl, Nat.le_succ _⟩
  intro bs' hbs' i hi ch hch
  simp only at hbs' hi
  rw [hbs] at hbs'
  simp at hbs'
  subst hbs'
  by_cases hlt : i < m.migrate_pos
  · exact h.cursor bs hbs i hlt ch hch
  · have : i = m.migrate_pos := by omega
    subst this
    rw [he] at hch
    simp at hch
    exact hch

/-- Moving the head of the bucket under the cursor from older to newer. -/
theorem move_rel {m : HMap} (h : Inv m) {bs : List Chain} (hbs : m.older.tab = some bs)
    {a : HNode} {rest : Chain} (he : bs[m.migrate_pos]? = some (a :: rest)) :
    ∃ older1 newer1, h_detach m.older (m.migrate_pos, 0) = some (older1, a) ∧
      h_insert m.newer a = some newer1 ∧
      SliceRel m { m with newer := newer1, older := older1 } ∧
      older1.size + 1 = m.older.size ∧ newer1.size = m.newer.size + 1 := by
  have hd : h_deref m.older (m.migrate_pos, 0) = some a := by
    simp [h_deref, hbs, he]
  obtain ⟨older1, hdet⟩ := h_detach_of_deref hd
  obtain ⟨ok1, perm1, mask1, size1, tab1, nb1, _, sub1⟩ := h_detach_spec h.older hdet
  have hnew : m.newer.tab ≠ none := h.both (by rw [hbs]; simp)
  obtain ⟨newer1, hins⟩ := h_insert_some h.newer hnew a
  obtain ⟨ok2, perm2, mask2, size2, tab2, nb2⟩ := h_insert_spec h.newer hins
  have hperm : List.Perm (newer1.nodes ++ older1.nodes) (m.newer.nodes ++ m.older.nodes) := by
    refine (List.Perm.append_right _ perm2).trans ?_
    refine List.Perm.trans ?_ (List.Perm.append_left _ perm1)
    simpa using List.perm_middle.symm
  refine ⟨older1, newer1, hdet, hins, ⟨⟨ok2, ok1, fun _ => tab2, ?_, ?_⟩, hperm, ?_, mask2, mask1,
    ?_, ?_, nb1, le_refl _⟩, size1, size2⟩
  · intro bs' hbs' i hi ch' hch'
    simp only at hbs' hi
    obtain ⟨ch, hch, hle⟩ := sub1 bs hbs bs' hbs' i ch' hch'
    have := h.cursor bs hbs i hi ch hch
    subst this
    simpa using hle
  · exact (hperm.map HNode.id).nodup_iff.2 h.nodup
  · simp only [hm_size]
    omega
  · simp [tab2, hnew]
  · simp only
    constructor
    · intro h0; exact absurd h0 tab1
    · intro h0; rw [hbs] at h0; simp at h0

/-- The migration loop on a consistent map: with an allowance above the number of
iterations that can still happen, it stops with a result. -/
theorem rehash_loop_spec : ∀ (fuel : Nat) (m : HMap) (w i : Nat), Inv m →
    (k_rehashing_work - w) + (m.older.nbuckets - m.migrate_pos) < fuel →
    ∃ m' w' i', rehash_loop fuel m w i = some (m', w', i') ∧ LoopPost m w i m' w' i' := by
  intro fuel
  induction fuel with
  | zero => intro m w i _ hf; omega
  | succ fuel ih =>
    intro m w i hinv hf
    by_cases hc : w < k_rehashing_work ∧ m.older.size > 0
    · obtain ⟨bs, ch, hbs, hch, hlt⟩ := cursor_in_bounds hinv hc.2
      cases ch with
      | nil =>
        have hrel := advance_rel hinv hbs hch
        obtain ⟨m', w', i', hrun, hpost⟩ := ih { m with migrate_pos := m.migrate_pos + 1 } w
          (i + 1) hrel.inv (by simp only; omega)
        refine ⟨m', w', i', ?_, ⟨hrel.trans hpost.rel, hpost.work_ge, hpost.work_le, ?_,
          hpost.done, ?_, ?_⟩⟩
        · rw [rehash_loop, if_pos hc]
          simp only [hbs, hch]
          exact hrun
        · simpa using hpost.moved
        · have := hpost.iters
          simp only at this
          omega
        · rcases hpost.pos with h1 | h1
          · right
            simp only at h1
            omega
          · right
            simpa using h1
      | cons a rest =>
        obtain ⟨older1, newer1, hdet, hins, hrel, hs1, hs2⟩ := move_rel hinv hbs hch
        obtain ⟨m', w', i', hrun, hpost⟩ := ih { m with newer := newer1, older := older1 }
          (w + 1) (i + 1) hrel.inv (by
            have := hrel.older_nb
            simp only at this ⊢
            omega)
        refine ⟨m', w', i', ?_, ⟨hrel.trans hpost.rel, ?_, ?_, ?_, hpost.done, ?_, ?_⟩⟩
        · rw [rehash_loop, if_pos hc]
          simp only [hbs, hch, hdet, hins]
          exact hrun
        · have := hpost.work_ge
          omega
        · intro _
          exact hpost.work_le (by omega)
        · have := hpost.moved
          simp only at this
          omega
        · have := hpost.iters
          simp only at this
          omega
        · have := hpost.pos
          have hnb := hrel.older_nb
          simp only at this hnb
          rw [hnb] at this
          exact this
    · refine ⟨m, w, i, ?_, ⟨SliceRel.refl hinv, le_refl _, fun h => h, rfl, hc, rfl, Or.inl rfl⟩⟩
      rw [rehash_loop, if_neg hc]

theorem older_zero_of_size {m : HMap} (h : TabOK m.older) (hn : m.older.tab = none) :
    m.older = HTab.zero := by
  have h1 := h.null hn
  have h2 := h.count
  rw [nodes_of_tab_none hn] at h2
  cases hm : m.older with
  | mk tab mask size =>
    rw [hm] at hn h1 h2
    simp only at hn h1 h2
    simp [HTab.zero, hn, h1, h2]

/-- One migration slice on a consistent map returns, and `HelpPost` describes the
result. -/
theorem hm_help_rehashing_spec {m : HMap} (hinv : Inv m) :
    ∃ m' w i, hm_help_rehashing m = some (m', w, i) ∧ HelpPost m m' w i := by
  obtain ⟨m1, w, i, hrun, hp⟩ := rehash_loop_spec (k_rehashing_work + m.older.nbuckets + 1) m 0 0
    hinv (by omega)
  have hwle : w ≤ k_rehashing_work := hp.work_le (Nat.zero_le _)
  have hmoved : w + m1.older.size = m.older.size := by simpa using hp.moved
  have hweq : w = min k_rehashing_work m.older.size := by
    have := hp.done
    omega
  have hit : i + m.migrate_pos = w + m1.migrate_pos := by simpa using hp.iters
  have hile : i ≤ w + (m.older.nbuckets - m.migrate_pos) := by
    rcases hp.pos with h1 | h1 <;> omega
  by_cases hfree : m1.older.size = 0 ∧ m1.older.tab.isSome
  · refine ⟨{ m1 with older := HTab.zero }, w, i, ?_, ?_⟩
    · simp only [hm_help_rehashing, hrun]
      rw [if_pos hfree]
    · have hnodes : m1.older.nodes = [] := by
        have := hp.rel.inv.older.count
        rw [hfree.1] at this
        exact List.length_eq_zero.1 this.symm
      have hn : ({ m1 with older := HTab.zero } : HMap).nodes = m1.nodes := by
        show m1.newer.nodes ++ HTab.zero.nodes = m1.newer.nodes ++ m1.older.nodes
        rw [hnodes]
        rfl
      refine ⟨⟨hp.rel.inv.newer, TabOK_zero, ?_, ?_, ?_⟩, ?_, ?_, hp.rel.newer_mask,
        hp.rel.newer_tab, hwle, hweq, ?_, fun _ => rfl, ?_, hit, hile⟩
      · intro h0; simp [HTab.zero] at h0
      · intro bs h0; simp [HTab.zero] at h0
      · rw [hn]; exact hp.rel.inv.nodup
      · rw [hn]; exact hp.rel.perm
      · have := hp.rel.size
        simp only [hm_size, HTab.zero] at this ⊢
        omega
      · simp only [HTab.zero]
        omega
      · intro h0; simp [HTab.zero] at h0
  · refine ⟨m1, w, i, ?_, ?_⟩
    · simp only [hm_help_rehashing, hrun]
      rw [if_neg hfree]
    · refine ⟨hp.rel.inv, hp.rel.perm, hp.rel.size, hp.rel.newer_mask, hp.rel.newer_tab, hwle,
        hweq, hmoved, ?_, ?_, hit, hile⟩
      · intro h0
        apply older_zero_of_size hp.rel.inv.older
        cases ht : m1.older.tab with
        | none => rfl
        | some bs => exact absurd ⟨h0, by simp [ht]⟩ hfree
      · intro h0
        refine ⟨hp.rel.older_mask, hp.rel.older_nb, ?_⟩
        intro hn
        have := hp.rel.inv.older.count
        rw [nodes_of_tab_none hn] at this
        simp at this
        omega

theorem h_detach_nbuckets {t t' : HTab} {s : Slot} {x : HNode}
    (h : h_detach t s = some (t', x)) : t'.nbuckets = t.nbuckets := by
  unfold h_detach at h
  cases hbs : t.tab with
  | none => simp [hbs] at h
  | some bs =>
    simp only [hbs] at h
    cases hch : bs[s.1]? with
    | none => simp [hch] at h
    | some ch =>
      simp only [hch] at h
      cases hx : ch[s.2]? with
      | none => simp [hx] at h
      | some y =>
        simp only [hx, Option.some.injEq, Prod.mk.injEq] at h
        rw [← h.1]
        simp [HTab.nbuckets, hbs]

/-- The iteration allowance does not matter once it exceeds the number of iterations
that can still happen: the budget left plus the buckets ahead of the cursor.  So the
result `none` of `hm_help_rehashing` always stands for a read outside the bucket
array or through a null pointer, never for a loop cut short. -/
theorem rehash_loop_fuel : ∀ (fuel1 fuel2 : Nat) (m : HMap) (w i : Nat),
    (k_rehashing_work - w) + (m.older.nbuckets - m.migrate_pos) < fuel1 →
    (k_rehashing_work - w) + (m.older.nbuckets - m.migrate_pos) < fuel2 →
    rehash_loop fuel1 m w i = rehash_loop fuel2 m w i := by
  intro fuel1
  induction fuel1 with
  | zero => intro fuel2 m w i h1; omega
  | succ fuel1 ih =>
    intro fuel2 m w i h1 h2
    cases fuel2 with
    | zero => omega
    | succ fuel2 =>
      rw [rehash_loop, rehash_loop]
      by_cases hc : w < k_rehashing_work ∧ m.older.size > 0
      · rw [if_pos hc, if_pos hc]
        cases hbs : m.older.tab with
        | none => rfl
        | some bs =>
          simp only
          cases hch : bs[m.migrate_pos]? with
          | none => rfl
          | some ch =>
            have hlt : m.migrate_pos < m.older.nbuckets := by
              rw [nbuckets_of_tab_some hbs]
              by_contra hge
              rw [List.getElem?_eq_none (by omega)] at hch
              simp at hch
            cases ch with
            | nil =>
              simp only
              exact ih fuel2 _ w (i + 1) (by simp only; omega) (by simp only; omega)
            | cons a rest =>
              simp only
              cases hdet : h_detach m.older (m.migrate_pos, 0) with
              | none => rfl
              | some p =>
                obtain ⟨older1, moved⟩ := p
                simp only
                cases hins : h_insert m.newer moved with
                | none => rfl
                | some newer1 =>
                  simp only
                  have hnb := h_detach_nbuckets hdet
                  exact ih fuel2 _ (w + 1) (i + 1) (by simp only; omega) (by simp only; omega)
      · rw [if_neg hc, if_neg hc]

end Migration

/-! ### The public operations -/

section PublicOps

theorem tab_some_of_deref {t : HTab} {s : Slot} {x : HNode} (h : h_deref t s = some x) :
    t.tab ≠ none := by
  intro h0
  simp [h_deref, h0] at h

theorem detach_newer_rel {m : HMap} (h : Inv m) {s : Slot} {x : HNode} {t' : HTab}
    (hd : h_detach m.newer s = some (t', x)) : DetachRel m { m with newer := t' } x := by
  obtain ⟨ok1, perm1, mask1, size1, tab1, _, hder, _⟩ := h_detach_spec h.newer hd
  have hperm : List.Perm (x :: (t'.nodes ++ m.older.nodes)) (m.newer.nodes ++ m.older.nodes) := by
    rw [← List.cons_append]
    exact List.Perm.append_right _ perm1
  refine ⟨⟨ok1, h.older, fun _ => tab1, h.cursor, ?_⟩, hperm, ?_, mask1, rfl, ?_, Iff.rfl, rfl⟩
  · have := (hperm.map HNode.id).nodup_iff.2 h.nodup
    exact (List.nodup_cons.1 this).2
  · simp only [hm_size]
    omega
  · simp [tab1, tab_some_of_deref hder]

theorem detach_older_rel {m : HMap} (h : Inv m) {s : Slot} {x : HNode} {t' : HTab}
    (hd : h_detach m.older s = some (t', x)) : DetachRel m { m with older := t' } x := by
  obtain ⟨ok1, perm1, mask1, size1, tab1, _, hder, sub1⟩ := h_detach_spec h.older hd
  have hold := tab_some_of_deref hder
  have hperm : List.Perm (x :: (m.newer.nodes ++ t'.nodes)) (m.newer.nodes ++ m.older.nodes) := by
    refine List.Perm.trans ?_ (List.Perm.append_left _ perm1)
    simpa using List.perm_middle.symm
  refine ⟨⟨h.newer, ok1, fun _ => h.both hold, ?_, ?_⟩, hperm, ?_, rfl, mask1, Iff.rfl, ?_, rfl⟩
  · intro bs' hbs' i hi ch' hch'
    simp only at hbs' hi
    cases hbs : m.older.tab with
    | none => exact absurd hbs hold
    | some bs =>
      obtain ⟨ch, hch, hle⟩ := sub1 bs hbs bs' hbs' i ch' hch'
      have := h.cursor bs hbs i hi ch hch
      subst this
      simpa using hle
  · have := (hperm.map HNode.id).nodup_iff.2 h.nodup
    exact (List.nodup_cons.1 this).2
  · simp only [hm_size]
    omega
  · simp [tab1, hold]

theorem not_matches_of_perm {eq : HNode → HNode → Bool} {key : HNode} {l1 l2 l : List HNode}
    (hp : List.Perm (l1 ++ l2) l) (h1 : ∀ x ∈ l1, ¬ (x.hcode = key.hcode ∧ eq x key = true))
    (h2 : ∀ x ∈ l2, ¬ (x.hcode = key.hcode ∧ eq x key = true)) :
    ∀ x ∈ l, ¬ Matches eq key x := by
  intro x hx
  rcases List.mem_append.1 (hp.symm.subset hx) with hm | hm
  · exact h1 x hm
  · exact h2 x hm

/-- `hm_lookup` on a consistent map: it returns, after one migration slice, either a
stored node that matches the key or `NULL` when no stored node matches. -/
theorem hm_lookup_spec {m : HMap} (hinv : Inv m) (key : HNode) (eq : HNode → HNode → Bool) :
    ∃ r, hm_lookup m key eq = some r ∧
      hm_help_rehashing m = some (r.map, r.work, r.iters) ∧ HelpPost m r.map r.work r.iters ∧
      ((r.node = none ∧ ∀ x ∈ m.nodes, ¬ Matches eq key x) ∨
       (∃ x, r.node = some x ∧ x ∈ m.nodes ∧ Matches eq key x)) := by
  obtain ⟨m1, w, i, hhelp, hp⟩ := hm_help_rehashing_spec hinv
  rcases h_lookup_spec hp.inv.newer key eq with ⟨hl1, hno1⟩ | ⟨s, x, hl1, hder, hmem, hmatch⟩
  · rcases h_lookup_spec hp.inv.older key eq with ⟨hl2, hno2⟩ | ⟨s, x, hl2, hder, hmem, hmatch⟩
    · refine ⟨⟨m1, none, w, i⟩, ?_, hhelp, hp,
        Or.inl ⟨rfl, not_matches_of_perm hp.perm hno1 hno2⟩⟩
      simp [hm_lookup, hhelp, hl1, hl2]
    · refine ⟨⟨m1, some x, w, i⟩, ?_, hhelp, hp, Or.inr ⟨x, rfl, ?_, hmatch⟩⟩
      · simp [hm_lookup, hhelp, hl1, hl2, hder]
      · exact hp.perm.subset (List.mem_append_right _ hmem)
  · refine ⟨⟨m1, some x, w, i⟩, ?_, hhelp, hp, Or.inr ⟨x, rfl, ?_, hmatch⟩⟩
    · simp [hm_lookup, hhelp, hl1, hder]
    · exact hp.perm.subset (List.mem_append_left _ hmem)

/-- `hm_delete` on a consistent map: it returns, after one migration slice, either a
stored node that matches the key, now unlinked, or `NULL` when no stored node
matches. -/
theorem hm_delete_spec {m : HMap} (hinv : Inv m) (key : HNode) (eq : HNode → HNode → Bool) :
    ∃ r m1, hm_delete m key eq = some r ∧
      hm_help_rehashing m = some (m1, r.work, r.iters) ∧ HelpPost m m1 r.work r.iters ∧
      ((r.node = none ∧ r.map = m1 ∧ ∀ x ∈ m.nodes, ¬ Matches eq key x) ∨
       (∃ x, r.node = some x ∧ x ∈ m.nodes ∧ Matches eq key x ∧ DetachRel m1 r.map x)) := by
  obtain ⟨m1, w, i, hhelp, hp⟩ := hm_help_rehashing_spec hinv
  rcases h_lookup_spec hp.inv.newer key eq with ⟨hl1, hno1⟩ | ⟨s, x, hl1, hder, hmem, hmatch⟩
  · rcases h_lookup_spec hp.inv.older key eq with ⟨hl2, hno2⟩ | ⟨s, x, hl2, hder, hmem, hmatch⟩
    · refine ⟨⟨m1, none, w, i⟩, m1, ?_, hhelp, hp,
        Or.inl ⟨rfl, rfl, not_matches_of_perm hp.perm hno1 hno2⟩⟩
      simp [hm_delete, hhelp, hl1, hl2]
    · obtain ⟨t', hdet⟩ := h_detach_of_deref hder
      refine ⟨⟨{ m1 with older := t' }, some x, w, i⟩, m1, ?_, hhelp, hp,
        Or.inr ⟨x, rfl, ?_, hmatch, detach_older_rel hp.inv hdet⟩⟩
      · simp [hm_delete, hhelp, hl1, hl2, hdet]
      · exact hp.perm.subset (List.mem_append_right _ hmem)
  · obtain ⟨t', hdet⟩ := h_detach_of_deref hder
    refine ⟨⟨{ m1 with newer := t' }, some x, w, i⟩, m1, ?_, hhelp, hp,
      Or.inr ⟨x, rfl, ?_, hmatch, detach_newer_rel hp.inv hdet⟩⟩
    · simp [hm_delete, hhelp, hl1, hdet]
    · exact hp.perm.subset (List.mem_append_left _ hmem)

/-- `hm_insert` is `insert_link` followed by one migration slice. -/
theorem hm_insert_eq (m : HMap) (n : HNode) :
    hm_insert m n =
      match insert_link m n with
      | none => none
      | some m2 =>
        match hm_help_rehashing m2 with
        | none => none
        | some (m3, w, i) => some ⟨m3, none, w, i⟩ := by
  unfold hm_insert insert_link
  cases (if m.newer.tab.isNone then h_init 4 else some m.newer) with
  | none => rfl
  | some newer0 =>
    simp only
    cases h_insert newer0 n with
    | none => rfl
    | some newer1 => rfl

/-- Linking a fresh node into a table that stands for newer. -/
theorem link_inv {m : HMap} (hinv : Inv m) {n : HNode} (hfresh : Fresh m n) {t0 t1 : HTab}
    (h0 : TabOK t0) (hn0 : t0.nodes = m.newer.nodes) (hins : h_insert t0 n = some t1) :
    Inv { m with newer := t1 } ∧
      List.Perm ({ m with newer := t1 } : HMap).nodes (n :: m.nodes) := by
  obtain ⟨ok1, perm1, _, _, tab1, _⟩ := h_insert_spec h0 hins
  have hperm : List.Perm (t1.nodes ++ m.older.nodes) (n :: (m.newer.nodes ++ m.older.nodes)) := by
    rw [← List.cons_append, ← hn0]
    exact List.Perm.append_right _ perm1
  refine ⟨⟨ok1, hinv.older, fun _ => tab1, hinv.cursor, ?_⟩, hperm⟩
  refine (hperm.map HNode.id).nodup_iff.2 ?_
  rw [List.map_cons, List.nodup_cons]
  refine ⟨?_, hinv.nodup⟩
  intro hmem
  obtain ⟨x, hx, hid⟩ := List.mem_map.1 hmem
  exact hfresh x hx hid

/-- The first part of `hm_insert` on a consistent map and a fresh node. -/
theorem insert_link_spec {m : HMap} (hinv : Inv m) {n : HNode} (hfresh : Fresh m n) :
    ∃ m2, insert_link m n = some m2 ∧ LinkPost m n m2 := by
  cases hnew : m.newer.tab with
  | none =>
    have hold : m.older.tab = none := by
      by_contra h
      exact hinv.both h hnew
    have hinit : h_init 4 = some ⟨some (List.replicate (2 ^ 2) []), 2 ^ 2 - 1, 0⟩ := h_init_pow2 2
    have ok0 := TabOK_init 2 (le_refl _)
    obtain ⟨t1, hins⟩ := h_insert_some ok0 (by simp) n
    obtain ⟨ok1, perm1, mask1, size1, tab1, _⟩ := h_insert_spec ok0 hins
    obtain ⟨hinv1, hperm1⟩ := link_inv hinv hfresh ok0 (by
      rw [nodes_of_tab_none hnew]
      simp [HTab.nodes, HTab.buckets, flatten_replicate_nil]) hins
    have hsz : m.newer.size = 0 := by
      have := hinv.newer.count
      rw [nodes_of_tab_none hnew] at this
      simpa using this
    simp only at mask1 size1
    refine ⟨{ m with newer := t1 }, ?_, ⟨hinv1, hperm1, ?_, Or.inl ⟨rfl, rfl, tab1, ?_, ?_, ?_, ?_⟩⟩⟩
    · unfold insert_link
      simp only [hnew, Option.isNone_none, if_true, hinit, hins, hold]
      rw [if_neg]
      simp only [mask1, size1, k_max_load_factor]
      omega
    · simp only [hm_size]
      omega
    · simp only
      omega
    · intro h; exact absurd hnew h
    · intro _; rw [mask1]; rfl
    · intro _
      simp only [mask1, size1, k_max_load_factor]
      omega
  | some bs =>
    have hne : m.newer.tab ≠ none := by rw [hnew]; simp
    obtain ⟨t1, hins⟩ := h_insert_some hinv.newer hne n
    obtain ⟨ok1, perm1, mask1, size1, tab1, nb1⟩ := h_insert_spec hinv.newer hins
    obtain ⟨hinv1, hperm1⟩ := link_inv hinv hfresh hinv.newer rfl hins
    have hsize1 : hm_size ({ m with newer := t1 } : HMap) = hm_size m + 1 := by
      simp only [hm_size]
      omega
    by_cases htrig : m.older.tab = none ∧ t1.size ≥ (t1.mask + 1) * k_max_load_factor
    · obtain ⟨k, hk, hpow⟩ := hinv.newer.pow2 bs hnew
      have hdouble : (t1.mask + 1) * 2 = 2 ^ (k + 1) := by
        rw [mask1, hpow, Nat.pow_succ]
      have hinit := h_init_pow2 (k + 1)
      have ok2 := TabOK_init (k + 1) (by omega)
      rw [← hdouble] at hinit ok2
      have hnodes_old : m.older.nodes = [] := nodes_of_tab_none htrig.1
      refine ⟨⟨⟨some (List.replicate ((t1.mask + 1) * 2) []), (t1.mask + 1) * 2 - 1, 0⟩, t1, 0⟩,
        ?_, ⟨⟨ok2, ok1, fun _ => by simp, ?_, ?_⟩, ?_, ?_, Or.inr ⟨htrig.1, hne, rfl, tab1, mask1, ?_, size1, ?_,
          by rw [mask1]⟩⟩⟩
      · have h2 := htrig.2
        simp [insert_link, hnew, hins, htrig.1, hm_trigger_rehashing, hinit, h2]
      · intro bs' _ i hi
        simp only at hi
        omega
      · have h1 := (perm1.map HNode.id).nodup_iff.1
        have h2 := hinv1.nodup
        simp only [HMap.nodes, hnodes_old, List.append_nil] at h2
        simpa [HMap.nodes, HTab.nodes, HTab.buckets, flatten_replicate_nil] using h2
      · have : List.Perm t1.nodes (n :: m.nodes) := by
          simpa [HMap.nodes, hnodes_old] using perm1
        simpa [HMap.nodes, HTab.nodes, HTab.buckets, flatten_replicate_nil] using this
      · have hs0 : m.older.size = 0 := by
          have := hinv.older.count
          rw [hnodes_old] at this
          simpa using this
        simp only [hm_size]
        omega
      · have := hinv.newer.len bs hnew
        rw [nb1, nbuckets_of_tab_some hnew]
        exact this
      · rw [← mask1]
        exact htrig.2
    · refine ⟨{ m with newer := t1 }, ?_, ⟨hinv1, hperm1, hsize1,
        Or.inl ⟨rfl, rfl, tab1, size1, fun _ => mask1, fun h => absurd h hne, ?_⟩⟩⟩
      · by_cases hold : m.older.tab = none
        · have h2 : ¬ (t1.size ≥ (t1.mask + 1) * k_max_load_factor) := fun h => htrig ⟨hold, h⟩
          simp [insert_link, hnew, hins, hold, h2]
        · simp [insert_link, hnew, hins, hold]
      · intro hold
        simp only
        by_contra hge
        exact htrig ⟨hold, by omega⟩

/-- `hm_insert` of a fresh node on a consistent map returns: the node is linked, then
one migration slice runs. -/
theorem hm_insert_spec {m : HMap} (hinv : Inv m) {n : HNode} (hfresh : Fresh m n) :
    ∃ r m2, hm_insert m n = some r ∧ insert_link m n = some m2 ∧ LinkPost m n m2 ∧
      hm_help_rehashing m2 = some (r.map, r.work, r.iters) ∧
      HelpPost m2 r.map r.work r.iters ∧ r.node = none := by
  obtain ⟨m2, hlink, hpost⟩ := insert_link_spec hinv hfresh
  obtain ⟨m3, w, i, hhelp, hp⟩ := hm_help_rehashing_spec hpost.inv
  refine ⟨⟨m3, none, w, i⟩, m2, ?_, hlink, hpost, hhelp, hp, rfl⟩
  rw [hm_insert_eq]
  simp only [hlink, hhelp]

theorem hm_insert_inv {m : HMap} (hinv : Inv m) {n : HNode} (hfresh : Fresh m n) {r : Ret}
    (h : hm_insert m n = some r) :
    Inv r.map ∧ List.Perm r.map.nodes (n :: m.nodes) ∧ hm_size r.map = hm_size m + 1 := by
  obtain ⟨r', m2, h', _, hl, _, hp, _⟩ := hm_insert_spec hinv hfresh
  rw [h] at h'
  simp only [Option.some.injEq] at h'
  subst h'
  exact ⟨hp.inv, hp.perm.trans hl.perm, hp.size.trans hl.size⟩

theorem hm_lookup_inv {m : HMap} (hinv : Inv m) {key : HNode} {eq : HNode → HNode → Bool}
    {r : Ret} (h : hm_lookup m key eq = some r) :
    Inv r.map ∧ List.Perm r.map.nodes m.nodes ∧ hm_size r.map = hm_size m := by
  obtain ⟨r', h', _, hp, _⟩ := hm_lookup_spec hinv key eq
  rw [h] at h'
  simp only [Option.some.injEq] at h'
  subst h'
  exact ⟨hp.inv, hp.perm, hp.size⟩

theorem hm_delete_inv {m : HMap} (hinv : Inv m) {key : HNode} {eq : HNode → HNode → Bool}
    {r : Ret} (h : hm_delete m key eq = some r) : Inv r.map := by
  obtain ⟨r', m1, h', _, hp, hcase⟩ := hm_delete_spec hinv key eq
  rw [h] at h'
  simp only [Option.some.injEq] at h'
  subst h'
  rcases hcase with ⟨_, hmap, _⟩ | ⟨x, _, _, _, hd⟩
  · rw [hmap]; exact hp.inv
  · exact hd.inv

theorem Inv_zero : Inv HMap.zero :=
  ⟨TabOK_zero, TabOK_zero, fun h => absurd rfl h, fun bs h => by simp [HMap.zero, HTab.zero] at h,
    List.nodup_nil⟩

/-- Every reachable map is consistent. -/
theorem Reach.inv {m : HMap} (h : Reach m) : Inv m := by
  induction h with
  | zero => exact Inv_zero
  | insert _ hf hi ih => exact (hm_insert_inv ih hf hi).1
  | lookup _ hl ih => exact (hm_lookup_inv ih hl).1
  | delete _ hd ih => exact hm_delete_inv ih hd
  | clear _ _ => exact Inv_zero

theorem Trace.reach {m : HMap} {a b : Nat} (h : Trace m a b) : Reach m := by
  induction h with
  | zero => exact Reach.zero
  | insert _ hf hi ih => exact Reach.insert ih hf hi
  | lookup _ hl ih => exact Reach.lookup ih hl
  | delete_hit _ hd _ ih => exact Reach.delete ih hd
  | delete_miss _ hd _ ih => exact Reach.delete ih hd

theorem Trace.count {m : HMap} {a b : Nat} (h : Trace m a b) : hm_size m + b = a := by
  induction h with
  | zero => rfl
  | insert ht hf hi ih =>
    have := (hm_insert_inv ht.reach.inv hf hi).2.2
    omega
  | lookup ht hl ih =>
    have := (hm_lookup_inv ht.reach.inv hl).2.2
    omega
  | @delete_hit m a b key eq r x ht hd hx ih =>
    obtain ⟨r', m1, h', _, hp, hcase⟩ := hm_delete_spec ht.reach.inv key eq
    rw [hd] at h'
    simp only [Option.some.injEq] at h'
    subst h'
    rcases hcase with ⟨h0, _, _⟩ | ⟨y, _, _, _, hrel⟩
    · rw [hx] at h0; simp at h0
    · have h1 := hrel.size
      have h2 := hp.size
      omega
  | @delete_miss m a b key eq r ht hd hx ih =>
    obtain ⟨r', m1, h', _, hp, hcase⟩ := hm_delete_spec ht.reach.inv key eq
    rw [hd] at h'
    simp only [Option.some.injEq] at h'
    subst h'
    rcases hcase with ⟨_, hmap, _⟩ | ⟨y, hy, _, _, _⟩
    · have h2 := hp.size
      rw [hmap]
      omega
    · rw [hx] at hy; simp at hy

theorem Inv.size_eq {m : HMap} (h : Inv m) : hm_size m = m.nodes.length := by
  simp only [hm_size, HMap.nodes, List.length_append, h.newer.count, h.older.count]

end PublicOps

/-! ### Runs of operations -/

section Sequences

/-- Inserting a list of fresh, pairwise different records succeeds and stores them. -/
theorem insert_all_reach : ∀ (ns : List HNode) (m : HMap), Reach m →
    (ns.map HNode.id).Nodup → (∀ x ∈ m.nodes, ∀ n ∈ ns, x.id ≠ n.id) →
    ∃ m', hm_insert_all m ns = some m' ∧ Reach m' ∧ List.Perm m'.nodes (ns ++ m.nodes) ∧
      hm_size m' = hm_size m + ns.length := by
  intro ns
  induction ns with
  | nil =>
    intro m hr _ _
    exact ⟨m, rfl, hr, List.Perm.refl _, rfl⟩
  | cons n ns ih =>
    intro m hr hnd hfr
    rw [List.map_cons, List.nodup_cons] at hnd
    have hfresh : Fresh m n := fun x hx => hfr x hx n (List.mem_cons_self _ _)
    obtain ⟨r, m2, hins, _, _, _, _, _⟩ := hm_insert_spec hr.inv hfresh
    obtain ⟨_, hperm, hsize⟩ := hm_insert_inv hr.inv hfresh hins
    obtain ⟨m', hall, hr', hperm', hsize'⟩ := ih r.map (Reach.insert hr hfresh hins) hnd.2 (by
      intro x hx y hy
      rcases List.mem_cons.1 (hperm.subset hx) with hx | hx
      · subst hx
        intro hid
        exact hnd.1 (by rw [hid]; exact List.mem_map_of_mem _ hy)
      · exact hfr x hx y (List.mem_cons_of_mem _ hy))
    refine ⟨m', ?_, hr', ?_, ?_⟩
    · simp only [hm_insert_all, hins]
      exact hall
    · refine hperm'.trans ((List.Perm.append_left ns hperm).trans ?_)
      simp
    · rw [hsize', hsize, List.length_cons]
      omega

theorem sample_nodes_ids (n : Nat) : (sample_nodes n).map HNode.id = List.range n := by
  simp [sample_nodes, List.map_map, Function.comp_def]

theorem sample_map_spec (n : Nat) :
    hm_insert_all HMap.zero (sample_nodes n) = some (sample_map n) ∧ Reach (sample_map n) ∧
      List.Perm (sample_map n).nodes (sample_nodes n) ∧ hm_size (sample_map n) = n := by
  obtain ⟨m', hall, hr, hperm, hsize⟩ := insert_all_reach (sample_nodes n) HMap.zero Reach.zero
    (by rw [sample_nodes_ids]; exact List.nodup_range n) (by
      intro x hx
      simp [HMap.zero, HMap.nodes, HTab.nodes, HTab.buckets, HTab.zero] at hx)
  have hm : sample_map n = m' := by simp [sample_map, hall]
  rw [hm]
  refine ⟨hall, hr, ?_, ?_⟩
  · simpa [HMap.zero, HMap.nodes, HTab.nodes, HTab.buckets, HTab.zero] using hperm
  · simpa [HMap.zero, hm_size, HTab.zero, sample_nodes] using hsize

theorem insert_all_trace : ∀ (ns : List HNode) (m m' : HMap) (a b : Nat), Trace m a b →
    (ns.map HNode.id).Nodup → (∀ x ∈ m.nodes, ∀ n ∈ ns, x.id ≠ n.id) →
    hm_insert_all m ns = some m' → Trace m' (a + ns.length) b := by
  intro ns
  induction ns with
  | nil =>
    intro m m' a b ht _ _ h
    simp only [hm_insert_all, Option.some.injEq] at h
    subst h
    exact ht
  | cons n ns ih =>
    intro m m' a b ht hnd hfr h
    rw [List.map_cons, List.nodup_cons] at hnd
    have hfresh : Fresh m n := fun x hx => hfr x hx n (List.mem_cons_self _ _)
    obtain ⟨r, m2, hins, _, _, _, _, _⟩ := hm_insert_spec ht.reach.inv hfresh
    obtain ⟨_, hperm, _⟩ := hm_insert_inv ht.reach.inv hfresh hins
    simp only [hm_insert_all, hins] at h
    have := ih r.map m' (a + 1) b (Trace.insert ht hfresh hins) hnd.2 (by
      intro x hx y hy
      rcases List.mem_cons.1 (hperm.subset hx) with hx | hx
      · subst hx
        intro hid
        exact hnd.1 (by rw [hid]; exact List.mem_map_of_mem _ hy)
      · exact hfr x hx y (List.mem_cons_of_mem _ hy)) h
    rw [List.length_cons]
    have he : a + (ns.length + 1) = a + 1 + ns.length := by omega
    rw [he]
    exact this

theorem sample_map_trace (n : Nat) : Trace (sample_map n) n 0 := by
  have h := insert_all_trace (sample_nodes n) HMap.zero (sample_map n) 0 0 Trace.zero
    (by rw [sample_nodes_ids]; exact List.nodup_range n) (by
      intro x hx
      simp [HMap.zero, HMap.nodes, HTab.nodes, HTab.buckets, HTab.zero] at hx)
    (sample_map_spec n).1
  simpa [sample_nodes] using h

theorem lookup_all_reach : ∀ (ks : List HNode) (eq : HNode → HNode → Bool) (m : HMap), Reach m →
    ∃ m', hm_lookup_all m eq ks = some m' ∧ Reach m' ∧ List.Perm m'.nodes m.nodes ∧
      hm_size m' = hm_size m := by
  intro ks eq
  induction ks with
  | nil => intro m hr; exact ⟨m, rfl, hr, List.Perm.refl _, rfl⟩
  | cons k ks ih =>
    intro m hr
    obtain ⟨r, hl, _, hp, _⟩ := hm_lookup_spec hr.inv k eq
    obtain ⟨m', hall, hr', hperm, hsize⟩ := ih r.map (Reach.lookup hr hl)
    refine ⟨m', ?_, hr', hperm.trans hp.perm, hsize.trans hp.size⟩
    simp only [hm_lookup_all, hl]
    exact hall

/-- A stored node that is the only stored match of a key is what `hm_lookup` returns. -/
theorem lookup_unique {m : HMap} (hinv : Inv m) {key x : HNode} {eq : HNode → HNode → Bool}
    (hx : x ∈ m.nodes) (hm : Matches eq key x)
    (huniq : ∀ y ∈ m.nodes, Matches eq key y → y = x) :
    ∃ r, hm_lookup m key eq = some r ∧ r.node = some x := by
  obtain ⟨r, hl, _, _, hcase⟩ := hm_lookup_spec hinv key eq
  refine ⟨r, hl, ?_⟩
  rcases hcase with ⟨_, hno⟩ | ⟨y, hy, hmem, hmatch⟩
  · exact absurd hm (hno x hx)
  · rw [hy, huniq y hmem hmatch]

theorem lookup_absent {m : HMap} (hinv : Inv m) (key : HNode) (eq : HNode → HNode → Bool)
    (hno : ∀ y ∈ m.nodes, ¬ Matches eq key y) :
    ∃ r, hm_lookup m key eq = some r ∧ r.node = none := by
  obtain ⟨r, hl, _, _, hcase⟩ := hm_lookup_spec hinv key eq
  refine ⟨r, hl, ?_⟩
  rcases hcase with ⟨hn, _⟩ | ⟨y, _, hmem, hmatch⟩
  · exact hn
  · exact absurd hmatch (hno y hmem)

/-- Deleting the key of one of the records `ns` removes exactly that record. -/
theorem delete_key_mem {m : HMap} (hr : Reach m) {ns : List HNode} {key : HNode → HNode}
    {eq : HNode → HNode → Bool} (hsub : ∀ x ∈ m.nodes, x ∈ ns)
    (hkey : ∀ x ∈ ns, (key x).hcode = x.hcode)
    (heq : ∀ x ∈ ns, ∀ y ∈ ns, (eq x (key y) = true ↔ x = y)) {d : HNode} (hd : d ∈ ns) :
    ∃ r, hm_delete m (key d) eq = some r ∧ Reach r.map ∧
      ∀ x, x ∈ r.map.nodes ↔ x ∈ m.nodes ∧ x ≠ d := by
  obtain ⟨r, m1, hdel, _, hp, hcase⟩ := hm_delete_spec hr.inv (key d) eq
  refine ⟨r, hdel, Reach.delete hr hdel, ?_⟩
  rcases hcase with ⟨_, hmap, hno⟩ | ⟨y, _, hmem, hmatch, hrel⟩
  · intro x
    rw [hmap]
    constructor
    · intro hx
      have hx' := hp.perm.subset hx
      refine ⟨hx', ?_⟩
      intro hxd
      subst hxd
      exact hno x hx' ⟨(hkey x hd).symm, (heq x hd x hd).2 rfl⟩
    · intro hx
      exact hp.perm.symm.subset hx.1
  · have hyd : y = d := (heq y (hsub y hmem) d hd).1 hmatch.2
    subst hyd
    have hperm : List.Perm (y :: r.map.nodes) m.nodes := hrel.perm.trans hp.perm
    have hnd : (y :: r.map.nodes).Nodup :=
      List.Nodup.of_map HNode.id ((hperm.map HNode.id).nodup_iff.2 hr.inv.nodup)
    intro x
    constructor
    · intro hx
      refine ⟨hperm.subset (List.mem_cons_of_mem _ hx), ?_⟩
      intro hxy
      subst hxy
      exact (List.nodup_cons.1 hnd).1 hx
    · rintro ⟨hx, hne⟩
      rcases List.mem_cons.1 (hperm.symm.subset hx) with h1 | h1
      · exact absurd h1 hne
      · exact h1

theorem delete_all_reach {ns : List HNode} {key : HNode → HNode} {eq : HNode → HNode → Bool}
    (hkey : ∀ x ∈ ns, (key x).hcode = x.hcode)
    (heq : ∀ x ∈ ns, ∀ y ∈ ns, (eq x (key y) = true ↔ x = y)) :
    ∀ (ds : List HNode) (m : HMap), Reach m → (∀ x ∈ m.nodes, x ∈ ns) → (∀ d ∈ ds, d ∈ ns) →
    ∃ m', hm_delete_all m eq (ds.map key) = some m' ∧ Reach m' ∧
      ∀ x, x ∈ m'.nodes ↔ x ∈ m.nodes ∧ x ∉ ds := by
  intro ds
  induction ds with
  | nil =>
    intro m hr _ _
    exact ⟨m, rfl, hr, fun x => by simp⟩
  | cons d ds ih =>
    intro m hr hsub hds
    obtain ⟨r, hdel, hr1, hmem1⟩ := delete_key_mem hr hsub hkey heq (hds d (List.mem_cons_self _ _))
    obtain ⟨m', hall, hr', hmem'⟩ := ih r.map hr1 (fun x hx => hsub x ((hmem1 x).1 hx).1)
      (fun e he => hds e (List.mem_cons_of_mem _ he))
    refine ⟨m', ?_, hr', ?_⟩
    · simp only [List.map_cons, hm_delete_all, hdel]
      exact hall
    · intro x
      rw [hmem' x, hmem1 x, List.mem_cons]
      tauto

theorem sample_nodes_mem {n : Nat} {x : HNode} (h : x ∈ sample_nodes n) :
    x.hcode = x.id ∧ x.id < n := by
  simp only [sample_nodes, List.mem_map, List.mem_range] at h
  obtain ⟨i, hi, rfl⟩ := h
  exact ⟨rfl, hi⟩

theorem sample_nodes_eq (n : Nat) : ∀ x ∈ sample_nodes n, ∀ y ∈ sample_nodes n,
    (same_record x (id y) = true ↔ x = y) := by
  intro x hx y hy
  have h1 := (sample_nodes_mem hx).1
  have h2 := (sample_nodes_mem hy).1
  cases x with
  | mk xi xh =>
    cases y with
    | mk yi yh =>
      simp only at h1 h2
      subst h1
      subst h2
      simp [same_record]

theorem sample_nodes_sub {a b : Nat} (h : a ≤ b) : ∀ d ∈ sample_nodes a, d ∈ sample_nodes b := by
  intro d hd
  simp only [sample_nodes, List.mem_map, List.mem_range] at hd ⊢
  obtain ⟨i, hi, rfl⟩ := hd
  exact ⟨i, by omega, rfl⟩

/-- Enough consecutive lookups drain older and release it. -/
theorem lookup_all_drains : ∀ (ks : List HNode) (eq : HNode → HNode → Bool) (m : HMap),
    Reach m → 1 ≤ ks.length → m.older.size ≤ k_rehashing_work * ks.length →
    ∃ m', hm_lookup_all m eq ks = some m' ∧ Reach m' ∧ m'.older = HTab.zero ∧
      hm_size m' = hm_size m ∧ List.Perm m'.nodes m.nodes ∧
      m'.newer.mask = m.newer.mask ∧ (m'.newer.tab = none ↔ m.newer.tab = none) := by
  intro ks eq
  induction ks with
  | nil => intro m _ h1 _; simp at h1
  | cons k ks ih =>
    intro m hr _ hsz
    obtain ⟨r, hl, _, hp, _⟩ := hm_lookup_spec hr.inv k eq
    have hr1 := Reach.lookup hr hl
    have hmoved := hp.moved
    have hweq := hp.work_eq
    cases ks with
    | nil =>
      refine ⟨r.map, by simp [hm_lookup_all, hl], hr1, ?_, hp.size, hp.perm, hp.newer_mask,
        hp.newer_tab⟩
      apply hp.released
      simp only [List.length_singleton, Nat.mul_one] at hsz
      omega
    | cons k2 ks2 =>
      obtain ⟨m', hall, hr', hz, hsize, hperm, hmask, htab⟩ := ih r.map hr1 (by simp) (by
        simp only [List.length_cons] at hsz ⊢
        simp only [k_rehashing_work] at hsz hweq ⊢
        omega)
      refine ⟨m', ?_, hr', hz, hsize.trans hp.size, hperm.trans hp.perm,
        hmask.trans hp.newer_mask, htab.trans hp.newer_tab⟩
      rw [hm_lookup_all, hl]
      exact hall

end Sequences

/-! ### Iteration -/

section Foreach

variable {σ : Type}

theorem chain_foreach_logged (f : HNode → σ → Bool × σ) (hf : ∀ n s, (f n s).1 = true) :
    ∀ (ch : Chain) (log : List HNode) (s : σ),
      ∃ s', chain_foreach (logged f) ch (log, s) = (true, (log ++ ch, s')) := by
  intro ch
  induction ch with
  | nil => intro log s; exact ⟨s, by simp [chain_foreach]⟩
  | cons a rest ih =>
    intro log s
    obtain ⟨s', hs'⟩ := ih (log ++ [a]) (f a s).2
    refine ⟨s', ?_⟩
    have h1 : logged f a (log, s) = (true, (log ++ [a], (f a s).2)) := by
      simp [logged, hf]
    rw [chain_foreach, h1]
    simp only
    rw [hs']
    simp

theorem buckets_foreach_logged (f : HNode → σ → Bool × σ) (hf : ∀ n s, (f n s).1 = true)
    (bs : List Chain) : ∀ (n i : Nat) (log : List HNode) (s : σ), i + n = bs.length →
      ∃ s', buckets_foreach (logged f) bs n i (log, s) =
        some (true, (log ++ (bs.drop i).flatten, s')) := by
  intro n
  induction n with
  | zero =>
    intro i log s hi
    refine ⟨s, ?_⟩
    have : bs.drop i = [] := List.drop_eq_nil_iff.2 (by omega)
    simp [buckets_foreach, this]
  | succ n ih =>
    intro i log s hi
    have hlt : i < bs.length := by omega
    obtain ⟨s1, hs1⟩ := chain_foreach_logged f hf bs[i] log s
    obtain ⟨s', hs'⟩ := ih (i + 1) (log ++ bs[i]) s1 (by omega)
    refine ⟨s', ?_⟩
    rw [buckets_foreach, List.getElem?_eq_getElem hlt]
    simp only [hs1]
    rw [hs']
    have hd : bs.drop i = bs[i] :: bs.drop (i + 1) := List.drop_eq_getElem_cons hlt
    rw [hd, List.flatten_cons, List.append_assoc]

theorem h_foreach_logged (f : HNode → σ → Bool × σ) (hf : ∀ n s, (f n s).1 = true) {t : HTab}
    (ht : TabOK t) (log : List HNode) (s : σ) :
    ∃ s', h_foreach t (logged f) (log, s) = some (true, (log ++ t.nodes, s')) := by
  cases hbs : t.tab with
  | none =>
    refine ⟨s, ?_⟩
    simp [h_foreach, hbs, nodes_of_tab_none hbs]
  | some bs =>
    obtain ⟨s', hs'⟩ := buckets_foreach_logged f hf bs (t.mask + 1) 0 log s (by
      rw [ht.len bs hbs]; omega)
    refine ⟨s', ?_⟩
    simp only [h_foreach, hbs]
    rw [hs', nodes_of_tab_some hbs]
    simp

end Foreach

/-! ### Slices with many iterations -/

section Unbounded

theorem and_all_ones {j K : Nat} (h : j ≤ K) : (2 ^ K - 1) &&& (2 ^ j - 1) = 2 ^ j - 1 := by
  apply Nat.eq_of_testBit_eq
  intro i
  simp only [Nat.testBit_and, Nat.testBit_two_pow_sub_one]
  by_cases hi : i < j
  · have : i < K := by omega
    simp [hi, this]
  · simp [hi]

theorem exists_fresh (m : HMap) (hc : Nat) : ∃ n : HNode, n.hcode = hc ∧ Fresh m n := by
  obtain ⟨c, hcn⟩ := Infinite.exists_not_mem_finset (m.nodes.map HNode.id).toFinset
  refine ⟨⟨c, hc⟩, rfl, ?_⟩
  intro x hx hid
  apply hcn
  simp only [List.mem_toFinset, List.mem_map]
  exact ⟨x, hx, hid⟩

/-- When the buckets of older below `q` are empty and the loop has something to move,
it stops with the cursor at `q` or beyond. -/
theorem rehash_loop_skip (q : Nat) : ∀ (fuel : Nat) (m : HMap) (w i : Nat), Inv m →
    (k_rehashing_work - w) + (m.older.nbuckets - m.migrate_pos) < fuel →
    (∀ bs, m.older.tab = some bs → ∀ j, j < q → ∀ ch : Chain, bs[j]? = some ch → ch = []) →
    w < k_rehashing_work → m.older.size > 0 →
    ∃ m' w' i', rehash_loop fuel m w i = some (m', w', i') ∧ q ≤ m'.migrate_pos := by
  intro fuel
  induction fuel with
  | zero => intro m w i _ hf; omega
  | succ fuel ih =>
    intro m w i hinv hf hempty hw hs
    obtain ⟨bs, ch, hbs, hch, hlt⟩ := cursor_in_bounds hinv hs
    cases ch with
    | nil =>
      have hrel := advance_rel hinv hbs hch
      obtain ⟨m', w', i', hrun, hq⟩ := ih { m with migrate_pos := m.migrate_pos + 1 } w
        (i + 1) hrel.inv (by simp only; omega) hempty hw hs
      refine ⟨m', w', i', ?_, hq⟩
      rw [rehash_loop, if_pos ⟨hw, hs⟩]
      simp only [hbs, hch]
      exact hrun
    | cons a rest =>
      have hq : q ≤ m.migrate_pos := by
        by_contra hlt'
        have := hempty bs hbs m.migrate_pos (by omega) _ hch
        simp at this
      obtain ⟨m', w', i', hrun, hpost⟩ := rehash_loop_spec (fuel + 1) m w i hinv hf
      exact ⟨m', w', i', hrun, le_trans hq hpost.rel.pos_le⟩

theorem help_skip {m : HMap} (hinv : Inv m) (q : Nat)
    (hempty : ∀ bs, m.older.tab = some bs → ∀ j, j < q → ∀ ch : Chain, bs[j]? = some ch → ch = [])
    (hs : m.older.size > 0) :
    ∃ m' w i, hm_help_rehashing m = some (m', w, i) ∧ q ≤ m'.migrate_pos := by
  obtain ⟨m1, w, i, hrun, hq⟩ := rehash_loop_skip q (k_rehashing_work + m.older.nbuckets + 1) m 0 0
    hinv (by omega) hempty (by decide) hs
  by_cases hfree : m1.older.size = 0 ∧ m1.older.tab.isSome
  · refine ⟨{ m1 with older := HTab.zero }, w, i, ?_, hq⟩
    simp only [hm_help_rehashing, hrun]
    rw [if_pos hfree]
  · refine ⟨m1, w, i, ?_, hq⟩
    simp only [hm_help_rehashing, hrun]
    rw [if_neg hfree]

/-- The smallest such map: one node in a table of four buckets. -/
theorem all_ones_base (K : Nat) : ∃ m, AllOnes K 2 m := by
  obtain ⟨n, hn, hf⟩ := exists_fresh HMap.zero (2 ^ K - 1)
  obtain ⟨r, m2, hins, _, hl, _, hp, _⟩ := hm_insert_spec Inv_zero hf
  have hz : (HMap.zero).nodes = [] := rfl
  rcases hl.cases with ⟨hold, _, htab, _, _, hmask, _⟩ | ⟨_, hne, _⟩
  · have hos : m2.older.size = 0 := by rw [hold]; rfl
    have hmoved := hp.moved
    refine ⟨r.map, Reach.insert Reach.zero hf hins, ?_, ?_, ?_, ?_⟩
    · rw [hp.released (by omega)]; rfl
    · exact fun h0 => htab (hp.newer_tab.1 h0)
    · rw [hp.newer_mask, hmask rfl]; rfl
    · intro x hx
      have := (hp.perm.trans hl.perm).subset hx
      rw [hz] at this
      simp at this
      rw [this, hn]
  · exact absurd rfl hne

/-- One more node with the all-ones hash code: either the map stays as it is with one
more entry below the load factor, or this insert starts a migration. -/
theorem all_ones_step {K j : Nat} {m : HMap} (ha : AllOnes K j m) {n : HNode}
    (hn : n.hcode = 2 ^ K - 1) (hf : Fresh m n) :
    (∃ m', AllOnes K j m' ∧ m'.newer.size = m.newer.size + 1 ∧
        m.newer.size + 1 < 2 ^ j * k_max_load_factor) ∨
    (∃ m2, insert_link m n = some m2 ∧ LinkPost m n m2 ∧ m2.migrate_pos = 0 ∧
        m2.older.mask + 1 = 2 ^ j ∧ m2.older.size > 0 ∧ m2.newer.mask + 1 = 2 ^ (j + 1) ∧
        m2.newer.tab ≠ none) := by
  obtain ⟨r, m2, hins, hlink, hl, _, hp, _⟩ := hm_insert_spec ha.reach.inv hf
  have hcodes : ∀ x ∈ m2.nodes, x.hcode = 2 ^ K - 1 := by
    intro x hx
    rcases List.mem_cons.1 (hl.perm.subset hx) with h1 | h1
    · rw [h1, hn]
    · exact ha.hcode x h1
  rcases hl.cases with ⟨hold, _, htab, hsize, hmask, _, hlt⟩ | ⟨_, _, hpos, htab, hmask, _, _, hge, hnew⟩
  · left
    have hos : m2.older.size = 0 := by
      rw [hold, older_zero_of_size ha.reach.inv.older ha.older]; rfl
    have hmoved := hp.moved
    have hz : r.map.older = HTab.zero := hp.released (by omega)
    have hsz := hp.size
    simp only [hm_size] at hsz
    have hz' : r.map.older.size = 0 := by rw [hz]; rfl
    refine ⟨r.map, ⟨Reach.insert ha.reach hf hins, by rw [hz]; rfl,
      fun h0 => htab (hp.newer_tab.1 h0), ?_, fun x hx => hcodes x (hp.perm.subset hx)⟩, ?_, ?_⟩
    · rw [hp.newer_mask, hmask ha.newer, ha.mask]
    · omega
    · have := hlt ha.older
      rw [hmask ha.newer, ha.mask] at this
      omega
  · right
    refine ⟨m2, hlink, hl, hpos, by rw [hmask, ha.mask], ?_, ?_, ?_⟩
    · have : 0 < (m.newer.mask + 1) * k_max_load_factor := by
        simp only [k_max_load_factor]; omega
      omega
    · rw [hnew]
      simp only
      rw [ha.mask, Nat.pow_succ]
      have := Nat.two_pow_pos j
      omega
    · rw [hnew]; simp

/-- From such a map, inserting fresh nodes with the all-ones hash code sooner or later
starts a migration. -/
theorem all_ones_trigger {K j : Nat} : ∀ (d : Nat) (m : HMap), AllOnes K j m →
    2 ^ j * k_max_load_factor ≤ m.newer.size + d →
    ∃ m' n m2, AllOnes K j m' ∧ n.hcode = 2 ^ K - 1 ∧ Fresh m' n ∧
      insert_link m' n = some m2 ∧ LinkPost m' n m2 ∧ m2.migrate_pos = 0 ∧
      m2.older.mask + 1 = 2 ^ j ∧ m2.older.size > 0 ∧ m2.newer.mask + 1 = 2 ^ (j + 1) ∧
      m2.newer.tab ≠ none := by
  intro d
  induction d with
  | zero =>
    intro m ha hd
    obtain ⟨n, hn, hf⟩ := exists_fresh m (2 ^ K - 1)
    rcases all_ones_step ha hn hf with ⟨m', _, _, hlt⟩ | ⟨m2, h⟩
    · omega
    · exact ⟨m, n, m2, ha, hn, hf, h⟩
  | succ d ih =>
    intro m ha hd
    obtain ⟨n, hn, hf⟩ := exists_fresh m (2 ^ K - 1)
    rcases all_ones_step ha hn hf with ⟨m', ha', hsz, _⟩ | ⟨m2, h⟩
    · exact ih m' ha' (by omega)
    · exact ⟨m, n, m2, ha, hn, hf, h⟩

/-- The insert that starts the migration scans all the empty buckets of older before
it moves its first entry. -/
theorem all_ones_scan {K j : Nat} (hj : j ≤ K) {m : HMap} (ha : AllOnes K j m) {n : HNode}
    (hn : n.hcode = 2 ^ K - 1) (hf : Fresh m n) {m2 : HMap} (hlink : insert_link m n = some m2)
    (hl : LinkPost m n m2) (hpos : m2.migrate_pos = 0) (hmask : m2.older.mask + 1 = 2 ^ j)
    (hs : m2.older.size > 0) (hnm : m2.newer.mask + 1 = 2 ^ (j + 1))
    (hnt : m2.newer.tab ≠ none) :
    ∃ r, hm_insert m n = some r ∧ 2 ^ j - 1 ≤ r.iters ∧ Reach r.map ∧
      r.map.newer.mask + 1 = 2 ^ (j + 1) ∧ r.map.newer.tab ≠ none ∧
      ∀ x ∈ r.map.nodes, x.hcode = 2 ^ K - 1 := by
  obtain ⟨r, m2', hins, hlink', _, hhelp, hp, _⟩ := hm_insert_spec ha.reach.inv hf
  rw [hlink] at hlink'
  simp only [Option.some.injEq] at hlink'
  subst hlink'
  have hcodes : ∀ x ∈ m2.nodes, x.hcode = 2 ^ K - 1 := by
    intro x hx
    rcases List.mem_cons.1 (hl.perm.subset hx) with h1 | h1
    · rw [h1, hn]
    · exact ha.hcode x h1
  have hm : m2.older.mask = 2 ^ j - 1 := by omega
  obtain ⟨m', w, i, hhelp', hq⟩ := help_skip hl.inv (2 ^ j - 1) (by
    intro bs hbs idx hidx ch hch
    by_contra hne
    obtain ⟨x, hx⟩ := List.exists_mem_of_ne_nil _ hne
    have hplace := hl.inv.older.place bs hbs idx ch hch x hx
    have hxn : x ∈ m2.nodes := by
      apply List.mem_append_right
      rw [nodes_of_tab_some hbs]
      exact mem_flatten_of_bucket hch hx
    rw [hcodes x hxn, hm, and_all_ones hj] at hplace
    omega) hs
  rw [hhelp] at hhelp'
  simp only [Option.some.injEq, Prod.mk.injEq] at hhelp'
  obtain ⟨h1, _, _⟩ := hhelp'
  subst h1
  have hit := hp.iters_eq
  refine ⟨r, hins, by omega, Reach.insert ha.reach hf hins, by rw [hp.newer_mask, hnm],
    fun h0 => hnt (hp.newer_tab.1 h0), fun x hx => hcodes x (hp.perm.subset hx)⟩

/-- Maps of this kind exist for every table size up to `2 ^ K` buckets. -/
theorem all_ones_exists (K : Nat) : ∀ j, 2 ≤ j → j ≤ K → ∃ m, AllOnes K j m := by
  intro j hj
  induction j, hj using Nat.le_induction with
  | base => intro _; exact all_ones_base K
  | succ j hj2 ih =>
    intro hjK
    obtain ⟨m, ha⟩ := ih (by omega)
    obtain ⟨m', n, m2, ha', hn, hf, hlink, hl, hpos, hmask, hs, hnm, hnt⟩ :=
      all_ones_trigger (2 ^ j * k_max_load_factor) m ha (by omega)
    obtain ⟨r, _, _, hr, hrm, hrt, hrc⟩ :=
      all_ones_scan (by omega) ha' hn hf hlink hl hpos hmask hs hnm hnt
    obtain ⟨m3, _, hr3, hz, _, hperm, hmask3, htab3⟩ := lookup_all_drains
      (List.replicate (r.map.older.size + 1) ⟨0, 0⟩) same_record r.map hr (by simp) (by
        simp only [List.length_replicate, k_rehashing_work]
        omega)
    exact ⟨m3, hr3, by rw [hz]; rfl, fun h0 => hrt (htab3.1 h0), by rw [hmask3, hrm],
      fun x hx => hrc x (hperm.subset hx)⟩

end Unbounded

/-! ### The claims -/

section Claims

/-- C1: for every list `ns` of records with pairwise distinct addresses and keys
(`eq x (key y)` holds exactly when `x` is `y`, and a key carries the hash code of its
record), inserting them one by one into the zero-initialised map succeeds, `hm_size`
is then the length of `ns`, and after any further lookups (so at any point of a pending
migration) `hm_lookup` of the key of each inserted record returns that record. -/
theorem insert_then_lookup (ns : List HNode) (key : HNode → HNode)
    (eq : HNode → HNode → Bool) (hid : (ns.map HNode.id).Nodup)
    (hkey : ∀ x ∈ ns, (key x).hcode = x.hcode)
    (heq : ∀ x ∈ ns, ∀ y ∈ ns, (eq x (key y) = true ↔ x = y)) :
    ∃ m, hm_insert_all HMap.zero ns = some m ∧ hm_size m = ns.length ∧
      ∀ (eq' : HNode → HNode → Bool) (ks : List HNode),
        ∃ m', hm_lookup_all m eq' ks = some m' ∧
          ∀ x ∈ ns, ∃ r, hm_lookup m' (key x) eq = some r ∧ r.node = some x := by
  obtain ⟨m, hall, hr, hperm, hsize⟩ := insert_all_reach ns HMap.zero Reach.zero hid (by
    intro x hx
    simp [HMap.zero, HMap.nodes, HTab.nodes, HTab.buckets, HTab.zero] at hx)
  have hperm0 : List.Perm m.nodes ns := by
    simpa [HMap.zero, HMap.nodes, HTab.nodes, HTab.buckets, HTab.zero] using hperm
  refine ⟨m, hall, by simpa [HMap.zero, hm_size, HTab.zero] using hsize, ?_⟩
  intro eq' ks
  obtain ⟨m', hlk, hr', hperm', _⟩ := lookup_all_reach ks eq' m hr
  refine ⟨m', hlk, ?_⟩
  intro x hx
  have hp := hperm'.trans hperm0
  exact lookup_unique hr'.inv (hp.symm.subset hx) ⟨(hkey x hx).symm, (heq x hx x hx).2 rfl⟩
    (fun y hy hm => (heq y (hp.subset hy) x hx).1 hm.2)

/-- C1 at the 1000 sample records, each record being its own key: the map ends with
size 1000. -/
theorem insert_then_lookup_witness :
    ∃ m, hm_insert_all HMap.zero (sample_nodes 1000) = some m ∧ hm_size m = 1000 ∧
      ∀ (eq' : HNode → HNode → Bool) (ks : List HNode),
        ∃ m', hm_lookup_all m eq' ks = some m' ∧
          ∀ x ∈ sample_nodes 1000, ∃ r, hm_lookup m' (id x) same_record = some r ∧
            r.node = some x := by
  obtain ⟨m, h1, h2, h3⟩ := insert_then_lookup (sample_nodes 1000) id same_record
    (by rw [sample_nodes_ids]; exact List.nodup_range 1000) (fun _ _ => rfl)
    (sample_nodes_eq 1000)
  exact ⟨m, h1, by rw [h2]; simp [sample_nodes], h3⟩

/-- C2: for every list `ns` of records with pairwise distinct addresses and keys
inserted into the zero-initialised map, and every list `ds` of those records whose
keys are then passed to `hm_delete`, both runs succeed and afterwards (also after
further lookups) `hm_lookup` of the key of a record of `ns` returns the record when it
was not deleted and `NULL` when it was. -/
theorem insert_delete_lookup (ns ds : List HNode) (key : HNode → HNode)
    (eq : HNode → HNode → Bool) (hid : (ns.map HNode.id).Nodup)
    (hkey : ∀ x ∈ ns, (key x).hcode = x.hcode)
    (heq : ∀ x ∈ ns, ∀ y ∈ ns, (eq x (key y) = true ↔ x = y))
    (hds : ∀ d ∈ ds, d ∈ ns) :
    ∃ m1 m2, hm_insert_all HMap.zero ns = some m1 ∧
      hm_delete_all m1 eq (ds.map key) = some m2 ∧
      ∀ (eq' : HNode → HNode → Bool) (ks : List HNode),
        ∃ m', hm_lookup_all m2 eq' ks = some m' ∧
          ∀ x ∈ ns, ∃ r, hm_lookup m' (key x) eq = some r ∧
            (x ∉ ds → r.node = some x) ∧ (x ∈ ds → r.node = none) := by
  obtain ⟨m1, hall, hr1, hperm, _⟩ := insert_all_reach ns HMap.zero Reach.zero hid (by
    intro x hx
    simp [HMap.zero, HMap.nodes, HTab.nodes, HTab.buckets, HTab.zero] at hx)
  have hperm0 : List.Perm m1.nodes ns := by
    simpa [HMap.zero, HMap.nodes, HTab.nodes, HTab.buckets, HTab.zero] using hperm
  obtain ⟨m2, hdel, hr2, hmem2⟩ := delete_all_reach hkey heq ds m1 hr1
    (fun x hx => hperm0.subset hx) hds
  refine ⟨m1, m2, hall, hdel, ?_⟩
  intro eq' ks
  obtain ⟨m', hlk, hr', hperm', _⟩ := lookup_all_reach ks eq' m2 hr2
  refine ⟨m', hlk, ?_⟩
  have hmem : ∀ y, y ∈ m'.nodes ↔ y ∈ ns ∧ y ∉ ds := by
    intro y
    rw [hperm'.mem_iff, hmem2 y, hperm0.mem_iff]
  intro x hx
  by_cases hxd : x ∈ ds
  · obtain ⟨r, hl, hn⟩ := lookup_absent hr'.inv (key x) eq (by
      intro y hy hm
      have hyx : y = x := (heq y ((hmem y).1 hy).1 x hx).1 hm.2
      subst hyx
      exact ((hmem y).1 hy).2 hxd)
    exact ⟨r, hl, fun h => absurd hxd h, fun _ => hn⟩
  · obtain ⟨r, hl, hn⟩ := lookup_unique hr'.inv ((hmem x).2 ⟨hx, hxd⟩)
      ⟨(hkey x hx).symm, (heq x hx x hx).2 rfl⟩
      (fun y hy hm => (heq y ((hmem y).1 hy).1 x hx).1 hm.2)
    exact ⟨r, hl, fun _ => hn, fun h => absurd h hxd⟩

/-- C2 at the 300 sample records, of which the first 100 are deleted. -/
theorem insert_delete_lookup_witness :
    ∃ m1 m2, hm_insert_all HMap.zero (sample_nodes 300) = some m1 ∧
      hm_delete_all m1 same_record ((sample_nodes 100).map id) = some m2 ∧
      ∀ (eq' : HNode → HNode → Bool) (ks : List HNode),
        ∃ m', hm_lookup_all m2 eq' ks = some m' ∧
          ∀ x ∈ sample_nodes 300, ∃ r, hm_lookup m' (id x) same_record = some r ∧
            (x ∉ sample_nodes 100 → r.node = some x) ∧
            (x ∈ sample_nodes 100 → r.node = none) :=
  insert_delete_lookup (sample_nodes 300) (sample_nodes 100) id same_record
    (by rw [sample_nodes_ids]; exact List.nodup_range 300) (fun _ _ => rfl)
    (sample_nodes_eq 300) (sample_nodes_sub (by decide))

/-- C3: on every reachable map, for every key and predicate `eq`, `hm_lookup` returns;
it returns `NULL` exactly when no node stored in either table has the key's hash code
and satisfies `eq`; otherwise it returns a stored node with the key's hash code that
satisfies `eq`. -/
theorem hm_lookup_finds_match {m : HMap} (h : Reach m) (key : HNode)
    (eq : HNode → HNode → Bool) :
    ∃ r, hm_lookup m key eq = some r ∧
      (r.node = none ↔ ∀ x ∈ m.nodes, ¬ (x.hcode = key.hcode ∧ eq x key = true)) ∧
      (∀ n, r.node = some n →
        n ∈ m.nodes ∧ n ∈ r.map.nodes ∧ n.hcode = key.hcode ∧ eq n key = true) := by
  obtain ⟨r, hl, _, hp, hcase⟩ := hm_lookup_spec h.inv key eq
  refine ⟨r, hl, ?_, ?_⟩
  · rcases hcase with ⟨hn, hno⟩ | ⟨x, hx, hmem, hmatch⟩
    · exact ⟨fun _ => hno, fun _ => hn⟩
    · constructor
      · intro h0; rw [hx] at h0; simp at h0
      · intro hno; exact absurd hmatch (hno x hmem)
  · intro n hn
    rcases hcase with ⟨h0, _⟩ | ⟨x, hx, hmem, hmatch⟩
    · rw [hn] at h0; simp at h0
    · rw [hn] at hx
      simp only [Option.some.injEq] at hx
      subst hx
      exact ⟨hmem, hp.perm.symm.subset hmem, hmatch.1, hmatch.2⟩

/-- C3 at the map holding the 40 sample records and the key of record 7. -/
theorem hm_lookup_finds_match_witness :
    Reach (sample_map 40) ∧
    ∃ r, hm_lookup (sample_map 40) ⟨7, 7⟩ same_record = some r ∧
      (r.node = none ↔ ∀ x ∈ (sample_map 40).nodes,
        ¬ (x.hcode = (⟨7, 7⟩ : HNode).hcode ∧ same_record x ⟨7, 7⟩ = true)) ∧
      (∀ n, r.node = some n →
        n ∈ (sample_map 40).nodes ∧ n ∈ r.map.nodes ∧ n.hcode = (⟨7, 7⟩ : HNode).hcode ∧
          same_record n ⟨7, 7⟩ = true) :=
  ⟨(sample_map_spec 40).2.1, hm_lookup_finds_match (sample_map_spec 40).2.1 ⟨7, 7⟩ same_record⟩

/-- C4: on every reachable map, for every key and predicate `eq`, `hm_delete` returns.
If some stored node matches, the returned node is a stored matching node, it is in
neither table afterwards, the stored nodes afterwards are exactly the others, and
`hm_size` is one less.  If no stored node matches, it returns `NULL`, and the stored
nodes and `hm_size` are unchanged. -/
theorem hm_delete_removes_match {m : HMap} (h : Reach m) (key : HNode)
    (eq : HNode → HNode → Bool) :
    ∃ r, hm_delete m key eq = some r ∧
      ((∃ x ∈ m.nodes, x.hcode = key.hcode ∧ eq x key = true) →
        ∃ n, r.node = some n ∧ n ∈ m.nodes ∧ n.hcode = key.hcode ∧ eq n key = true ∧
          n ∉ r.map.newer.nodes ∧ n ∉ r.map.older.nodes ∧
          (∀ y ∈ m.nodes, y ≠ n → y ∈ r.map.nodes) ∧
          List.Perm (n :: r.map.nodes) m.nodes ∧ hm_size r.map + 1 = hm_size m) ∧
      ((∀ x ∈ m.nodes, ¬ (x.hcode = key.hcode ∧ eq x key = true)) →
        r.node = none ∧ List.Perm r.map.nodes m.nodes ∧ hm_size r.map = hm_size m) := by
  obtain ⟨r, m1, hd, _, hp, hcase⟩ := hm_delete_spec h.inv key eq
  refine ⟨r, hd, ?_, ?_⟩
  · rintro ⟨x, hx, hmatch⟩
    rcases hcase with ⟨_, _, hno⟩ | ⟨n, hn, hmem, hm, hrel⟩
    · exact absurd hmatch (hno x hx)
    · have hperm : List.Perm (n :: r.map.nodes) m.nodes := hrel.perm.trans hp.perm
      have hnd : (n :: r.map.nodes).Nodup :=
        (List.Nodup.of_map HNode.id ((hperm.map HNode.id).nodup_iff.2 h.inv.nodup))
      have hnot : n ∉ r.map.nodes := (List.nodup_cons.1 hnd).1
      refine ⟨n, hn, hmem, hm.1, hm.2, ?_, ?_, ?_, hperm, ?_⟩
      · exact fun hc => hnot (List.mem_append_left _ hc)
      · exact fun hc => hnot (List.mem_append_right _ hc)
      · intro y hy hne
        rcases List.mem_cons.1 (hperm.symm.subset hy) with h1 | h1
        · exact absurd h1 hne
        · exact h1
      · rw [hrel.size, hp.size]
  · intro hno
    rcases hcase with ⟨hn, hmap, _⟩ | ⟨n, _, hmem, hm, _⟩
    · rw [hmap]
      exact ⟨hn, hp.perm, hp.size⟩
    · exact absurd hm (hno n hmem)

/-- C4 at the map holding the 40 sample records and the key of record 7. -/
theorem hm_delete_removes_match_witness :
    Reach (sample_map 40) ∧
    ∃ r, hm_delete (sample_map 40) ⟨7, 7⟩ same_record = some r ∧
      ((∃ x ∈ (sample_map 40).nodes,
          x.hcode = (⟨7, 7⟩ : HNode).hcode ∧ same_record x ⟨7, 7⟩ = true) →
        ∃ n, r.node = some n ∧ n ∈ (sample_map 40).nodes ∧ n.hcode = (⟨7, 7⟩ : HNode).hcode ∧
          same_record n ⟨7, 7⟩ = true ∧
          n ∉ r.map.newer.nodes ∧ n ∉ r.map.older.nodes ∧
          (∀ y ∈ (sample_map 40).nodes, y ≠ n → y ∈ r.map.nodes) ∧
          List.Perm (n :: r.map.nodes) (sample_map 40).nodes ∧
          hm_size r.map + 1 = hm_size (sample_map 40)) ∧
      ((∀ x ∈ (sample_map 40).nodes,
          ¬ (x.hcode = (⟨7, 7⟩ : HNode).hcode ∧ same_record x ⟨7, 7⟩ = true)) →
        r.node = none ∧ List.Perm r.map.nodes (sample_map 40).nodes ∧
          hm_size r.map = hm_size (sample_map 40)) :=
  ⟨(sample_map_spec 40).2.1,
    hm_delete_removes_match (sample_map_spec 40).2.1 ⟨7, 7⟩ same_record⟩

/-- C5: on every map reached by `hm_insert`, `hm_lookup` and `hm_delete`, with `a`
calls of `hm_insert` and `b` calls of `hm_delete` that returned a node, `hm_size`
(`newer.size + older.size`) is the number of nodes chained in the two tables and equals
`a - b`; every `hm_insert` returns and raises `hm_size` by exactly 1, and the
migration slice, both the one inside that `hm_insert` and one run on the map itself,
returns and changes neither `hm_size` nor the stored nodes. -/
theorem hm_size_counts {m : HMap} {a b : Nat} (h : Trace m a b) :
    hm_size m = m.newer.size + m.older.size ∧
    hm_size m = m.newer.nodes.length + m.older.nodes.length ∧
    hm_size m + b = a ∧
    (∀ n, Fresh m n → ∃ r m2, hm_insert m n = some r ∧ hm_size r.map = hm_size m + 1 ∧
      insert_link m n = some m2 ∧
      ∃ w i, hm_help_rehashing m2 = some (r.map, w, i) ∧ hm_size r.map = hm_size m2 ∧
        List.Perm r.map.nodes m2.nodes) ∧
    (∃ m' w i, hm_help_rehashing m = some (m', w, i) ∧ hm_size m' = hm_size m ∧
      List.Perm m'.nodes m.nodes) := by
  have hinv := h.reach.inv
  refine ⟨rfl, ?_, h.count, ?_, ?_⟩
  · rw [hinv.size_eq, HMap.nodes, List.length_append]
  · intro n hf
    obtain ⟨r, m2, hins, hlink, hl, hhelp, hp, _⟩ := hm_insert_spec hinv hf
    exact ⟨r, m2, hins, hp.size.trans hl.size, hlink, r.work, r.iters, hhelp, hp.size, hp.perm⟩
  · obtain ⟨m', w, i, hhelp, hp⟩ := hm_help_rehashing_spec hinv
    exact ⟨m', w, i, hhelp, hp.size, hp.perm⟩

/-- C5 at the map reached by 40 inserts and no delete. -/
theorem hm_size_counts_witness :
    Trace (sample_map 40) 40 0 ∧
    hm_size (sample_map 40) = (sample_map 40).newer.size + (sample_map 40).older.size ∧
    hm_size (sample_map 40) =
      (sample_map 40).newer.nodes.length + (sample_map 40).older.nodes.length ∧
    hm_size (sample_map 40) + 0 = 40 ∧
    (∀ n, Fresh (sample_map 40) n → ∃ r m2, hm_insert (sample_map 40) n = some r ∧
      hm_size r.map = hm_size (sample_map 40) + 1 ∧
      insert_link (sample_map 40) n = some m2 ∧
      ∃ w i, hm_help_rehashing m2 = some (r.map, w, i) ∧ hm_size r.map = hm_size m2 ∧
        List.Perm r.map.nodes m2.nodes) ∧
    (∃ m' w i, hm_help_rehashing (sample_map 40) = some (m', w, i) ∧
      hm_size m' = hm_size (sample_map 40) ∧ List.Perm m'.nodes (sample_map 40).nodes) :=
  ⟨sample_map_trace 40, hm_size_counts (sample_map_trace 40)⟩

set_option maxRecDepth 100000 in
/-- C6 (the code departs from the claim): on the map reached by inserting the 256
sample records, where a migration is in progress, a visitor that asks to stop at its
first call is called twice by `hm_foreach`: on the first entry of newer and then, after
it has returned false, on the first entry of older. -/
theorem hm_foreach_visits_older_after_stop :
    hm_foreach (sample_map 256) (logged (fun _ (u : Unit) => (false, u))) ([], ()) =
        some ([⟨64, 64⟩, ⟨240, 240⟩], ()) ∧
      (sample_map 256).newer.nodes.head? = some ⟨64, 64⟩ ∧
      (sample_map 256).older.nodes.head? = some ⟨240, 240⟩ := by
  decide

/-- C7: on every reachable map, `hm_foreach` with a visitor that never asks to stop
returns, and the sequence of nodes the visitor was called on is the nodes chained in
newer followed by the nodes chained in older, each stored node exactly once. -/
theorem hm_foreach_visits_all {σ : Type} {m : HMap} (h : Reach m)
    (f : HNode → σ → Bool × σ) (hf : ∀ n s, (f n s).1 = true) (s : σ) :
    ∃ s', hm_foreach m (logged f) ([], s) = some (m.newer.nodes ++ m.older.nodes, s') ∧
      (m.newer.nodes ++ m.older.nodes).Nodup ∧
      ∀ x, x ∈ m.newer.nodes ++ m.older.nodes ↔ x ∈ m.nodes := by
  obtain ⟨s1, hs1⟩ := h_foreach_logged f hf h.inv.newer [] s
  rw [List.nil_append] at hs1
  obtain ⟨s2, hs2⟩ := h_foreach_logged f hf h.inv.older m.newer.nodes s1
  refine ⟨s2, ?_, List.Nodup.of_map HNode.id h.inv.nodup, fun x => Iff.rfl⟩
  simp only [hm_foreach, hs1, hs2]

/-- C7 at the map holding the 40 sample records and a visitor that counts its calls. -/
theorem hm_foreach_visits_all_witness :
    Reach (sample_map 40) ∧ (∀ (n : HNode) (s : Nat), ((fun _ c => (true, c + 1)) n s : Bool × Nat).1 = true) ∧
    ∃ s', hm_foreach (sample_map 40) (logged (fun _ c => (true, c + 1))) ([], 0) =
        some ((sample_map 40).newer.nodes ++ (sample_map 40).older.nodes, s') ∧
      ((sample_map 40).newer.nodes ++ (sample_map 40).older.nodes).Nodup ∧
      ∀ x, x ∈ (sample_map 40).newer.nodes ++ (sample_map 40).older.nodes ↔
        x ∈ (sample_map 40).nodes :=
  ⟨(sample_map_spec 40).2.1, fun _ _ => rfl,
    hm_foreach_visits_all (sample_map_spec 40).2.1 (fun _ c => (true, c + 1)) (fun _ _ => rfl) 0⟩

/-- C8: on every reachable map, one call of `hm_insert`, `hm_lookup` or `hm_delete`
returns and its migration slice ends with a work counter of at most
`k_rehashing_work` = 128; the counter is the number of entries the slice moved from
older to newer, whatever the bucket count and entry count of older. -/
theorem migration_work_bounded {m : HMap} (h : Reach m) :
    k_rehashing_work = 128 ∧
    (∀ n, Fresh m n → ∃ r m2, hm_insert m n = some r ∧ insert_link m n = some m2 ∧
      hm_help_rehashing m2 = some (r.map, r.work, r.iters) ∧ r.work ≤ k_rehashing_work ∧
      r.map.older.size + r.work = m2.older.size ∧
      r.map.newer.size = m2.newer.size + r.work) ∧
    (∀ key eq, ∃ r, hm_lookup m key eq = some r ∧
      hm_help_rehashing m = some (r.map, r.work, r.iters) ∧ r.work ≤ k_rehashing_work ∧
      r.map.older.size + r.work = m.older.size ∧
      r.map.newer.size = m.newer.size + r.work) ∧
    (∀ key eq, ∃ r m1, hm_delete m key eq = some r ∧
      hm_help_rehashing m = some (m1, r.work, r.iters) ∧ r.work ≤ k_rehashing_work ∧
      m1.older.size + r.work = m.older.size ∧
      m1.newer.size = m.newer.size + r.work) := by
  refine ⟨rfl, ?_, ?_, ?_⟩
  · intro n hf
    obtain ⟨r, m2, hins, hlink, _, hhelp, hp, _⟩ := hm_insert_spec h.inv hf
    have h1 := hp.moved
    have h2 := hp.size
    simp only [hm_size] at h2
    exact ⟨r, m2, hins, hlink, hhelp, hp.work_le, by omega, by omega⟩
  · intro key eq
    obtain ⟨r, hl, hhelp, hp, _⟩ := hm_lookup_spec h.inv key eq
    have h1 := hp.moved
    have h2 := hp.size
    simp only [hm_size] at h2
    exact ⟨r, hl, hhelp, hp.work_le, by omega, by omega⟩
  · intro key eq
    obtain ⟨r, m1, hd, hhelp, hp, _⟩ := hm_delete_spec h.inv key eq
    have h1 := hp.moved
    have h2 := hp.size
    simp only [hm_size] at h2
    exact ⟨r, m1, hd, hhelp, hp.work_le, by omega, by omega⟩

/-- C8 at the map holding the 256 sample records, where a migration is in progress. -/
theorem migration_work_bounded_witness :
    Reach (sample_map 256) ∧ k_rehashing_work = 128 ∧
    (∀ n, Fresh (sample_map 256) n → ∃ r m2, hm_insert (sample_map 256) n = some r ∧
      insert_link (sample_map 256) n = some m2 ∧
      hm_help_rehashing m2 = some (r.map, r.work, r.iters) ∧ r.work ≤ k_rehashing_work ∧
      r.map.older.size + r.work = m2.older.size ∧
      r.map.newer.size = m2.newer.size + r.work) ∧
    (∀ key eq, ∃ r, hm_lookup (sample_map 256) key eq = some r ∧
      hm_help_rehashing (sample_map 256) = some (r.map, r.work, r.iters) ∧
      r.work ≤ k_rehashing_work ∧
      r.map.older.size + r.work = (sample_map 256).older.size ∧
      r.map.newer.size = (sample_map 256).newer.size + r.work) ∧
    (∀ key eq, ∃ r m1, hm_delete (sample_map 256) key eq = some r ∧
      hm_help_rehashing (sample_map 256) = some (m1, r.work, r.iters) ∧
      r.work ≤ k_rehashing_work ∧
      m1.older.size + r.work = (sample_map 256).older.size ∧
      m1.newer.size = (sample_map 256).newer.size + r.work) :=
  ⟨(sample_map_spec 256).2.1, migration_work_bounded (sample_map_spec 256).2.1⟩

/-- C9 (as stated, refuted): no fixed number bounds the loop iterations of the
migration slice of one call on a reachable map.  For every `N` there are a reachable
map and a fresh node whose `hm_insert` runs a slice of more than `N` iterations: the
cursor advances over every empty bucket of older. -/
theorem migration_iterations_unbounded :
    ¬ ∃ N : Nat, ∀ (m : HMap) (n : HNode) (r : Ret),
      Reach m → Fresh m n → hm_insert m n = some r → r.iters ≤ N := by
  rintro ⟨N, hN⟩
  obtain ⟨m, ha⟩ := all_ones_exists (N + 2) (N + 2) (by omega) (le_refl _)
  obtain ⟨m', n, m2, ha', hn, hf, hlink, hl, hpos, hmask, hs, hnm, hnt⟩ :=
    all_ones_trigger (2 ^ (N + 2) * k_max_load_factor) m ha (by omega)
  obtain ⟨r, hins, hit, _⟩ := all_ones_scan (le_refl _) ha' hn hf hlink hl hpos hmask hs hnm hnt
  have hle := hN m' n r ha'.reach hf hins
  have h1 : N < 2 ^ N := Nat.lt_two_pow N
  have h2 : 2 ^ (N + 2) = 4 * 2 ^ N := by
    rw [Nat.pow_add]; omega
  omega

set_option maxRecDepth 100000 in
/-- A concrete slice of more than 128 iterations: after 127 records with hash code 15
the map has one table of 16 buckets, all entries in bucket 15; the next insert reaches
the load factor, starts the migration, and its slice advances the cursor over 15 empty
buckets and then moves 128 entries, 143 iterations in all. -/
theorem colliding_insert_iterations :
    (colliding_map 127).older = HTab.zero ∧ (colliding_map 127).newer.mask = 15 ∧
      (colliding_map 127).newer.size = 127 ∧
      (hm_insert (colliding_map 127) ⟨127, 15⟩).map (fun r => (r.work, r.iters)) =
        some (128, 143) := by
  decide

/-- C9 (amended): on every reachable map, the migration slice of one call of
`hm_insert`, `hm_lookup` or `hm_delete` returns after at most `k_rehashing_work` plus
the bucket count of the older table it works on loop iterations; the number of
iterations is the number of entries moved plus the number of cursor advances. -/
theorem migration_iterations_bounded {m : HMap} (h : Reach m) :
    (∀ n, Fresh m n → ∃ r m2, hm_insert m n = some r ∧ insert_link m n = some m2 ∧
      hm_help_rehashing m2 = some (r.map, r.work, r.iters) ∧
      r.iters + m2.migrate_pos = r.work + r.map.migrate_pos ∧
      r.iters ≤ k_rehashing_work + m2.older.nbuckets) ∧
    (∀ key eq, ∃ r, hm_lookup m key eq = some r ∧
      hm_help_rehashing m = some (r.map, r.work, r.iters) ∧
      r.iters + m.migrate_pos = r.work + r.map.migrate_pos ∧
      r.iters ≤ k_rehashing_work + m.older.nbuckets) ∧
    (∀ key eq, ∃ r m1, hm_delete m key eq = some r ∧
      hm_help_rehashing m = some (m1, r.work, r.iters) ∧
      r.iters + m.migrate_pos = r.work + m1.migrate_pos ∧
      r.iters ≤ k_rehashing_work + m.older.nbuckets) := by
  refine ⟨?_, ?_, ?_⟩
  · intro n hf
    obtain ⟨r, m2, hins, hlink, _, hhelp, hp, _⟩ := hm_insert_spec h.inv hf
    have h1 := hp.iters_le
    have h2 := hp.work_le
    exact ⟨r, m2, hins, hlink, hhelp, hp.iters_eq, by omega⟩
  · intro key eq
    obtain ⟨r, hl, hhelp, hp, _⟩ := hm_lookup_spec h.inv key eq
    have h1 := hp.iters_le
    have h2 := hp.work_le
    exact ⟨r, hl, hhelp, hp.iters_eq, by omega⟩
  · intro key eq
    obtain ⟨r, m1, hd, hhelp, hp, _⟩ := hm_delete_spec h.inv key eq
    have h1 := hp.iters_le
    have h2 := hp.work_le
    exact ⟨r, m1, hd, hhelp, hp.iters_eq, by omega⟩

/-- C9 (amended) at the map holding the 256 sample records, where a migration is in
progress. -/
theorem migration_iterations_bounded_witness :
    Reach (sample_map 256) ∧
    (∀ n, Fresh (sample_map 256) n → ∃ r m2, hm_insert (sample_map 256) n = some r ∧
      insert_link (sample_map 256) n = some m2 ∧
      hm_help_rehashing m2 = some (r.map, r.work, r.iters) ∧
      r.iters + m2.migrate_pos = r.work + r.map.migrate_pos ∧
      r.iters ≤ k_rehashing_work + m2.older.nbuckets) ∧
    (∀ key eq, ∃ r, hm_lookup (sample_map 256) key eq = some r ∧
      hm_help_rehashing (sample_map 256) = some (r.map, r.work, r.iters) ∧
      r.iters + (sample_map 256).migrate_pos = r.work + r.map.migrate_pos ∧
      r.iters ≤ k_rehashing_work + (sample_map 256).older.nbuckets) ∧
    (∀ key eq, ∃ r m1, hm_delete (sample_map 256) key eq = some r ∧
      hm_help_rehashing (sample_map 256) = some (m1, r.work, r.iters) ∧
      r.iters + (sample_map 256).migrate_pos = r.work + m1.migrate_pos ∧
      r.iters ≤ k_rehashing_work + (sample_map 256).older.nbuckets) :=
  ⟨(sample_map_spec 256).2.1, migration_iterations_bounded (sample_map_spec 256).2.1⟩

/-- C10: on every reachable map, one call of `hm_help_rehashing` returns and moves
exactly `min 128 older.size` entries; hence after `k ≥ 1` consecutive `hm_lookup` calls
with `128 * k` at least the number of entries of older, older holds no entry and is
the all-zero table (its bucket array released), while `hm_size` and the stored nodes
are what they were. -/
theorem migration_converges {m : HMap} (h : Reach m) :
    k_rehashing_work = 128 ∧
    (∃ m' w i, hm_help_rehashing m = some (m', w, i) ∧ w = min k_rehashing_work m.older.size ∧
      m'.older.size + w = m.older.size ∧ m'.newer.size = m.newer.size + w) ∧
    ∀ (eq : HNode → HNode → Bool) (ks : List HNode), 1 ≤ ks.length →
      m.older.size ≤ k_rehashing_work * ks.length →
      ∃ m', hm_lookup_all m eq ks = some m' ∧ m'.older.size = 0 ∧ m'.older = HTab.zero ∧
        hm_size m' = hm_size m ∧ List.Perm m'.nodes m.nodes := by
  refine ⟨rfl, ?_, ?_⟩
  · obtain ⟨m', w, i, hhelp, hp⟩ := hm_help_rehashing_spec h.inv
    have h1 := hp.moved
    have h2 := hp.size
    simp only [hm_size] at h2
    exact ⟨m', w, i, hhelp, hp.work_eq, by omega, by omega⟩
  · intro eq ks hk hsz
    obtain ⟨m', hall, _, hz, hsize, hperm, _, _⟩ := lookup_all_drains ks eq m h hk hsz
    exact ⟨m', hall, by rw [hz]; rfl, hz, hsize, hperm⟩

/-- C10 at the map holding the 256 sample records, where a migration is in progress,
and two lookups. -/
theorem migration_converges_witness :
    Reach (sample_map 256) ∧ 1 ≤ [(⟨0, 0⟩ : HNode), ⟨1, 1⟩].length ∧
    (sample_map 256).older.size ≤ k_rehashing_work * [(⟨0, 0⟩ : HNode), ⟨1, 1⟩].length ∧
    ∃ m', hm_lookup_all (sample_map 256) same_record [⟨0, 0⟩, ⟨1, 1⟩] = some m' ∧
      m'.older.size = 0 ∧ m'.older = HTab.zero ∧
      hm_size m' = hm_size (sample_map 256) ∧ List.Perm m'.nodes (sample_map 256).nodes := by
  have hs : (sample_map 256).older.size ≤ k_rehashing_work * [(⟨0, 0⟩ : HNode), ⟨1, 1⟩].length := by
    have := (sample_map_spec 256).2.2.2
    simp only [hm_size] at this
    simp only [k_rehashing_work, List.length_cons, List.length_nil]
    omega
  exact ⟨(sample_map_spec 256).2.1, by simp, hs,
    (migration_converges (sample_map_spec 256).2.1).2.2 same_record [⟨0, 0⟩, ⟨1, 1⟩] (by simp) hs⟩

end Claims

/-! ### More about single operations -/

section MoreFacts

theorem fresh_zero (n : HNode) : Fresh HMap.zero n := by
  intro x hx
  simp [HMap.zero, HMap.nodes, HTab.nodes, HTab.buckets, HTab.zero] at hx

theorem sample_map_fresh (n hc : Nat) : Fresh (sample_map n) ⟨n, hc⟩ := by
  intro x hx
  have h1 := (sample_map_spec n).2.2.1.subset hx
  have h2 := (sample_nodes_mem h1).2
  simp only
  omega

/-- The first `hm_insert` on the zero-initialised map: a table of four buckets that
holds the node alone. -/
theorem hm_insert_zero (n : HNode) :
    ∃ r, hm_insert HMap.zero n = some r ∧ r.node = none ∧ r.map.newer.tab ≠ none ∧
      r.map.newer.mask = 3 ∧ r.map.newer.nbuckets = 4 ∧ r.map.newer.size = 1 ∧
      r.map.nodes = [n] ∧ r.map.older = HTab.zero := by
  obtain ⟨r, m2, hins, _, hl, _, hp, hnode⟩ := hm_insert_spec Inv_zero (fresh_zero n)
  have hz : (HMap.zero).nodes = [] := rfl
  rcases hl.cases with ⟨hold, _, htab, hsize, _, hmask, _⟩ | ⟨_, hne, _⟩
  · have hos : m2.older.size = 0 := by rw [hold]; rfl
    have hmoved := hp.moved
    have hold' : r.map.older = HTab.zero := hp.released (by omega)
    have hsz := hp.size
    have hos' : r.map.older.size = 0 := by rw [hold']; rfl
    simp only [hm_size] at hsz
    have htab' : r.map.newer.tab ≠ none := fun h0 => htab (hp.newer_tab.1 h0)
    have hm3 : r.map.newer.mask = 3 := by rw [hp.newer_mask, hmask rfl]
    refine ⟨r, hins, hnode, htab', hm3, ?_, ?_, ?_, hold'⟩
    · cases hbs : r.map.newer.tab with
      | none => exact absurd hbs htab'
      | some bs =>
        rw [nbuckets_of_tab_some hbs, hp.inv.newer.len bs hbs, hm3]
    · have h0 : (HMap.zero).newer.size = 0 := rfl
      omega
    · have := hp.perm.trans hl.perm
      rw [hz] at this
      exact List.perm_singleton.1 this
  · exact absurd rfl hne

/-- On a consistent map the buckets of older below the cursor are empty, a read at the
cursor while older holds an entry is inside the bucket array, and the migration slice
returns within `k_rehashing_work` plus the bucket count of older iterations. -/
theorem cursor_facts {m : HMap} (hinv : Inv m) :
    (∀ bs, m.older.tab = some bs → ∀ i, i < m.migrate_pos → ∀ ch : Chain,
      bs[i]? = some ch → ch = []) ∧
    (m.older.size > 0 → m.migrate_pos ≤ m.older.mask ∧
      ∃ bs, ∃ ch : Chain, m.older.tab = some bs ∧ bs[m.migrate_pos]? = some ch) ∧
    (∃ m' w i, hm_help_rehashing m = some (m', w, i) ∧
      i ≤ k_rehashing_work + m.older.nbuckets) := by
  refine ⟨hinv.cursor, ?_, ?_⟩
  · intro hs
    obtain ⟨bs, ch, hbs, hch, hlt⟩ := cursor_in_bounds hinv hs
    have hlen := hinv.older.len bs hbs
    rw [nbuckets_of_tab_some hbs] at hlt
    exact ⟨by omega, bs, ch, hbs, hch⟩
  · obtain ⟨m', w, i, hhelp, hp⟩ := hm_help_rehashing_spec hinv
    have h1 := hp.iters_le
    have h2 := hp.work_le
    exact ⟨m', w, i, hhelp, by omega⟩

/-- The map on which the migration slice of `hm_insert` runs, in closed form: the
node is linked into newer, giving `t1`; then either `t1` becomes older beside an empty
newer of twice the size, or only newer has changed. -/
theorem insert_link_cases {m : HMap} (hinv : Inv m) {n : HNode} (hf : Fresh m n) :
    ∃ t1 m2,
      h_insert (if m.newer.tab.isNone then ⟨some (List.replicate 4 []), 3, 0⟩ else m.newer) n
        = some t1 ∧
      t1.nbuckets = t1.mask + 1 ∧ insert_link m n = some m2 ∧
      (m.older.tab = none → k_max_load_factor * t1.nbuckets ≤ t1.size →
        m2 = ⟨⟨some (List.replicate (2 * t1.nbuckets) []), 2 * t1.nbuckets - 1, 0⟩, t1, 0⟩) ∧
      (m.older.tab = none → t1.size < k_max_load_factor * t1.nbuckets →
        m2 = ⟨t1, m.older, m.migrate_pos⟩) ∧
      (m.older.tab ≠ none → m2 = ⟨t1, m.older, m.migrate_pos⟩) := by
  obtain ⟨m2, hlink, _⟩ := insert_link_spec hinv hf
  have hinit : h_init 4 = some ⟨some (List.replicate 4 []), 3, 0⟩ := by decide
  have ok0 : TabOK (if m.newer.tab.isNone then ⟨some (List.replicate 4 []), 3, 0⟩
      else m.newer) := by
    split
    · exact TabOK_init 2 (le_refl _)
    · exact hinv.newer
  have hne0 : (if m.newer.tab.isNone then (⟨some (List.replicate 4 []), 3, 0⟩ : HTab)
      else m.newer).tab ≠ none := by
    split
    · simp
    · rename_i hn
      intro h0
      rw [h0] at hn
      simp at hn
  obtain ⟨t1, ht1⟩ := h_insert_some ok0 hne0 n
  obtain ⟨ok1, _, _, _, tab1, _⟩ := h_insert_spec ok0 ht1
  have hnb : t1.nbuckets = t1.mask + 1 := by
    cases hbs : t1.tab with
    | none => exact absurd hbs tab1
    | some bs => rw [nbuckets_of_tab_some hbs, ok1.len bs hbs]
  have hlink' : insert_link m n =
      (if m.older.tab.isNone then
        (if t1.size ≥ (t1.mask + 1) * k_max_load_factor then
          hm_trigger_rehashing ⟨t1, m.older, m.migrate_pos⟩
        else some ⟨t1, m.older, m.migrate_pos⟩)
      else some ⟨t1, m.older, m.migrate_pos⟩) := by
    unfold insert_link
    by_cases hn : m.newer.tab.isNone
    · rw [if_pos hn] at ht1
      simp only [hn, if_true, hinit, ht1]
    · rw [if_neg hn] at ht1
      simp only [hn, Bool.false_eq_true, if_false, ht1]
  refine ⟨t1, m2, ht1, hnb, hlink, ?_, ?_, ?_⟩
  · intro hold hge
    obtain ⟨k, _, hpow⟩ : ∃ k, 2 ≤ k ∧ t1.mask + 1 = 2 ^ k := by
      cases hbs : t1.tab with
      | none => exact absurd hbs tab1
      | some bs => exact ok1.pow2 bs hbs
    have hdouble : (t1.mask + 1) * 2 = 2 ^ (k + 1) := by rw [hpow, Nat.pow_succ]
    have hi := h_init_pow2 (k + 1)
    rw [← hdouble] at hi
    have hge' : t1.size ≥ (t1.mask + 1) * k_max_load_factor := by
      rw [hnb, Nat.mul_comm] at hge
      exact hge
    rw [hlink'] at hlink
    simp only [hold, Option.isNone_none, if_true, if_pos hge', hm_trigger_rehashing,
      Option.isSome_none, hi, Bool.false_eq_true, if_false, Option.some.injEq] at hlink
    rw [← hlink, hnb, Nat.mul_comm 2]
  · intro hold hlt
    have hlt' : ¬ (t1.size ≥ (t1.mask + 1) * k_max_load_factor) := by
      rw [hnb, Nat.mul_comm] at hlt
      omega
    rw [hlink'] at hlink
    simp only [hold, Option.isNone_none, if_true, if_neg hlt', Option.some.injEq] at hlink
    exact hlink.symm
  · intro hold
    rw [hlink'] at hlink
    have : m.older.tab.isNone = false := by
      cases ho : m.older.tab with
      | none => exact absurd ho hold
      | some bs => rfl
    simp only [this, Bool.false_eq_true, if_false, Option.some.injEq] at hlink
    exact hlink.symm

end MoreFacts

/-! ### The load factor -/

section LoadFactor

/-- The three ways `hm_delete` ends on a consistent map, after its migration slice
has turned the map into `m1`: no match, a match unlinked from newer, or no match in
newer and a match unlinked from older. -/
theorem hm_delete_cases {m : HMap} (hinv : Inv m) (key : HNode) (eq : HNode → HNode → Bool) :
    ∃ r m1, hm_delete m key eq = some r ∧
      hm_help_rehashing m = some (m1, r.work, r.iters) ∧ HelpPost m m1 r.work r.iters ∧
      ((r.node = none ∧ r.map = m1 ∧
          (∀ y ∈ m1.newer.nodes, ¬ (y.hcode = key.hcode ∧ eq y key = true)) ∧
          (∀ y ∈ m1.older.nodes, ¬ (y.hcode = key.hcode ∧ eq y key = true))) ∨
       (∃ s t' x, x ∈ m1.newer.nodes ∧ x.hcode = key.hcode ∧ eq x key = true ∧
          h_detach m1.newer s = some (t', x) ∧ r.node = some x ∧
          r.map = { m1 with newer := t' }) ∨
       (∃ s t' x, (∀ y ∈ m1.newer.nodes, ¬ (y.hcode = key.hcode ∧ eq y key = true)) ∧
          x ∈ m1.older.nodes ∧ x.hcode = key.hcode ∧ eq x key = true ∧
          h_detach m1.older s = some (t', x) ∧ r.node = some x ∧
          r.map = { m1 with older := t' })) := by
  obtain ⟨m1, w, i, hhelp, hp⟩ := hm_help_rehashing_spec hinv
  rcases h_lookup_spec hp.inv.newer key eq with ⟨hl1, hno1⟩ | ⟨s, x, hl1, hder, hmem, hm⟩
  · rcases h_lookup_spec hp.inv.older key eq with ⟨hl2, hno2⟩ | ⟨s, x, hl2, hder, hmem, hm⟩
    · refine ⟨⟨m1, none, w, i⟩, m1, ?_, hhelp, hp, Or.inl ⟨rfl, rfl, hno1, hno2⟩⟩
      simp [hm_delete, hhelp, hl1, hl2]
    · obtain ⟨t', hdet⟩ := h_detach_of_deref hder
      refine ⟨⟨{ m1 with older := t' }, some x, w, i⟩, m1, ?_, hhelp, hp,
        Or.inr (Or.inr ⟨s, t', x, hno1, hmem, hm.1, hm.2, hdet, rfl, rfl⟩)⟩
      simp [hm_delete, hhelp, hl1, hl2, hdet]
  · obtain ⟨t', hdet⟩ := h_detach_of_deref hder
    refine ⟨⟨{ m1 with newer := t' }, some x, w, i⟩, m1, ?_, hhelp, hp,
      Or.inr (Or.inl ⟨s, t', x, hmem, hm.1, hm.2, hdet, rfl, rfl⟩)⟩
    simp [hm_delete, hhelp, hl1, hdet]

theorem Load_zero : Load HMap.zero :=
  ⟨fun _ h => absurd rfl h, fun h => absurd rfl h⟩

/-- One migration slice restores the load bound from the slightly weaker bound that
holds after a node has been linked. -/
theorem help_load {m m' : HMap} {w i : Nat} (hinv : Inv m) (hp : HelpPost m m' w i)
    (h1 : m.older.tab = none → m.newer.tab ≠ none →
      m.newer.size < k_max_load_factor * (m.newer.mask + 1))
    (h2 : m.older.tab ≠ none →
      128 * m.newer.size + 129 * m.older.size ≤ 516 * (m.newer.mask + 1) + 128) :
    Load m' := by
  have hmoved := hp.moved
  have hweq := hp.work_eq
  have hsz := hp.size
  have hmask := hp.newer_mask
  simp only [hm_size] at hsz
  simp only [k_rehashing_work] at hweq
  by_cases hO : m'.older.size = 0
  · have hz := hp.released hO
    constructor
    · intro _ hnt
      have hnt' : m.newer.tab ≠ none := fun h0 => hnt (hp.newer_tab.2 h0)
      rw [hmask]
      by_cases hold : m.older.tab = none
      · have := h1 hold hnt'
        have hos : m.older.size = 0 := by
          rw [older_zero_of_size hinv.older hold]; rfl
        omega
      · have := h2 hold
        simp only [k_max_load_factor]
        omega
    · intro hne
      rw [hz] at hne
      exact absurd rfl hne
  · have hk := hp.kept (by omega)
    constructor
    · intro h0
      exact absurd h0 hk.2.2
    · intro _
      have hold : m.older.tab ≠ none := by
        intro h0
        have hos : m.older.size = 0 := by
          rw [older_zero_of_size hinv.older h0]; rfl
        omega
      have := h2 hold
      rw [hmask]
      omega

/-- The load bound holds in every reachable map. -/
theorem Reach.load {m : HMap} (h : Reach m) : Load m := by
  induction h with
  | zero => exact Load_zero
  | @insert m n r hr hf hins ih =>
    obtain ⟨r', m2, hins', _, hl, _, hp, _⟩ := hm_insert_spec hr.inv hf
    rw [hins] at hins'
    simp only [Option.some.injEq] at hins'
    subst hins'
    apply help_load hl.inv hp
    · intro hold hnt
      rcases hl.cases with ⟨ho, _, _, _, _, _, hlt⟩ | ⟨_, _, _, hne, _⟩
      · rw [ho] at hold
        rw [Nat.mul_comm]
        exact hlt hold
      · exact absurd hold hne
    · intro hold
      rcases hl.cases with ⟨ho, _, _, hsize, hmask, _, _⟩ | ⟨ho, hnt, _, _, _, _, hsize, _, hnew⟩
      · rw [ho] at hold ⊢
        have hnt := hr.inv.both hold
        have := ih.moving hold
        rw [hsize, hmask hnt]
        omega
      · have := ih.steady ho hnt
        simp only [k_max_load_factor] at this
        rw [hsize, hnew]
        simp only
        omega
  | @lookup m key eq r hr hl ih =>
    obtain ⟨r', hl', _, hp, _⟩ := hm_lookup_spec hr.inv key eq
    rw [hl] at hl'
    simp only [Option.some.injEq] at hl'
    subst hl'
    exact help_load hr.inv hp ih.steady (fun hold => by have := ih.moving hold; omega)
  | @delete m key eq r hr hd ih =>
    obtain ⟨r', m1, hd', _, hp, hcase⟩ := hm_delete_cases hr.inv key eq
    rw [hd] at hd'
    simp only [Option.some.injEq] at hd'
    subst hd'
    have hl1 : Load m1 :=
      help_load hr.inv hp ih.steady (fun hold => by have := ih.moving hold; omega)
    rcases hcase with ⟨_, hmap, _, _⟩ | ⟨s, t', x, _, _, _, hdet, _, hmap⟩ |
      ⟨s, t', x, _, _, _, _, hdet, _, hmap⟩
    · rw [hmap]; exact hl1
    · obtain ⟨_, _, mask1, size1, _, _, hder, _⟩ := h_detach_spec hp.inv.newer hdet
      have hnt := tab_some_of_deref hder
      rw [hmap]
      constructor
      · intro hold _
        have := hl1.steady hold hnt
        simp only [mask1]
        omega
      · intro hold
        have := hl1.moving hold
        simp only [mask1]
        omega
    · obtain ⟨_, _, mask1, size1, tab1, _, hder, _⟩ := h_detach_spec hp.inv.older hdet
      have hnt := tab_some_of_deref hder
      rw [hmap]
      constructor
      · intro hold
        exact absurd hold tab1
      · intro _
        have := hl1.moving hnt
        simp only
        omega
  | clear _ _ => exact Load_zero

end LoadFactor

/-! ### An older table without entries -/

section EmptyOlder

/-- A lookup during a migration with at least 128 entries in older moves exactly 128
of them. -/
theorem lookup_step {m : HMap} (h : Reach m) (hs : 128 ≤ m.older.size) :
    ∃ m', Reach m' ∧ m'.older.size + 128 = m.older.size := by
  obtain ⟨r, hl, _, hp, _⟩ := hm_lookup_spec h.inv ⟨0, 0⟩ same_record
  refine ⟨r.map, Reach.lookup h hl, ?_⟩
  have h1 := hp.moved
  have h2 := hp.work_eq
  simp only [k_rehashing_work] at h2
  omega

/-- A delete during a migration with at least 129 entries in older, for the key of a
node that is still in older after the slice: 128 entries are moved and one is
unlinked from older, whose bucket array stays. -/
theorem delete_older_step {m : HMap} (h : Reach m) (hs : 129 ≤ m.older.size) :
    ∃ key eq r, hm_delete m key eq = some r ∧ Reach r.map ∧
      r.map.older.size + 129 = m.older.size ∧ r.map.older.tab ≠ none := by
  obtain ⟨m1, w, i, hhelp, hp⟩ := hm_help_rehashing_spec h.inv
  have h1 := hp.moved
  have h2 := hp.work_eq
  simp only [k_rehashing_work] at h2
  have hne : m1.older.nodes ≠ [] := by
    intro h0
    have := hp.inv.older.count
    rw [h0] at this
    simp at this
    omega
  obtain ⟨x, hx⟩ := List.exists_mem_of_ne_nil _ hne
  obtain ⟨r, m1', hd, hhelp', _, hcase⟩ := hm_delete_cases h.inv x same_record
  rw [hhelp] at hhelp'
  simp only [Option.some.injEq, Prod.mk.injEq] at hhelp'
  obtain ⟨hm1, _, _⟩ := hhelp'
  subst hm1
  have hself : x.hcode = x.hcode ∧ same_record x x = true := ⟨rfl, by simp [same_record]⟩
  refine ⟨x, same_record, r, hd, Reach.delete h hd, ?_⟩
  rcases hcase with ⟨_, _, _, hno⟩ | ⟨s, t', y, hy, _, hyeq, _, _, _⟩ |
    ⟨s, t', y, _, _, _, _, hdet, _, hmap⟩
  · exact absurd hself (hno x hx)
  · exfalso
    have hid : y.id = x.id := by simpa [same_record] using hyeq
    have hnd := hp.inv.nodup
    rw [HMap.nodes, List.map_append] at hnd
    exact (List.nodup_append.1 hnd).2.2 (List.mem_map_of_mem HNode.id hy)
      (by rw [hid]; exact List.mem_map_of_mem HNode.id hx)
  · obtain ⟨_, _, _, size1, tab1, _, _, _⟩ := h_detach_spec hp.inv.older hdet
    rw [hmap]
    refine ⟨?_, tab1⟩
    simp only
    omega

/-- From an older table whose entry count is 129 plus a suitable surplus, lookups and
deletes bring the count to exactly 129. -/
theorem steer_to_129 : ∀ (t : Nat) (m : HMap), Reach m → m.older.size = 129 + t →
    (t % 128) * 129 ≤ t → ∃ m', Reach m' ∧ m'.older.size = 129 := by
  intro t
  induction t using Nat.strong_induction_on with
  | _ t ih =>
    intro m h hs ht
    by_cases h0 : t = 0
    · subst h0
      exact ⟨m, h, hs⟩
    · by_cases hr : t % 128 = 0
      · have hge : 128 ≤ t := by omega
        obtain ⟨m', hr', hs'⟩ := lookup_step h (by omega)
        exact ih (t - 128) (by omega) m' hr' (by omega) (by
          have : (t - 128) % 128 = 0 := by omega
          rw [this]
          omega)
      · have hge : 129 ≤ t := by
          have : 1 ≤ t % 128 := by omega
          have : 129 ≤ (t % 128) * 129 := by nlinarith
          omega
        obtain ⟨_, _, r, _, hr', hs', _⟩ := delete_older_step h (by omega)
        have hmod : (t - 129) % 128 = t % 128 - 1 := by omega
        exact ih (t - 129) (by omega) r.map hr' (by omega) (by
          rw [hmod]
          have : (t % 128 - 1) * 129 + 129 = (t % 128) * 129 := by
            have h1 : 1 ≤ t % 128 := by omega
            have : t % 128 - 1 + 1 = t % 128 := by omega
            calc (t % 128 - 1) * 129 + 129 = (t % 128 - 1 + 1) * 129 := by ring
              _ = (t % 128) * 129 := by rw [this]
          omega)

/-- There is a reachable map with a migration in progress and many entries left in
older. -/
theorem big_older : ∃ m, Reach m ∧ 32640 ≤ m.older.size := by
  obtain ⟨m, ha⟩ := all_ones_exists 12 12 (by decide) (le_refl _)
  obtain ⟨m', n, m2, ha', _, hf, hlink, hl, _, _, hs, _, _⟩ :=
    all_ones_trigger (2 ^ 12 * k_max_load_factor) m ha (by omega)
  obtain ⟨r, m2', hins, hlink', _, _, hp, _⟩ := hm_insert_spec ha'.reach.inv hf
  rw [hlink] at hlink'
  simp only [Option.some.injEq] at hlink'
  subst hlink'
  refine ⟨r.map, Reach.insert ha'.reach hf hins, ?_⟩
  have h1 := hp.moved
  have h2 := hp.work_le
  simp only [k_rehashing_work] at h2
  have hbig : 2 ^ 12 * 8 ≤ m2.older.size := by
    rcases hl.cases with ⟨hold, _⟩ | ⟨_, _, _, _, _, _, _, hge, _⟩
    · have : m2.older.size = 0 := by
        rw [hold, older_zero_of_size ha'.reach.inv.older ha'.older]; rfl
      omega
    · rw [ha'.mask] at hge
      exact hge
  have : (2 : Nat) ^ 12 * 8 = 32768 := by norm_num
  omega

/-- Some reachable `hm_delete` returns with older empty and its bucket array still
allocated. -/
theorem delete_leaves_empty_older :
    ∃ m key eq r, Reach m ∧ m.older.size = 129 ∧ hm_delete m key eq = some r ∧
      Reach r.map ∧ r.map.older.size = 0 ∧ r.map.older.tab ≠ none := by
  obtain ⟨m0, h0, hs0⟩ := big_older
  obtain ⟨m, hr, hs⟩ := steer_to_129 (m0.older.size - 129) m0 h0 (by omega) (by
    have : (m0.older.size - 129) % 128 < 128 := Nat.mod_lt _ (by decide)
    have : (m0.older.size - 129) % 128 * 129 ≤ 127 * 129 :=
      Nat.mul_le_mul_right _ (by omega)
    omega)
  obtain ⟨key, eq, r, hd, hr', hs', htab⟩ := delete_older_step hr (by omega)
  exact ⟨m, key, eq, r, hr, hs, hd, hr', by omega, htab⟩

end EmptyOlder

/-! ### Following one node through the migration slice -/

section Tracking

theorem h_insert_inv {t t1 : HTab} {a : HNode} (h : h_insert t a = some t1) :
    ∃ bs, ∃ ch : Chain, t.tab = some bs ∧ bs[a.hcode &&& t.mask]? = some ch ∧
      t1 = ⟨some (bs.set (a.hcode &&& t.mask) (a :: ch)), t.mask, t.size + 1⟩ := by
  unfold h_insert at h
  cases hbs : t.tab with
  | none => simp [hbs] at h
  | some bs =>
    simp only [hbs] at h
    cases hch : bs[a.hcode &&& t.mask]? with
    | none => simp [hch] at h
    | some ch =>
      simp only [hch, Option.some.injEq] at h
      exact ⟨bs, ch, rfl, hch, h.symm⟩

theorem h_detach_head_inv {t t1 : HTab} {p : Nat} {a : HNode}
    (h : h_detach t (p, 0) = some (t1, a)) :
    ∃ bs, ∃ rest : Chain, t.tab = some bs ∧ bs[p]? = some (a :: rest) ∧
      t1 = ⟨some (bs.set p rest), t.mask, t.size - 1⟩ := by
  unfold h_detach at h
  cases hbs : t.tab with
  | none => simp [hbs] at h
  | some bs =>
    simp only [hbs] at h
    cases hch : bs[p]? with
    | none => simp [hch] at h
    | some ch =>
      simp only [hch] at h
      cases ch with
      | nil => simp at h
      | cons b rest =>
        simp only [List.getElem?_cons_zero, Option.some.injEq, Prod.mk.injEq,
          List.eraseIdx_cons_zero] at h
        obtain ⟨h1, h2⟩ := h
        subst h2
        exact ⟨bs, rest, rfl, hch, h1.symm⟩

/-- Induction over the iterations of the migration loop: a property of the map that
holds at the start and is kept by a cursor advance and by a move holds when the loop
stops. -/
theorem rehash_loop_induct (P : HMap → Prop)
    (hadv : ∀ m bs, Inv m → P m → m.older.tab = some bs → bs[m.migrate_pos]? = some [] →
      P { m with migrate_pos := m.migrate_pos + 1 })
    (hmove : ∀ m older1 newer1 a, Inv m → P m →
      h_detach m.older (m.migrate_pos, 0) = some (older1, a) →
      h_insert m.newer a = some newer1 → P { m with newer := newer1, older := older1 }) :
    ∀ (fuel : Nat) (m : HMap) (w i : Nat) (m' : HMap) (w' i' : Nat), Inv m → P m →
      rehash_loop fuel m w i = some (m', w', i') → P m' ∧ Inv m' := by
  intro fuel
  induction fuel with
  | zero => intro m w i m' w' i' _ _ h; simp [rehash_loop] at h
  | succ fuel ih =>
    intro m w i m' w' i' hinv hP h
    rw [rehash_loop] at h
    by_cases hc : w < k_rehashing_work ∧ m.older.size > 0
    · rw [if_pos hc] at h
      cases hbs : m.older.tab with
      | none => simp [hbs] at h
      | some bs =>
        simp only [hbs] at h
        cases hch : bs[m.migrate_pos]? with
        | none => simp [hch] at h
        | some ch =>
          cases ch with
          | nil =>
            simp only [hch] at h
            exact ih _ w (i + 1) m' w' i' (advance_rel hinv hbs hch).inv
              (hadv m bs hinv hP hbs hch) h
          | cons a rest =>
            obtain ⟨older1, newer1, hdet, hins, hrel, _, _⟩ := move_rel hinv hbs hch
            simp only [hch, hdet, hins] at h
            exact ih _ (w + 1) (i + 1) m' w' i' hrel.inv
              (hmove m older1 newer1 a hinv hP hdet hins) h
    · rw [if_neg hc] at h
      simp only [Option.some.injEq, Prod.mk.injEq] at h
      rw [← h.1]
      exact ⟨hP, hinv⟩

/-- The same induction for one whole call of `hm_help_rehashing`, which may release
an older table that has no entry left. -/
theorem help_induct (P : HMap → Prop)
    (hadv : ∀ m bs, Inv m → P m → m.older.tab = some bs → bs[m.migrate_pos]? = some [] →
      P { m with migrate_pos := m.migrate_pos + 1 })
    (hmove : ∀ m older1 newer1 a, Inv m → P m →
      h_detach m.older (m.migrate_pos, 0) = some (older1, a) →
      h_insert m.newer a = some newer1 → P { m with newer := newer1, older := older1 })
    (hfree : ∀ m, Inv m → P m → m.older.size = 0 → P { m with older := HTab.zero })
    {m m' : HMap} {w i : Nat} (hinv : Inv m) (hP : P m)
    (h : hm_help_rehashing m = some (m', w, i)) : P m' := by
  unfold hm_help_rehashing at h
  cases hrun : rehash_loop (k_rehashing_work + m.older.nbuckets + 1) m 0 0 with
  | none => simp [hrun] at h
  | some res =>
    obtain ⟨m1, w1, i1⟩ := res
    obtain ⟨hP1, hinv1⟩ := rehash_loop_induct P hadv hmove _ m 0 0 m1 w1 i1 hinv hP hrun
    simp only [hrun] at h
    by_cases hfr : m1.older.size = 0 ∧ m1.older.tab.isSome
    · rw [if_pos hfr] at h
      simp only [Option.some.injEq, Prod.mk.injEq] at h
      rw [← h.1]
      exact hfree m1 hinv1 hP1 hfr.1
    · rw [if_neg hfr] at h
      simp only [Option.some.injEq, Prod.mk.injEq] at h
      rw [← h.1]
      exact hP1

theorem Inv.nodes_nodup {m : HMap} (h : Inv m) : m.nodes.Nodup :=
  List.Nodup.of_map HNode.id h.nodup

theorem placed_advance {old0 : List HNode} {n : HNode} {m : HMap} (h : Placed old0 n m) :
    Placed old0 n { m with migrate_pos := m.migrate_pos + 1 } :=
  ⟨h.in_older, h.in_newer, h.older_sub, h.older_len⟩

theorem placed_free {old0 : List HNode} {n : HNode} {m : HMap} (h : Placed old0 n m)
    (hs : m.older.size = 0) : Placed old0 n { m with older := HTab.zero } := by
  refine ⟨?_, ?_, ?_, ?_⟩
  · intro hn
    simp [HTab.nodes, HTab.buckets, HTab.zero] at hn
  · intro hn
    obtain ⟨bs, pre, rest, h1, h2, h3, h4⟩ := h.in_newer hn
    refine ⟨bs, pre, rest, h1, h2, h3, ?_⟩
    simp only [HTab.zero]
    omega
  · intro x hx
    simp [HTab.nodes, HTab.buckets, HTab.zero] at hx
  · simp [HTab.zero]

theorem placed_move {old0 : List HNode} {n : HNode} {m : HMap} (hinv : Inv m)
    (h : Placed old0 n m) {older1 newer1 : HTab} {a : HNode}
    (hdet : h_detach m.older (m.migrate_pos, 0) = some (older1, a))
    (hins : h_insert m.newer a = some newer1) :
    Placed old0 n { m with newer := newer1, older := older1 } := by
  obtain ⟨bso, resto, htabo, hbo, hold1⟩ := h_detach_head_inv hdet
  obtain ⟨bsn, chn, htabn, hbn, hnew1⟩ := h_insert_inv hins
  obtain ⟨_, permo, _, sizeo, _, _, _, _⟩ := h_detach_spec hinv.older hdet
  obtain ⟨_, permn, _, _, _, _⟩ := h_insert_spec hinv.newer hins
  have ha_old : a ∈ m.older.nodes := by
    rw [nodes_of_tab_some htabo]
    exact mem_flatten_of_bucket hbo (List.mem_cons_self _ _)
  have hsub : ∀ x ∈ older1.nodes, x ∈ m.older.nodes :=
    fun x hx => permo.subset (List.mem_cons_of_mem _ hx)
  have hnd_old : (a :: older1.nodes).Nodup := by
    have := hinv.nodes_nodup
    rw [HMap.nodes] at this
    exact permo.nodup_iff.2 (List.nodup_append.1 this).2.1
  have hqlt : a.hcode &&& m.newer.mask < bsn.length := by
    by_contra hge
    rw [List.getElem?_eq_none (by omega)] at hbn
    simp at hbn
  refine ⟨?_, ?_, fun x hx => h.older_sub x (hsub x hx), ?_⟩
  · intro hn
    simp only at hn ⊢
    obtain ⟨bs, rest, h1, h2⟩ := h.in_older (hsub n hn)
    rw [htabo] at h1
    simp only [Option.some.injEq] at h1
    subst h1
    have hne : m.migrate_pos ≠ n.hcode &&& m.older.mask := by
      intro heq
      rw [← heq, hbo] at h2
      simp only [Option.some.injEq, List.cons.injEq] at h2
      rw [h2.1] at hnd_old
      exact (List.nodup_cons.1 hnd_old).1 hn
    refine ⟨bso.set m.migrate_pos resto, rest, by rw [hold1], ?_⟩
    rw [hold1]
    simp only
    rw [List.getElem?_set_ne hne]
    exact h2
  · intro hn
    simp only at hn ⊢
    rw [hnew1]
    simp only
    by_cases hna : n = a
    · subst hna
      refine ⟨_, [], chn, rfl, ?_, by simp, ?_⟩
      · rw [List.getElem?_set, if_pos rfl, if_pos hqlt]
        rfl
      · have := h.older_len
        simp only [List.length_nil]
        omega
    · have hn' : n ∈ m.newer.nodes := by
        rcases List.mem_cons.1 (permn.subset hn) with h0 | h0
        · exact absurd h0 hna
        · exact h0
      obtain ⟨bs, pre, rest, h1, h2, h3, h4⟩ := h.in_newer hn'
      rw [htabn] at h1
      simp only [Option.some.injEq] at h1
      subst h1
      by_cases hq : a.hcode &&& m.newer.mask = n.hcode &&& m.newer.mask
      · rw [← hq, hbn] at h2
        simp only [Option.some.injEq] at h2
        subst h2
        refine ⟨_, a :: pre, rest, rfl, ?_, ?_, ?_⟩
        · rw [← hq, List.getElem?_set, if_pos rfl, if_pos hqlt]
          rfl
        · intro x hx
          rcases List.mem_cons.1 hx with h0 | h0
          · rw [h0]; exact h.older_sub a ha_old
          · exact h3 x h0
        · simp only [List.length_cons]
          omega
      · refine ⟨_, pre, rest, rfl, ?_, h3, by omega⟩
        rw [List.getElem?_set_ne hq]
        exact h2
  · have := h.older_len
    simp only
    omega

/-- Where the node is when `hm_help_rehashing` returns, given where it was when the
call started. -/
theorem placed_help {old0 : List HNode} {n : HNode} {m m' : HMap} {w i : Nat} (hinv : Inv m)
    (h : Placed old0 n m) (hhelp : hm_help_rehashing m = some (m', w, i)) :
    Placed old0 n m' :=
  help_induct (Placed old0 n) (fun _ _ _ hP _ _ => placed_advance hP)
    (fun _ _ _ _ hi hP hd hs => placed_move hi hP hd hs)
    (fun _ _ hP hs => placed_free hP hs) hinv h hhelp

/-- A node of newer is still in newer when `hm_help_rehashing` returns. -/
theorem newer_mem_help {n : HNode} {m m' : HMap} {w i : Nat} (hinv : Inv m)
    (h : n ∈ m.newer.nodes) (hhelp : hm_help_rehashing m = some (m', w, i)) :
    n ∈ m'.newer.nodes :=
  help_induct (fun m => n ∈ m.newer.nodes) (fun _ _ _ hP _ _ => hP)
    (fun _ _ _ _ hi hP _ hs =>
      (h_insert_spec hi.newer hs).2.1.symm.subset (List.mem_cons_of_mem _ hP))
    (fun _ _ hP _ => hP) hinv h hhelp

/-- When the node has just been linked it is the head of its bucket chain, in newer or,
if this insert started a migration, in the table that became older. -/
theorem placed_link {m : HMap} (hinv : Inv m) {n : HNode} (hf : Fresh m n) {m2 : HMap}
    (hlink : insert_link m n = some m2) :
    Placed m2.older.nodes n m2 ∧
      (n ∈ m2.newer.nodes → ∃ bs, ∃ rest : Chain, m2.newer.tab = some bs ∧
        bs[n.hcode &&& m2.newer.mask]? = some (n :: rest)) ∧
      ((m.older.tab = none → m2.older.tab = none) → n ∈ m2.newer.nodes) ∧
      (m.older.tab = none → m2.older.tab ≠ none → n ∈ m2.older.nodes) := by
  obtain ⟨t1, m2', ht1, _, hlink', h1, h2, h3⟩ := insert_link_cases hinv hf
  rw [hlink] at hlink'
  simp only [Option.some.injEq] at hlink'
  subst hlink'
  obtain ⟨bs, ch, htab0, hb0, ht1eq⟩ := h_insert_inv ht1
  have hmask : t1.mask = (if m.newer.tab.isNone then (⟨some (List.replicate 4 []), 3, 0⟩ : HTab)
      else m.newer).mask := by rw [ht1eq]
  have hlt : n.hcode &&& t1.mask < bs.length := by
    rw [hmask]
    by_contra hge
    rw [List.getElem?_eq_none (by omega)] at hb0
    simp at hb0
  have hhead : ∃ bs', ∃ rest : Chain, t1.tab = some bs' ∧
      bs'[n.hcode &&& t1.mask]? = some (n :: rest) := by
    refine ⟨bs.set (n.hcode &&& t1.mask) (n :: ch), ch, by rw [ht1eq, ← hmask], ?_⟩
    rw [List.getElem?_set, if_pos rfl, if_pos hlt]
  have hn1 : n ∈ t1.nodes := by
    obtain ⟨bs', rest, hb1, hb2⟩ := hhead
    rw [nodes_of_tab_some hb1]
    exact mem_flatten_of_bucket hb2 (List.mem_cons_self _ _)
  have hlen : ∀ t : HTab, TabOK t → t.size ≤ t.nodes.length := fun t ht => by rw [ht.count]
  obtain ⟨m2'', hlink'', hl⟩ := insert_link_spec hinv hf
  rw [hlink] at hlink''
  simp only [Option.some.injEq] at hlink''
  subst hlink''
  have hnot_old : n ∉ m.older.nodes := by
    intro h0
    exact hf n (List.mem_append_right _ h0) rfl
  by_cases hold : m.older.tab = none
  · by_cases hge : k_max_load_factor * t1.nbuckets ≤ t1.size
    · have hm2 := h1 hold hge
      have hnew_nodes : m2.newer.nodes = [] := by
        rw [hm2]
        simp [HTab.nodes, HTab.buckets, flatten_replicate_nil]
      have hold2 : m2.older = t1 := by rw [hm2]
      have htab2 : m2.older.tab ≠ none := by
        rw [hold2, ht1eq]
        simp
      refine ⟨⟨?_, ?_, fun x hx => hx, ?_⟩, ?_, ?_, ?_⟩
      · intro _
        rw [hold2]
        exact hhead
      · intro hn
        rw [hnew_nodes] at hn
        simp at hn
      · exact hlen _ hl.inv.older
      · intro hn
        rw [hnew_nodes] at hn
        simp at hn
      · intro himp
        exact absurd (himp hold) htab2
      · intro _ _
        rw [hold2]
        exact hn1
    · have hm2 := h2 hold (by omega)
      have hnew2 : m2.newer = t1 := by rw [hm2]
      have hold2 : m2.older = m.older := by rw [hm2]
      refine ⟨⟨?_, ?_, fun x hx => hx, ?_⟩, ?_, ?_, ?_⟩
      · intro hn
        rw [hold2] at hn
        exact absurd hn hnot_old
      · intro _
        rw [hnew2]
        obtain ⟨bs', rest, hb1, hb2⟩ := hhead
        exact ⟨bs', [], rest, hb1, hb2, by simp, by
          simp only [List.length_nil, Nat.zero_add]
          exact hlen _ hl.inv.older⟩
      · exact hlen _ hl.inv.older
      · intro _
        rw [hnew2]
        exact hhead
      · intro _
        rw [hnew2]
        exact hn1
      · intro _ hne
        rw [hold2] at hne
        exact absurd hold hne
  · have hm2 := h3 hold
    have hnew2 : m2.newer = t1 := by rw [hm2]
    have hold2 : m2.older = m.older := by rw [hm2]
    refine ⟨⟨?_, ?_, fun x hx => hx, ?_⟩, ?_, ?_, ?_⟩
    · intro hn
      rw [hold2] at hn
      exact absurd hn hnot_old
    · intro _
      rw [hnew2]
      obtain ⟨bs', rest, hb1, hb2⟩ := hhead
      exact ⟨bs', [], rest, hb1, hb2, by simp, by
        simp only [List.length_nil, Nat.zero_add]
        exact hlen _ hl.inv.older⟩
    · exact hlen _ hl.inv.older
    · intro _
      rw [hnew2]
      exact hhead
    · intro _
      rw [hnew2]
      exact hn1
    · intro h0
      exact absurd h0 hold

end Tracking

/-! ### The claims, continued -/

section Claims2

/-- C11: `hm_insert` of a fresh node on a reachable map first links the node into
newer (initialised with four buckets on first use), giving table `t1`.  With no
migration in progress, a migration starts exactly when `t1.size` has reached
`k_max_load_factor` = 8 times the bucket count of `t1`: then `t1`, with all its
entries, becomes older, newer becomes an empty table of twice the bucket count and the
cursor is 0 when the migration slice starts; below that load, and whenever a migration
is already in progress, only newer changes. -/
theorem growth_trigger {m : HMap} (h : Reach m) {n : HNode} (hf : Fresh m n) :
    ∃ t1 m2 r,
      h_insert (if m.newer.tab.isNone then ⟨some (List.replicate 4 []), 3, 0⟩ else m.newer) n
        = some t1 ∧
      t1.nbuckets = t1.mask + 1 ∧ insert_link m n = some m2 ∧ hm_insert m n = some r ∧
      hm_help_rehashing m2 = some (r.map, r.work, r.iters) ∧
      (m.older.tab = none → k_max_load_factor * t1.nbuckets ≤ t1.size →
        m2 = ⟨⟨some (List.replicate (2 * t1.nbuckets) []), 2 * t1.nbuckets - 1, 0⟩, t1, 0⟩) ∧
      (m.older.tab = none → t1.size < k_max_load_factor * t1.nbuckets →
        m2 = ⟨t1, m.older, m.migrate_pos⟩) ∧
      (m.older.tab ≠ none → m2 = ⟨t1, m.older, m.migrate_pos⟩) := by
  obtain ⟨r, m2, hins, hlink, _, hhelp, _, _⟩ := hm_insert_spec h.inv hf
  obtain ⟨t1, m2', ht1, hnb, hlink', h1, h2, h3⟩ := insert_link_cases h.inv hf
  rw [hlink] at hlink'
  simp only [Option.some.injEq] at hlink'
  subst hlink'
  exact ⟨t1, m2, r, ht1, hnb, hlink, hins, hhelp, h1, h2, h3⟩

set_option maxRecDepth 100000 in
/-- C11 at the 32nd insert on a map first used with four buckets: none of the first 31
inserts starts a migration; the 32nd does, with 32 entries in the four-bucket table
that becomes older, cursor 0 and an empty newer table of 8 buckets, and newer has 8
buckets when it returns. -/
theorem growth_trigger_witness :
    Reach (sample_map 31) ∧ Fresh (sample_map 31) ⟨31, 31⟩ ∧
    (∃ t1 m2 r,
      h_insert (if (sample_map 31).newer.tab.isNone then ⟨some (List.replicate 4 []), 3, 0⟩
        else (sample_map 31).newer) ⟨31, 31⟩ = some t1 ∧
      t1.nbuckets = t1.mask + 1 ∧ insert_link (sample_map 31) ⟨31, 31⟩ = some m2 ∧
      hm_insert (sample_map 31) ⟨31, 31⟩ = some r ∧
      hm_help_rehashing m2 = some (r.map, r.work, r.iters) ∧
      ((sample_map 31).older.tab = none → k_max_load_factor * t1.nbuckets ≤ t1.size →
        m2 = ⟨⟨some (List.replicate (2 * t1.nbuckets) []), 2 * t1.nbuckets - 1, 0⟩, t1, 0⟩) ∧
      ((sample_map 31).older.tab = none → t1.size < k_max_load_factor * t1.nbuckets →
        m2 = ⟨t1, (sample_map 31).older, (sample_map 31).migrate_pos⟩) ∧
      ((sample_map 31).older.tab ≠ none →
        m2 = ⟨t1, (sample_map 31).older, (sample_map 31).migrate_pos⟩)) ∧
    (∀ k, k < 31 →
      (insert_link (sample_map k) ⟨k, k⟩).map (fun m2 => m2.older.tab.isNone) = some true) ∧
    (insert_link (sample_map 31) ⟨31, 31⟩).map
        (fun m2 => (m2.older.nbuckets, m2.older.size, m2.migrate_pos, m2.newer.nbuckets,
          m2.newer.size)) = some (4, 32, 0, 8, 0) ∧
    (hm_insert (sample_map 31) ⟨31, 31⟩).map (fun r => r.map.newer.nbuckets) = some 8 :=
  ⟨(sample_map_spec 31).2.1, sample_map_fresh 31 31,
    growth_trigger (sample_map_spec 31).2.1 (sample_map_fresh 31 31),
    by decide, by decide, by decide⟩

/-- C12: after `hm_clear` on any map the map is the zero-initialised map: no bucket
array in either table, sizes, masks and cursor 0; so `hm_size` is 0, `hm_lookup` and
`hm_delete` of any key return `NULL` and leave the map as it is, and a following
`hm_insert` is a first insert: newer gets four buckets and holds the node alone. -/
theorem hm_clear_resets (m : HMap) (key n : HNode) (eq : HNode → HNode → Bool) :
    hm_clear m = HMap.zero ∧
    (hm_clear m).newer.tab = none ∧ (hm_clear m).older.tab = none ∧
    (hm_clear m).newer.size = 0 ∧ (hm_clear m).older.size = 0 ∧
    (hm_clear m).newer.mask = 0 ∧ (hm_clear m).older.mask = 0 ∧
    (hm_clear m).migrate_pos = 0 ∧ hm_size (hm_clear m) = 0 ∧
    hm_lookup (hm_clear m) key eq = some ⟨HMap.zero, none, 0, 0⟩ ∧
    hm_delete (hm_clear m) key eq = some ⟨HMap.zero, none, 0, 0⟩ ∧
    hm_insert (hm_clear m) n = hm_insert HMap.zero n ∧
    ∃ r, hm_insert (hm_clear m) n = some r ∧ r.map.newer.tab ≠ none ∧
      r.map.newer.mask = 3 ∧ r.map.newer.nbuckets = 4 ∧ r.map.newer.size = 1 ∧
      r.map.nodes = [n] ∧ r.map.older = HTab.zero := by
  refine ⟨rfl, rfl, rfl, rfl, rfl, rfl, rfl, rfl, rfl, rfl, rfl, rfl, ?_⟩
  obtain ⟨r, h1, _, h2⟩ := hm_insert_zero n
  exact ⟨r, h1, h2⟩

/-- C14 (as stated, refuted): it is not true that in every reachable map older has a
bucket array only if it holds an entry.  An `hm_delete` on a map with 129 entries in
older, for the key of the entry that its slice leaves in older, returns with
`older.size = 0` and the bucket array of older still allocated. -/
theorem older_array_without_entries :
    ¬ ∀ m : HMap, Reach m → (m.older.tab ≠ none → m.older.size > 0) := by
  intro hall
  obtain ⟨m, key, eq, r, _, _, _, hr', hs, htab⟩ := delete_leaves_empty_older
  have := hall r.map hr' htab
  omega

/-- C14 (amended): on every reachable map, when `hm_insert` or `hm_lookup` returns,
older has a bucket array only if it holds an entry, and an older without entries is
all-zero; after `hm_clear` older is all-zero.  When `hm_delete` returns, older can
have a bucket array and no entry only if older held exactly 129 entries before the
call and the call unlinked a node.  An older without entries is all-zero after the
next `hm_insert`, `hm_lookup` or `hm_delete`. -/
theorem older_released {m : HMap} (h : Reach m) :
    (∀ n, Fresh m n → ∃ r, hm_insert m n = some r ∧
      (r.map.older.size = 0 → r.map.older = HTab.zero) ∧
      (r.map.older.tab ≠ none → 0 < r.map.older.size)) ∧
    (∀ key eq, ∃ r, hm_lookup m key eq = some r ∧
      (r.map.older.size = 0 → r.map.older = HTab.zero) ∧
      (r.map.older.tab ≠ none → 0 < r.map.older.size)) ∧
    (hm_clear m).older = HTab.zero ∧
    (∀ key eq, ∃ r, hm_delete m key eq = some r ∧
      (r.map.older.tab ≠ none → r.map.older.size = 0 →
        m.older.size = 129 ∧ r.node ≠ none)) ∧
    (m.older.size = 0 →
      (∀ n, Fresh m n → m.older.tab ≠ none →
        ∃ r, hm_insert m n = some r ∧ r.map.older = HTab.zero) ∧
      (∀ key eq, ∃ r, hm_lookup m key eq = some r ∧ r.map.older = HTab.zero) ∧
      (∀ key eq, ∃ r, hm_delete m key eq = some r ∧ r.map.older = HTab.zero)) := by
  have hzero : ∀ t : HTab, (t.size = 0 → t = HTab.zero) → t.tab ≠ none → 0 < t.size := by
    intro t ht hne
    by_contra h0
    rw [ht (by omega)] at hne
    exact hne rfl
  refine ⟨?_, ?_, rfl, ?_, ?_⟩
  · intro n hf
    obtain ⟨r, _, hins, _, _, _, hp, _⟩ := hm_insert_spec h.inv hf
    exact ⟨r, hins, hp.released, hzero _ hp.released⟩
  · intro key eq
    obtain ⟨r, hl, _, hp, _⟩ := hm_lookup_spec h.inv key eq
    exact ⟨r, hl, hp.released, hzero _ hp.released⟩
  · intro key eq
    obtain ⟨r, m1, hd, _, hp, hcase⟩ := hm_delete_cases h.inv key eq
    refine ⟨r, hd, ?_⟩
    intro htab hs
    have h1 := hp.moved
    have h2 := hp.work_eq
    simp only [k_rehashing_work] at h2
    rcases hcase with ⟨_, hmap, _, _⟩ | ⟨s, t', x, _, _, _, _, _, hmap⟩ |
      ⟨s, t', x, _, _, _, _, hdet, hnode, hmap⟩
    · rw [hmap] at htab hs
      rw [hp.released hs] at htab
      exact absurd rfl htab
    · rw [hmap] at htab hs
      simp only at htab hs
      rw [hp.released hs] at htab
      exact absurd rfl htab
    · obtain ⟨_, _, _, size1, _, _, _, _⟩ := h_detach_spec hp.inv.older hdet
      rw [hmap] at hs
      simp only at hs
      refine ⟨by omega, ?_⟩
      rw [hnode]
      simp
  · intro hs
    refine ⟨?_, ?_, ?_⟩
    · intro n hf hne
      obtain ⟨r, m2, hins, _, hl, _, hp, _⟩ := hm_insert_spec h.inv hf
      refine ⟨r, hins, hp.released ?_⟩
      rcases hl.cases with ⟨hold, _⟩ | ⟨hnone, _⟩
      · have h1 := hp.moved
        rw [hold] at h1
        omega
      · exact absurd hnone hne
    · intro key eq
      obtain ⟨r, hl, _, hp, _⟩ := hm_lookup_spec h.inv key eq
      have h1 := hp.moved
      exact ⟨r, hl, hp.released (by omega)⟩
    · intro key eq
      obtain ⟨r, m1, hd, _, hp, hcase⟩ := hm_delete_cases h.inv key eq
      have h1 := hp.moved
      have hz : m1.older = HTab.zero := hp.released (by omega)
      refine ⟨r, hd, ?_⟩
      rcases hcase with ⟨_, hmap, _, _⟩ | ⟨s, t', x, _, _, _, _, _, hmap⟩ |
        ⟨s, t', x, _, hx, _⟩
      · rw [hmap]; exact hz
      · rw [hmap]; exact hz
      · rw [hz] at hx
        simp [HTab.nodes, HTab.buckets, HTab.zero] at hx

/-- C14 (amended) at the map holding the 256 sample records, where older holds 128
entries. -/
theorem older_released_witness :
    Reach (sample_map 256) ∧
    (∀ n, Fresh (sample_map 256) n → ∃ r, hm_insert (sample_map 256) n = some r ∧
      (r.map.older.size = 0 → r.map.older = HTab.zero) ∧
      (r.map.older.tab ≠ none → 0 < r.map.older.size)) ∧
    (∀ key eq, ∃ r, hm_lookup (sample_map 256) key eq = some r ∧
      (r.map.older.size = 0 → r.map.older = HTab.zero) ∧
      (r.map.older.tab ≠ none → 0 < r.map.older.size)) ∧
    (hm_clear (sample_map 256)).older = HTab.zero ∧
    (∀ key eq, ∃ r, hm_delete (sample_map 256) key eq = some r ∧
      (r.map.older.tab ≠ none → r.map.older.size = 0 →
        (sample_map 256).older.size = 129 ∧ r.node ≠ none)) ∧
    ((sample_map 256).older.size = 0 →
      (∀ n, Fresh (sample_map 256) n → (sample_map 256).older.tab ≠ none →
        ∃ r, hm_insert (sample_map 256) n = some r ∧ r.map.older = HTab.zero) ∧
      (∀ key eq, ∃ r, hm_lookup (sample_map 256) key eq = some r ∧
        r.map.older = HTab.zero) ∧
      (∀ key eq, ∃ r, hm_delete (sample_map 256) key eq = some r ∧
        r.map.older = HTab.zero)) :=
  ⟨(sample_map_spec 256).2.1, older_released (sample_map_spec 256).2.1⟩

set_option maxRecDepth 100000 in
/-- C15 (as stated, refuted): the 256th insert of the sample records starts a
migration; the table it linked node 255 into becomes older, the slice moves 128 other
entries, and when `hm_insert` returns node 255 is chained in older, not in newer. -/
theorem insert_lands_in_older :
    Reach (sample_map 255) ∧ Fresh (sample_map 255) ⟨255, 255⟩ ∧
    (hm_insert (sample_map 255) ⟨255, 255⟩).map
      (fun r => (decide ((⟨255, 255⟩ : HNode) ∈ r.map.newer.nodes),
        decide ((⟨255, 255⟩ : HNode) ∈ r.map.older.nodes))) = some (false, true) :=
  ⟨(sample_map_spec 255).2.1, sample_map_fresh 255 255, by decide⟩

/-- C15 (amended): when `hm_insert` of a fresh node on a reachable map returns, the
node is chained in exactly one of the two tables.  It is chained in newer whenever
this call did not start a migration.  When the call starts a migration, the table the
node was linked into has become older: the node is in older, not in newer, when the
migration slice of the call starts. -/
theorem insert_stores_node {m : HMap} (h : Reach m) {n : HNode} (hf : Fresh m n) :
    ∃ r m2, hm_insert m n = some r ∧ insert_link m n = some m2 ∧
      hm_help_rehashing m2 = some (r.map, r.work, r.iters) ∧
      (n ∈ r.map.newer.nodes ∨ n ∈ r.map.older.nodes) ∧
      ¬ (n ∈ r.map.newer.nodes ∧ n ∈ r.map.older.nodes) ∧
      ((m.older.tab = none → m2.older.tab = none) →
        n ∈ r.map.newer.nodes ∧ n ∉ r.map.older.nodes) ∧
      (m.older.tab = none → m2.older.tab ≠ none →
        n ∈ m2.older.nodes ∧ n ∉ m2.newer.nodes) := by
  obtain ⟨r, m2, hins, hlink, hl, hhelp, hp, _⟩ := hm_insert_spec h.inv hf
  obtain ⟨_, _, hnew, hold⟩ := placed_link h.inv hf hlink
  have hmem : n ∈ r.map.nodes :=
    (hp.perm.trans hl.perm).symm.subset (List.mem_cons_self _ _)
  have hdisj : ∀ m' : HMap, Inv m' → ¬ (n ∈ m'.newer.nodes ∧ n ∈ m'.older.nodes) := by
    intro m' hinv' hboth
    have := hinv'.nodes_nodup
    rw [HMap.nodes] at this
    exact (List.nodup_append.1 this).2.2 hboth.1 hboth.2
  refine ⟨r, m2, hins, hlink, hhelp, List.mem_append.1 hmem, hdisj _ hp.inv, ?_, ?_⟩
  · intro hno
    have hn := newer_mem_help hl.inv (hnew hno) hhelp
    exact ⟨hn, fun h0 => hdisj _ hp.inv ⟨hn, h0⟩⟩
  · intro h1 h2
    have hn := hold h1 h2
    exact ⟨hn, fun h0 => hdisj _ hl.inv ⟨h0, hn⟩⟩

/-- C15 (amended) at the 256th insert of the sample records. -/
theorem insert_stores_node_witness :
    Reach (sample_map 255) ∧ Fresh (sample_map 255) ⟨255, 255⟩ ∧
    ∃ r m2, hm_insert (sample_map 255) ⟨255, 255⟩ = some r ∧
      insert_link (sample_map 255) ⟨255, 255⟩ = some m2 ∧
      hm_help_rehashing m2 = some (r.map, r.work, r.iters) ∧
      ((⟨255, 255⟩ : HNode) ∈ r.map.newer.nodes ∨ (⟨255, 255⟩ : HNode) ∈ r.map.older.nodes) ∧
      ¬ ((⟨255, 255⟩ : HNode) ∈ r.map.newer.nodes ∧ (⟨255, 255⟩ : HNode) ∈ r.map.older.nodes) ∧
      (((sample_map 255).older.tab = none → m2.older.tab = none) →
        (⟨255, 255⟩ : HNode) ∈ r.map.newer.nodes ∧ (⟨255, 255⟩ : HNode) ∉ r.map.older.nodes) ∧
      ((sample_map 255).older.tab = none → m2.older.tab ≠ none →
        (⟨255, 255⟩ : HNode) ∈ m2.older.nodes ∧ (⟨255, 255⟩ : HNode) ∉ m2.newer.nodes) :=
  ⟨(sample_map_spec 255).2.1, sample_map_fresh 255 255,
    insert_stores_node (sample_map_spec 255).2.1 (sample_map_fresh 255 255)⟩

set_option maxRecDepth 100000 in
/-- C16 (as stated, refuted): on the map holding the 256 sample records a migration
is in progress; `hm_insert` of a fresh node with hash code 16 links it at the head of
bucket 16 of newer, and the slice of the same call then moves the nodes 208, 144, 16
and 80 from older into that bucket, in front of it. -/
theorem insert_not_head :
    Reach (sample_map 256) ∧ Fresh (sample_map 256) ⟨256, 16⟩ ∧
    (hm_insert (sample_map 256) ⟨256, 16⟩).map (fun r => r.map.newer.buckets[16]?) =
      some (some [⟨80, 80⟩, ⟨16, 16⟩, ⟨144, 144⟩, ⟨208, 208⟩, ⟨256, 16⟩]) :=
  ⟨(sample_map_spec 256).2.1, sample_map_fresh 256 16, by decide⟩

/-- C16 (amended): `hm_insert` of a fresh node on a reachable map links the node at
the head of its bucket chain (in newer, or in the table that becomes older when the
call starts a migration).  When the call returns, a node that is in older is still the
head of its chain; for a node that is in newer, the nodes in front of it in its chain
are nodes that the migration slice of the call moved there from older, at most
`work` of them, so it is the head when the slice moved nothing. -/
theorem insert_head_placement {m : HMap} (h : Reach m) {n : HNode} (hf : Fresh m n) :
    ∃ r m2, hm_insert m n = some r ∧ insert_link m n = some m2 ∧
      hm_help_rehashing m2 = some (r.map, r.work, r.iters) ∧
      (n ∈ m2.newer.nodes → ∃ bs, ∃ rest : Chain, m2.newer.tab = some bs ∧
        bs[n.hcode &&& m2.newer.mask]? = some (n :: rest)) ∧
      (n ∈ m2.older.nodes → ∃ bs, ∃ rest : Chain, m2.older.tab = some bs ∧
        bs[n.hcode &&& m2.older.mask]? = some (n :: rest)) ∧
      (n ∈ r.map.older.nodes → ∃ bs, ∃ rest : Chain, r.map.older.tab = some bs ∧
        bs[n.hcode &&& r.map.older.mask]? = some (n :: rest)) ∧
      (n ∈ r.map.newer.nodes → ∃ bs, ∃ pre rest : Chain, r.map.newer.tab = some bs ∧
        bs[n.hcode &&& r.map.newer.mask]? = some (pre ++ n :: rest) ∧
        (∀ x ∈ pre, x ∈ m2.older.nodes) ∧ pre.length ≤ r.work) ∧
      (r.work = 0 → n ∈ r.map.newer.nodes → ∃ bs, ∃ rest : Chain,
        r.map.newer.tab = some bs ∧
        bs[n.hcode &&& r.map.newer.mask]? = some (n :: rest)) := by
  obtain ⟨r, m2, hins, hlink, hl, hhelp, hp, _⟩ := hm_insert_spec h.inv hf
  obtain ⟨hpl, hnew, _, _⟩ := placed_link h.inv hf hlink
  have hpl' := placed_help hl.inv hpl hhelp
  have hcount := hl.inv.older.count
  have hmoved := hp.moved
  have hfin : n ∈ r.map.newer.nodes → ∃ bs, ∃ pre rest : Chain, r.map.newer.tab = some bs ∧
      bs[n.hcode &&& r.map.newer.mask]? = some (pre ++ n :: rest) ∧
      (∀ x ∈ pre, x ∈ m2.older.nodes) ∧ pre.length ≤ r.work := by
    intro hn
    obtain ⟨bs, pre, rest, h1, h2, h3, h4⟩ := hpl'.in_newer hn
    exact ⟨bs, pre, rest, h1, h2, h3, by omega⟩
  refine ⟨r, m2, hins, hlink, hhelp, hnew, hpl.in_older, hpl'.in_older, hfin, ?_⟩
  intro hw hn
  obtain ⟨bs, pre, rest, h1, h2, _, h4⟩ := hfin hn
  have : pre = [] := List.length_eq_zero.1 (by omega)
  subst this
  exact ⟨bs, rest, h1, h2⟩

/-- C16 (amended) at the map holding the 256 sample records and a fresh node with hash
code 16. -/
theorem insert_head_placement_witness :
    Reach (sample_map 256) ∧ Fresh (sample_map 256) ⟨256, 16⟩ ∧
    ∃ r m2, hm_insert (sample_map 256) ⟨256, 16⟩ = some r ∧
      insert_link (sample_map 256) ⟨256, 16⟩ = some m2 ∧
      hm_help_rehashing m2 = some (r.map, r.work, r.iters) ∧
      ((⟨256, 16⟩ : HNode) ∈ m2.newer.nodes → ∃ bs, ∃ rest : Chain, m2.newer.tab = some bs ∧
        bs[(⟨256, 16⟩ : HNode).hcode &&& m2.newer.mask]? = some (⟨256, 16⟩ :: rest)) ∧
      ((⟨256, 16⟩ : HNode) ∈ m2.older.nodes → ∃ bs, ∃ rest : Chain, m2.older.tab = some bs ∧
        bs[(⟨256, 16⟩ : HNode).hcode &&& m2.older.mask]? = some (⟨256, 16⟩ :: rest)) ∧
      ((⟨256, 16⟩ : HNode) ∈ r.map.older.nodes → ∃ bs, ∃ rest : Chain,
        r.map.older.tab = some bs ∧
        bs[(⟨256, 16⟩ : HNode).hcode &&& r.map.older.mask]? = some (⟨256, 16⟩ :: rest)) ∧
      ((⟨256, 16⟩ : HNode) ∈ r.map.newer.nodes → ∃ bs, ∃ pre rest : Chain,
        r.map.newer.tab = some bs ∧
        bs[(⟨256, 16⟩ : HNode).hcode &&& r.map.newer.mask]? = some (pre ++ ⟨256, 16⟩ :: rest) ∧
        (∀ x ∈ pre, x ∈ m2.older.nodes) ∧ pre.length ≤ r.work) ∧
      (r.work = 0 → (⟨256, 16⟩ : HNode) ∈ r.map.newer.nodes → ∃ bs, ∃ rest : Chain,
        r.map.newer.tab = some bs ∧
        bs[(⟨256, 16⟩ : HNode).hcode &&& r.map.newer.mask]? = some (⟨256, 16⟩ :: rest)) :=
  ⟨(sample_map_spec 256).2.1, sample_map_fresh 256 16,
    insert_head_placement (sample_map_spec 256).2.1 (sample_map_fresh 256 16)⟩

/-- C17: in every reachable map, a table that has a bucket array has `mask + 1`
buckets, and `mask + 1` is a power of two that is at least 4; so the assertion of
`h_init` holds at both places it is called from, with 4 and with twice the bucket
count of newer, and `hm_insert` returns. -/
theorem table_sizes_pow2 {m : HMap} (h : Reach m) :
    (∀ bs, m.newer.tab = some bs →
      bs.length = m.newer.mask + 1 ∧ 4 ≤ m.newer.mask + 1 ∧ ∃ k, m.newer.mask + 1 = 2 ^ k) ∧
    (∀ bs, m.older.tab = some bs →
      bs.length = m.older.mask + 1 ∧ 4 ≤ m.older.mask + 1 ∧ ∃ k, m.older.mask + 1 = 2 ^ k) ∧
    (h_init 4).isSome = true ∧
    (∀ bs, m.newer.tab = some bs → (h_init ((m.newer.mask + 1) * 2)).isSome = true) ∧
    (∀ n, Fresh m n → ∃ r, hm_insert m n = some r) := by
  have key : ∀ t : HTab, TabOK t → ∀ bs, t.tab = some bs →
      bs.length = t.mask + 1 ∧ 4 ≤ t.mask + 1 ∧ ∃ k, t.mask + 1 = 2 ^ k := by
    intro t ht bs hbs
    obtain ⟨k, hk, hpow⟩ := ht.pow2 bs hbs
    refine ⟨ht.len bs hbs, ?_, k, hpow⟩
    rw [hpow]
    calc 4 = 2 ^ 2 := rfl
      _ ≤ 2 ^ k := Nat.pow_le_pow_right (by decide) hk
  refine ⟨key _ h.inv.newer, key _ h.inv.older, by decide, ?_, ?_⟩
  · intro bs hbs
    obtain ⟨k, _, hpow⟩ := h.inv.newer.pow2 bs hbs
    have : (m.newer.mask + 1) * 2 = 2 ^ (k + 1) := by rw [hpow, Nat.pow_succ]
    rw [this, h_init_pow2]
    rfl
  · intro n hf
    obtain ⟨r, _, hins, _⟩ := hm_insert_spec h.inv hf
    exact ⟨r, hins⟩

/-- C17 at the map holding the 256 sample records, where both tables have a bucket
array. -/
theorem table_sizes_pow2_witness :
    Reach (sample_map 256) ∧
    (∀ bs, (sample_map 256).newer.tab = some bs →
      bs.length = (sample_map 256).newer.mask + 1 ∧ 4 ≤ (sample_map 256).newer.mask + 1 ∧
        ∃ k, (sample_map 256).newer.mask + 1 = 2 ^ k) ∧
    (∀ bs, (sample_map 256).older.tab = some bs →
      bs.length = (sample_map 256).older.mask + 1 ∧ 4 ≤ (sample_map 256).older.mask + 1 ∧
        ∃ k, (sample_map 256).older.mask + 1 = 2 ^ k) ∧
    (h_init 4).isSome = true ∧
    (∀ bs, (sample_map 256).newer.tab = some bs →
      (h_init (((sample_map 256).newer.mask + 1) * 2)).isSome = true) ∧
    (∀ n, Fresh (sample_map 256) n → ∃ r, hm_insert (sample_map 256) n = some r) :=
  ⟨(sample_map_spec 256).2.1, table_sizes_pow2 (sample_map_spec 256).2.1⟩

/-- C18: in every reachable map, every node chained in bucket `i` of newer or of
older has `hcode & mask = i` for the mask of that table. -/
theorem bucket_placement {m : HMap} (h : Reach m) :
    (∀ bs, m.newer.tab = some bs → ∀ (i : Nat) (ch : Chain), bs[i]? = some ch →
      ∀ n ∈ ch, n.hcode &&& m.newer.mask = i) ∧
    (∀ bs, m.older.tab = some bs → ∀ (i : Nat) (ch : Chain), bs[i]? = some ch →
      ∀ n ∈ ch, n.hcode &&& m.older.mask = i) :=
  ⟨h.inv.newer.place, h.inv.older.place⟩

/-- C18 at the map holding the 256 sample records, where both tables hold nodes and
half of them have been moved by migration. -/
theorem bucket_placement_witness :
    Reach (sample_map 256) ∧
    (∀ bs, (sample_map 256).newer.tab = some bs → ∀ (i : Nat) (ch : Chain), bs[i]? = some ch →
      ∀ n ∈ ch, n.hcode &&& (sample_map 256).newer.mask = i) ∧
    (∀ bs, (sample_map 256).older.tab = some bs → ∀ (i : Nat) (ch : Chain), bs[i]? = some ch →
      ∀ n ∈ ch, n.hcode &&& (sample_map 256).older.mask = i) :=
  ⟨(sample_map_spec 256).2.1, bucket_placement (sample_map_spec 256).2.1⟩

/-- C19: in every reachable map every bucket of older below `migrate_pos` is empty;
so when older holds an entry the cursor is at most `older.mask` and the read of
`older.tab[migrate_pos]` is inside the bucket array, and `hm_help_rehashing` returns
(no read of its loop leaves the array, and the loop ends within 128 plus the bucket
count of older iterations).  The same holds for the map on which the slice inside
`hm_insert` runs. -/
theorem cursor_safety {m : HMap} (h : Reach m) :
    ((∀ bs, m.older.tab = some bs → ∀ i, i < m.migrate_pos → ∀ ch : Chain,
        bs[i]? = some ch → ch = []) ∧
      (m.older.size > 0 → m.migrate_pos ≤ m.older.mask ∧
        ∃ bs, ∃ ch : Chain, m.older.tab = some bs ∧ bs[m.migrate_pos]? = some ch) ∧
      (∃ m' w i, hm_help_rehashing m = some (m', w, i) ∧
        i ≤ k_rehashing_work + m.older.nbuckets)) ∧
    ∀ n, Fresh m n → ∃ m2, insert_link m n = some m2 ∧
      (∀ bs, m2.older.tab = some bs → ∀ i, i < m2.migrate_pos → ∀ ch : Chain,
        bs[i]? = some ch → ch = []) ∧
      (m2.older.size > 0 → m2.migrate_pos ≤ m2.older.mask ∧
        ∃ bs, ∃ ch : Chain, m2.older.tab = some bs ∧ bs[m2.migrate_pos]? = some ch) ∧
      (∃ m' w i, hm_help_rehashing m2 = some (m', w, i) ∧
        i ≤ k_rehashing_work + m2.older.nbuckets) := by
  refine ⟨cursor_facts h.inv, ?_⟩
  intro n hf
  obtain ⟨m2, hlink, hl⟩ := insert_link_spec h.inv hf
  exact ⟨m2, hlink, cursor_facts hl.inv⟩

/-- C19 at the map holding the 256 sample records, where the cursor stands at bucket
15 of the 32 buckets of older. -/
theorem cursor_safety_witness :
    Reach (sample_map 256) ∧
    ((∀ bs, (sample_map 256).older.tab = some bs → ∀ i, i < (sample_map 256).migrate_pos →
        ∀ ch : Chain, bs[i]? = some ch → ch = []) ∧
      ((sample_map 256).older.size > 0 →
        (sample_map 256).migrate_pos ≤ (sample_map 256).older.mask ∧
        ∃ bs, ∃ ch : Chain, (sample_map 256).older.tab = some bs ∧
          bs[(sample_map 256).migrate_pos]? = some ch) ∧
      (∃ m' w i, hm_help_rehashing (sample_map 256) = some (m', w, i) ∧
        i ≤ k_rehashing_work + (sample_map 256).older.nbuckets)) ∧
    ∀ n, Fresh (sample_map 256) n → ∃ m2, insert_link (sample_map 256) n = some m2 ∧
      (∀ bs, m2.older.tab = some bs → ∀ i, i < m2.migrate_pos → ∀ ch : Chain,
        bs[i]? = some ch → ch = []) ∧
      (m2.older.size > 0 → m2.migrate_pos ≤ m2.older.mask ∧
        ∃ bs, ∃ ch : Chain, m2.older.tab = some bs ∧ bs[m2.migrate_pos]? = some ch) ∧
      (∃ m' w i, hm_help_rehashing m2 = some (m', w, i) ∧
        i ≤ k_rehashing_work + m2.older.nbuckets) :=
  ⟨(sample_map_spec 256).2.1, cursor_safety (sample_map_spec 256).2.1⟩

/-- C20: whenever a public operation has returned a reachable map with no migration
in progress (older has no bucket array) and newer has a bucket array, `newer.size` is
below `k_max_load_factor` = 8 times the bucket count of newer, also after inserts that
were made during a migration without a load check. -/
theorem load_factor_bound {m : HMap} (h : Reach m) (hold : m.older.tab = none)
    (hnew : m.newer.tab ≠ none) :
    k_max_load_factor = 8 ∧ m.newer.nbuckets = m.newer.mask + 1 ∧
      m.newer.size < k_max_load_factor * m.newer.nbuckets := by
  have hnb : m.newer.nbuckets = m.newer.mask + 1 := by
    cases hbs : m.newer.tab with
    | none => exact absurd hbs hnew
    | some bs => rw [nbuckets_of_tab_some hbs, h.inv.newer.len bs hbs]
  refine ⟨rfl, hnb, ?_⟩
  rw [hnb]
  exact h.load.steady hold hnew

set_option maxRecDepth 100000 in
/-- C20 at the map holding the 40 sample records: the migration started by the 32nd
insert is over, newer has 8 buckets. -/
theorem load_factor_bound_witness :
    Reach (sample_map 40) ∧ (sample_map 40).older.tab = none ∧
    (sample_map 40).newer.tab ≠ none ∧
    k_max_load_factor = 8 ∧ (sample_map 40).newer.nbuckets = (sample_map 40).newer.mask + 1 ∧
      (sample_map 40).newer.size < k_max_load_factor * (sample_map 40).newer.nbuckets :=
  ⟨(sample_map_spec 40).2.1, by decide, by decide,
    load_factor_bound (sample_map_spec 40).2.1 (by decide) (by decide)⟩

end Claims2

end HashTable

namespace AVL

/-- C13: `avl_height` and `avl_count` return 0 for a null subtree and the stored
height and count otherwise; after `avl_init`, whatever the node held before, it has no
parent and no children, height 1 and count 1, so its height is one more than the
larger child height and its count one more than the child counts (I2 and I3); no other
node is touched. -/
theorem avl_init_leaf (heap : Heap) (node a : Nat) :
    avl_height heap none = 0 ∧ avl_count heap none = 0 ∧
    avl_height heap (some a) = (heap a).height ∧ avl_count heap (some a) = (heap a).count ∧
    (avl_init heap node node).parent = none ∧ (avl_init heap node node).left = none ∧
    (avl_init heap node node).right = none ∧
    (avl_init heap node node).height = 1 ∧ (avl_init heap node node).count = 1 ∧
    (avl_init heap node node).height =
      1 + max (avl_height (avl_init heap node) (avl_init heap node node).left)
        (avl_height (avl_init heap node) (avl_init heap node node).right) ∧
    (avl_init heap node node).count =
      1 + avl_count (avl_init heap node) (avl_init heap node node).left +
        avl_count (avl_init heap node) (avl_init heap node node).right ∧
    (∀ b, b ≠ node → avl_init heap node b = heap b) := by
  refine ⟨rfl, rfl, rfl, rfl, ?_, ?_, ?_, ?_, ?_, ?_, ?_, ?_⟩
  · simp [avl_init]
  · simp [avl_init]
  · simp [avl_init]
  · simp [avl_init]
  · simp [avl_init]
  · simp [avl_init, avl_height]
  · simp [avl_init, avl_count]
  · intro b hb
    simp [avl_init, hb]

end AVL
